import Mathlib

/-!
Verification of the `dandy` automata library against its specification.

The automata core (DFA, NFA, regex, table format) is modelled from the
specification; the context-free-grammar parser and validator are embedded
from the Rust sources (`src/dandy/src/grammar/parse.rs`,
`src/dandy/src/parser/grammar.rs`).

Text is represented as `List Char`; symbols and state names are
`List Char` values, matching the source's `&str` tokens.
-/

namespace Dandy

/-- A symbol token or text fragment: a list of characters. -/
abbrev Str := List Char

instance {ε α : Type} [DecidableEq ε] [DecidableEq α] : DecidableEq (Except ε α) :=
  fun x y =>
    match x, y with
    | .ok a, .ok b => decidable_of_iff (a = b)
        ⟨fun h => congrArg _ h, fun h => Except.ok.inj h⟩
    | .ok _, .error _ => .isFalse (fun hc => Except.noConfusion hc)
    | .error _, .ok _ => .isFalse (fun hc => Except.noConfusion hc)
    | .error e, .error f => decidable_of_iff (e = f)
        ⟨fun h => congrArg _ h, fun h => Except.error.inj h⟩

/-! ## Data model (modelled from the spec, §3)

A DFA state has a name, an accepting flag, and one transition (a state
index) per alphabet position.  The `initial` flag of the Rust struct is
determined, on valid automata, by the automaton's `initialState` index,
so we keep only the index. -/

/-- Modelled from the spec: a DFA state (§3). `transitions` is keyed by
alphabet position; each value is a target state index. -/
structure DfaState where
  name : Str
  accepting : Bool
  transitions : List Nat
deriving DecidableEq, Repr, Inhabited

/-- Modelled from the spec: a DFA (§3): an alphabet (no ε), a vector of
states, and the index of the initial state. -/
structure Dfa where
  alphabet : List Str
  states : List DfaState
  initialState : Nat
deriving DecidableEq, Repr

/-- Modelled from the spec: an NFA state (§3).  `transitions` is keyed by
alphabet position; each value is the list of target state indices in the
order they were listed in the source text (design note (c): the order is
kept as a sequence).  ε-transitions live in the dedicated
`epsilonTransitions` list. -/
structure NfaState where
  name : Str
  accepting : Bool
  epsilonTransitions : List Nat
  transitions : List (List Nat)
deriving DecidableEq, Repr

instance : Inhabited NfaState := ⟨⟨[], false, [], []⟩⟩

/-- Modelled from the spec: an NFA (§3).  The ε column, when present in
the source table, is moved out by the validator (§4.2 step 1), so the
stored alphabet never contains ε. -/
structure Nfa where
  alphabet : List Str
  states : List NfaState
  initialState : Nat
deriving DecidableEq, Repr

/-! ## Structural well-formedness -/

/-- Structural well-formedness of a DFA: at least one state, initial
index in range, every row has exactly one transition per alphabet symbol,
and every referenced index is valid (spec §3 invariants). -/
def Dfa.WF (d : Dfa) : Prop :=
  d.states ≠ [] ∧ d.initialState < d.states.length ∧
    ∀ s ∈ d.states, s.transitions.length = d.alphabet.length ∧
      ∀ t ∈ s.transitions, t < d.states.length

instance (d : Dfa) : Decidable d.WF := by
  unfold Dfa.WF; infer_instance

/-- Structural well-formedness of an NFA (spec §3 invariants, with
set-valued transitions and an ε list per state). -/
def Nfa.WF (n : Nfa) : Prop :=
  n.states ≠ [] ∧ n.initialState < n.states.length ∧
    ∀ s ∈ n.states, s.transitions.length = n.alphabet.length ∧
      (∀ ts ∈ s.transitions, ∀ t ∈ ts, t < n.states.length) ∧
      (∀ t ∈ s.epsilonTransitions, t < n.states.length)

instance (n : Nfa) : Decidable n.WF := by
  unfold Nfa.WF; infer_instance

/-! ## Index lookup

`idxOf a l` is the position of the first occurrence of `a` in `l`
(`l.length` when absent), mirroring the name-to-index resolution of the
validator and the symbol lookup of acceptance. -/

/-- First index of `a` in `l`; `l.length` if `a` is absent. -/
def idxOf {α : Type} [DecidableEq α] (a : α) : List α → Nat
  | [] => 0
  | b :: l => if b = a then 0 else idxOf a l + 1

theorem idxOf_lt_length {α : Type} [DecidableEq α] {a : α} {l : List α} (h : a ∈ l) :
    idxOf a l < l.length := by
  induction l with
  | nil => cases h
  | cons b l ih =>
    unfold idxOf
    by_cases hb : b = a
    · simp [hb]
    · have : a ∈ l := by
        cases List.mem_cons.mp h with
        | inl h' => exact absurd h'.symm hb
        | inr h' => exact h'
      simp only [if_neg hb, List.length_cons]
      exact Nat.succ_lt_succ (ih this)

theorem getElem_idxOf {α : Type} [DecidableEq α] {a : α} {l : List α} (h : a ∈ l) :
    l.getD (idxOf a l) a = a := by
  induction l with
  | nil => cases h
  | cons b l ih =>
    unfold idxOf
    by_cases hb : b = a
    · simp [hb]
    · have : a ∈ l := by
        cases List.mem_cons.mp h with
        | inl h' => exact absurd h'.symm hb
        | inr h' => exact h'
      simp only [if_neg hb]
      simpa using ih this

/-! ## DFA acceptance (spec §4.3)

Walk from the initial state; for each token, advance via its
alphabet-indexed transition.  Accept iff the final state is accepting.
If a token is not in the alphabet, acceptance is false. -/

/-- One transition step on state index `q` reading alphabet position `x`. -/
def Dfa.stepIdx (d : Dfa) (q x : Nat) : Nat :=
  ((d.states.getD q default).transitions).getD x 0

/-- Run over a word of alphabet positions. -/
def Dfa.runIdx (d : Dfa) (q : Nat) (w : List Nat) : Nat :=
  w.foldl d.stepIdx q

/-- Whether state index `q` is accepting. -/
def Dfa.accIdx (d : Dfa) (q : Nat) : Bool :=
  (d.states.getD q default).accepting

/-- Modelled from the spec: DFA acceptance (§4.3).  Tokens are looked up
by position in the alphabet; a token outside the alphabet rejects the
whole input. -/
def Dfa.accepts (d : Dfa) (w : List Str) : Bool :=
  if ∀ tok ∈ w, tok ∈ d.alphabet then
    d.accIdx (d.runIdx d.initialState (w.map (fun tok => idxOf tok d.alphabet)))
  else false

/-! ## DFA product construction (spec §4.3)

States are pairs `(a, b)` laid out in row-major order, so the pair
`(i, j)` has index `i * nB + j`; the transition on `x` sends `(a, b)` to
`(δA a x, δB b x)`; acceptance combines both flags with the operation's
Boolean. -/

/-- The canonical pair-state name `(a,b)` (spec §4.3). -/
def pairName (a b : Str) : Str :=
  '(' :: a ++ ',' :: b ++ [')']

/-- Modelled from the spec: the DFA product construction (§4.3), with
acceptance combined by `op`.  All pairs are materialized, in row-major
order. -/
def Dfa.product (op : Bool → Bool → Bool) (A B : Dfa) : Dfa :=
  let nB := B.states.length
  { alphabet := A.alphabet
    states := (List.range (A.states.length * nB)).map (fun k =>
      let i := k / nB
      let j := k % nB
      { name := pairName (A.states.getD i default).name (B.states.getD j default).name
        accepting := op (A.accIdx i) (B.accIdx j)
        transitions := (List.range A.alphabet.length).map
          (fun x => A.stepIdx i x * nB + B.stepIdx j x) })
    initialState := A.initialState * nB + B.initialState }

/-- Errors of the DFA engine operations (spec §7). -/
inductive DfaError where
  | alphabetMismatch
deriving DecidableEq, Repr

/-- Modelled from the spec: intersection via product construction; errors
with `AlphabetMismatch` when the alphabets differ (§4.3). -/
def Dfa.intersection (A B : Dfa) : Except DfaError Dfa :=
  if A.alphabet = B.alphabet then .ok (Dfa.product and A B) else .error .alphabetMismatch

/-- Modelled from the spec: union via product construction (§4.3). -/
def Dfa.union (A B : Dfa) : Except DfaError Dfa :=
  if A.alphabet = B.alphabet then .ok (Dfa.product or A B) else .error .alphabetMismatch

/-- Modelled from the spec: difference via product construction (§4.3). -/
def Dfa.difference (A B : Dfa) : Except DfaError Dfa :=
  if A.alphabet = B.alphabet then .ok (Dfa.product (fun a b => a && !b) A B)
  else .error .alphabetMismatch

/-- Modelled from the spec: symmetric difference via product construction
(§4.3). -/
def Dfa.symmetricDifference (A B : Dfa) : Except DfaError Dfa :=
  if A.alphabet = B.alphabet then .ok (Dfa.product (fun a b => a != b) A B)
  else .error .alphabetMismatch

/-! ## Lemmas about the product construction -/

theorem getD_map_range {α : Type} (f : Nat → α) (m q : Nat) (d : α) (h : q < m) :
    (((List.range m).map f).getD q d) = f q := by
  rw [List.getD_eq_getElem?_getD, List.getElem?_map, List.getElem?_range h]
  rfl

theorem pair_encode_div {nB i j : Nat} (hj : j < nB) : (i * nB + j) / nB = i := by
  have hnB : 0 < nB := Nat.lt_of_le_of_lt (Nat.zero_le _) hj
  rw [Nat.mul_comm i nB, Nat.mul_add_div hnB, Nat.div_eq_of_lt hj, Nat.add_zero]

theorem pair_encode_mod {nB i j : Nat} (hj : j < nB) : (i * nB + j) % nB = j := by
  rw [Nat.mul_comm i nB, Nat.mul_add_mod, Nat.mod_eq_of_lt hj]

theorem pair_encode_lt {nA nB i j : Nat} (hi : i < nA) (hj : j < nB) :
    i * nB + j < nA * nB := by
  calc i * nB + j < i * nB + nB := by omega
    _ = (i + 1) * nB := by ring
    _ ≤ nA * nB := Nat.mul_le_mul_right _ hi

theorem Dfa.product_accIdx (op : Bool → Bool → Bool) (A B : Dfa) {i j : Nat}
    (hi : i < A.states.length) (hj : j < B.states.length) :
    (Dfa.product op A B).accIdx (i * B.states.length + j) = op (A.accIdx i) (B.accIdx j) := by
  unfold Dfa.product Dfa.accIdx
  simp only
  rw [getD_map_range _ _ _ _ (pair_encode_lt hi hj)]
  rw [pair_encode_div hj, pair_encode_mod hj]

theorem Dfa.product_stepIdx (op : Bool → Bool → Bool) (A B : Dfa) {i j x : Nat}
    (hi : i < A.states.length) (hj : j < B.states.length) (hx : x < A.alphabet.length) :
    (Dfa.product op A B).stepIdx (i * B.states.length + j) x =
      A.stepIdx i x * B.states.length + B.stepIdx j x := by
  unfold Dfa.product Dfa.stepIdx
  simp only
  rw [getD_map_range _ _ _ _ (pair_encode_lt hi hj)]
  simp only
  rw [pair_encode_div hj, pair_encode_mod hj]
  rw [getD_map_range _ _ _ _ hx]

/-- A well-formed DFA's step never leaves the state range. -/
theorem Dfa.stepIdx_lt {d : Dfa} (hd : d.WF) {q : Nat} (hq : q < d.states.length) (x : Nat) :
    d.stepIdx q x < d.states.length := by
  obtain ⟨hne, hinit, hrows⟩ := hd
  unfold Dfa.stepIdx
  have hmem : d.states.getD q default ∈ d.states := by
    rw [List.getD_eq_getElem?_getD, List.getElem?_eq_getElem hq]
    exact List.getElem_mem _
  obtain ⟨hlen, htgt⟩ := hrows _ hmem
  by_cases hx : x < (d.states.getD q default).transitions.length
  · have hGet : (d.states.getD q default).transitions.getD x 0 =
        (d.states.getD q default).transitions[x] := by
      rw [List.getD_eq_getElem?_getD, List.getElem?_eq_getElem hx]
      rfl
    rw [hGet]
    exact htgt _ (List.getElem_mem _)
  · rw [List.getD_eq_getElem?_getD, List.getElem?_eq_none (by omega)]
    simpa using List.length_pos.mpr hne

/-- A well-formed DFA's run never leaves the state range. -/
theorem Dfa.runIdx_lt {d : Dfa} (hd : d.WF) {q : Nat} (hq : q < d.states.length)
    (w : List Nat) : d.runIdx q w < d.states.length := by
  induction w generalizing q with
  | nil => exact hq
  | cons x xs ih => exact ih (Dfa.stepIdx_lt hd hq x)

theorem Dfa.product_runIdx (op : Bool → Bool → Bool) {A B : Dfa}
    (hA : A.WF) (hB : B.WF) {i j : Nat}
    (hi : i < A.states.length) (hj : j < B.states.length)
    {w : List Nat} (hw : ∀ x ∈ w, x < A.alphabet.length) :
    (Dfa.product op A B).runIdx (i * B.states.length + j) w =
      A.runIdx i w * B.states.length + B.runIdx j w := by
  induction w generalizing i j with
  | nil => rfl
  | cons x xs ih =>
    unfold Dfa.runIdx at *
    simp only [List.foldl_cons]
    rw [Dfa.product_stepIdx op A B hi hj (hw x (List.mem_cons_self ..))]
    exact ih (Dfa.stepIdx_lt hA hi x) (Dfa.stepIdx_lt hB hj x)
      (fun y hy => hw y (List.mem_cons_of_mem _ hy))

/-- The product construction combines acceptance pointwise, for any
Boolean operation rejecting the all-unknown-token case. -/
theorem Dfa.product_accepts (op : Bool → Bool → Bool) {A B : Dfa}
    (hA : A.WF) (hB : B.WF) (hab : B.alphabet = A.alphabet)
    (hop : op false false = false) (w : List Str) :
    (Dfa.product op A B).accepts w = op (A.accepts w) (B.accepts w) := by
  unfold Dfa.accepts
  have halph : (Dfa.product op A B).alphabet = A.alphabet := rfl
  rw [halph, hab]
  by_cases hall : ∀ tok ∈ w, tok ∈ A.alphabet
  · rw [if_pos hall, if_pos hall, if_pos hall]
    have hidx : ∀ x ∈ w.map (fun tok => idxOf tok A.alphabet), x < A.alphabet.length := by
      intro x hx
      obtain ⟨tok, htok, rfl⟩ := List.mem_map.mp hx
      exact idxOf_lt_length (hall tok htok)
    have hinit : (Dfa.product op A B).initialState =
        A.initialState * B.states.length + B.initialState := rfl
    rw [hinit]
    rw [Dfa.product_runIdx op hA hB hA.2.1 hB.2.1 hidx]
    exact Dfa.product_accIdx op A B (Dfa.runIdx_lt hA hA.2.1 _) (Dfa.runIdx_lt hB hB.2.1 _)
  · rw [if_neg hall, if_neg hall, if_neg hall]
    exact hop.symm

/-- Sample DFA over alphabet `a` accepting every word (used as concrete input). -/
def sampleA : Dfa := ⟨[['a']], [⟨['s'], true, [0]⟩], 0⟩

/-- Sample DFA over alphabet `a` accepting no word (used as concrete input). -/
def sampleB : Dfa := ⟨[['a']], [⟨['t'], false, [0]⟩], 0⟩

/-- Sample DFA over alphabet `b` (used as concrete input for alphabet mismatch). -/
def sampleC : Dfa := ⟨[['b']], [⟨['u'], true, [0]⟩], 0⟩

/-- C2: For every pair of DFAs A and B over equal alphabets and every input
word w, the four product constructions satisfy: intersection accepts w iff
both accept; union iff either; difference iff A accepts and B does not;
symmetric difference iff exactly one accepts. -/
theorem claim_C2_product_boolean_ops (A B : Dfa) (hA : A.WF) (hB : B.WF)
    (hab : A.alphabet = B.alphabet) (w : List Str) :
    (A.intersection B).map (fun P => P.accepts w) = .ok (A.accepts w && B.accepts w) ∧
    (A.union B).map (fun P => P.accepts w) = .ok (A.accepts w || B.accepts w) ∧
    (A.difference B).map (fun P => P.accepts w) = .ok (A.accepts w && !B.accepts w) ∧
    (A.symmetricDifference B).map (fun P => P.accepts w) = .ok (A.accepts w != B.accepts w) := by
  unfold Dfa.intersection Dfa.union Dfa.difference Dfa.symmetricDifference
  rw [if_pos hab, if_pos hab, if_pos hab, if_pos hab]
  refine ⟨?_, ?_, ?_, ?_⟩ <;>
    simp only [Except.map] <;>
    rw [Dfa.product_accepts _ hA hB hab.symm rfl w]

/-- Witness for C2 at concrete DFAs over alphabet `{a}` and the word `a`. -/
theorem claim_C2_product_boolean_ops_witness :
    sampleA.WF ∧ sampleB.WF ∧ sampleA.alphabet = sampleB.alphabet ∧
    ((sampleA.intersection sampleB).map (fun P => P.accepts [['a']]) =
      .ok (sampleA.accepts [['a']] && sampleB.accepts [['a']]) ∧
    (sampleA.union sampleB).map (fun P => P.accepts [['a']]) =
      .ok (sampleA.accepts [['a']] || sampleB.accepts [['a']]) ∧
    (sampleA.difference sampleB).map (fun P => P.accepts [['a']]) =
      .ok (sampleA.accepts [['a']] && !sampleB.accepts [['a']]) ∧
    (sampleA.symmetricDifference sampleB).map (fun P => P.accepts [['a']]) =
      .ok (sampleA.accepts [['a']] != sampleB.accepts [['a']])) :=
  ⟨by decide, by decide, by decide,
    claim_C2_product_boolean_ops sampleA sampleB (by decide) (by decide) (by decide) [['a']]⟩

/-- C7: For every pair of DFAs whose alphabets are not equal, each of the
four product constructions returns the error `AlphabetMismatch` and
constructs no automaton. -/
theorem claim_C7_alphabet_mismatch (A B : Dfa) (h : A.alphabet ≠ B.alphabet) :
    A.intersection B = .error .alphabetMismatch ∧
    A.union B = .error .alphabetMismatch ∧
    A.difference B = .error .alphabetMismatch ∧
    A.symmetricDifference B = .error .alphabetMismatch := by
  unfold Dfa.intersection Dfa.union Dfa.difference Dfa.symmetricDifference
  rw [if_neg h, if_neg h, if_neg h, if_neg h]
  exact ⟨rfl, rfl, rfl, rfl⟩

/-- Witness for C7 at concrete DFAs over the distinct alphabets `{a}`, `{b}`. -/
theorem claim_C7_alphabet_mismatch_witness :
    sampleA.alphabet ≠ sampleC.alphabet ∧
    (sampleA.intersection sampleC = .error .alphabetMismatch ∧
    sampleA.union sampleC = .error .alphabetMismatch ∧
    sampleA.difference sampleC = .error .alphabetMismatch ∧
    sampleA.symmetricDifference sampleC = .error .alphabetMismatch) :=
  ⟨by decide, claim_C7_alphabet_mismatch sampleA sampleC (by decide)⟩

/-! ## Context-free grammars (embedded from `src/dandy/src/grammar/mod.rs`
and `src/dandy/src/grammar/parse.rs`) -/

/-- Embedded from `parser::ParsedProduction`: a production head and its
alternatives, each an ordered list of symbols. -/
structure ParsedProduction where
  name : Str
  alternatives : List (List Str)
deriving DecidableEq, Repr

/-- Embedded from `parser::ParsedGrammar`. -/
structure ParsedGrammar where
  nonterminals : List Str
  terminals : List Str
  start : Str
  productions : List ParsedProduction
deriving DecidableEq, Repr

/-- Embedded from `grammar::Production`. -/
structure Production where
  name : Str
  alternatives : List (List Str)
deriving DecidableEq, Repr

/-- Embedded from `grammar::Grammar`. -/
structure Grammar where
  nonterminals : List Str
  terminals : List Str
  start : Str
  productions : List Production
deriving DecidableEq, Repr

/-- Embedded from `grammar::parse::GrammarParseError`. -/
inductive GrammarParseError where
  | duplicateNonterminal (s : Str)
  | duplicateTerminal (s : Str)
  | terminalNonterminal (s : Str)
  | startNotNonterminal
  | productionsNotNonterminal (s : Str)
  | productionsNotSymbol (s : Str)
  | duplicateProduction (s : Str)
deriving DecidableEq, Repr

/-- The first element of `l` that already occurred earlier (`seen` holds
the prefix processed so far), mirroring the `HashSet::insert` scan in
`TryFrom<ParsedGrammar> for Grammar`. -/
def firstDupAux (seen : List Str) : List Str → Option Str
  | [] => none
  | x :: xs => if x ∈ seen then some x else firstDupAux (x :: seen) xs

/-- The first duplicated element of `l`, in iteration order. -/
def firstDup (l : List Str) : Option Str := firstDupAux [] l

/-- The per-production checks of the `try_for_each` loop in
`TryFrom<ParsedGrammar> for Grammar` (`src/dandy/src/grammar/parse.rs`,
lines 52–70): for each production in order, duplicate-head, then
head-is-nonterminal, then each alternative's symbols in order. -/
def checkProductions (nt t : List Str) (seen : List Str) :
    List ParsedProduction → Except GrammarParseError Unit
  | [] => .ok ()
  | p :: ps =>
    if p.name ∈ seen then .error (.duplicateProduction p.name)
    else if p.name ∉ nt then .error (.productionsNotNonterminal p.name)
    else match p.alternatives.flatten.find? (fun s => !(decide (s ∈ nt) || decide (s ∈ t))) with
      | some s => .error (.productionsNotSymbol s)
      | none => checkProductions nt t (p.name :: seen) ps

/-- Embedded from `TryFrom<ParsedGrammar<'a>> for Grammar<'a>`
(`src/dandy/src/grammar/parse.rs`).  The `HashSet` membership tests are
modelled as list membership; the arbitrary iteration order of
`HashSet::intersection` is modelled as the declared order of the
nonterminals. -/
def tryFromParsedGrammar (g : ParsedGrammar) : Except GrammarParseError Grammar :=
  match firstDup g.nonterminals with
  | some d => .error (.duplicateNonterminal d)
  | none =>
    match firstDup g.terminals with
    | some d => .error (.duplicateTerminal d)
    | none =>
      match g.nonterminals.find? (fun s => decide (s ∈ g.terminals)) with
      | some x => .error (.terminalNonterminal x)
      | none =>
        if g.start ∉ g.nonterminals then .error .startNotNonterminal
        else
          match checkProductions g.nonterminals g.terminals [] g.productions with
          | .error e => .error e
          | .ok () => .ok
              { nonterminals := g.nonterminals
                terminals := g.terminals
                start := g.start
                productions := g.productions.map (fun p => ⟨p.name, p.alternatives⟩) }

/-! ## Lemmas about grammar validation -/

theorem firstDupAux_eq_none_iff (l : List Str) : ∀ seen,
    firstDupAux seen l = none ↔ l.Nodup ∧ ∀ x ∈ l, x ∉ seen := by
  induction l with
  | nil => intro seen; simp [firstDupAux]
  | cons x xs ih =>
    intro seen
    unfold firstDupAux
    by_cases hx : x ∈ seen
    · simp only [if_pos hx]
      constructor
      · intro h; cases h
      · rintro ⟨-, h⟩; exact absurd hx (h x (List.mem_cons_self ..))
    · simp only [if_neg hx]
      rw [ih (x :: seen)]
      simp only [List.nodup_cons, List.mem_cons, not_or]
      constructor
      · rintro ⟨hnd, hall⟩
        exact ⟨⟨fun hm => (hall x hm).1 rfl, hnd⟩,
          fun y hy => hy.elim (fun h => h ▸ hx) (fun hm => (hall y hm).2)⟩
      · rintro ⟨⟨hxxs, hnd⟩, hall⟩
        exact ⟨hnd, fun y hy => ⟨fun he => hxxs (he ▸ hy), hall y (Or.inr hy)⟩⟩

theorem firstDup_eq_none_iff (l : List Str) : firstDup l = none ↔ l.Nodup := by
  rw [firstDup, firstDupAux_eq_none_iff]
  simp

theorem firstDupAux_eq_some (l : List Str) : ∀ seen d, firstDupAux seen l = some d →
    (d ∈ seen ∧ d ∈ l) ∨ List.Duplicate d l := by
  induction l with
  | nil => intro seen d h; cases h
  | cons x xs ih =>
    intro seen d h
    unfold firstDupAux at h
    by_cases hx : x ∈ seen
    · rw [if_pos hx] at h
      obtain rfl : x = d := Option.some.inj h
      exact Or.inl ⟨hx, List.mem_cons_self ..⟩
    · rw [if_neg hx] at h
      rcases ih (x :: seen) d h with ⟨hseen, hmem⟩ | hdup
      · rcases List.mem_cons.mp hseen with rfl | hseen'
        · exact Or.inr (List.Mem.duplicate_cons_self hmem)
        · exact Or.inl ⟨hseen', List.mem_cons_of_mem _ hmem⟩
      · exact Or.inr (hdup.duplicate_cons x)

theorem firstDup_eq_some (l : List Str) (d : Str) (h : firstDup l = some d) :
    List.Duplicate d l := by
  rcases firstDupAux_eq_some l [] d h with ⟨hseen, -⟩ | hdup
  · cases hseen
  · exact hdup

theorem checkProductions_ok_iff (nt t : List Str) (ps : List ParsedProduction) : ∀ seen,
    checkProductions nt t seen ps = .ok () ↔
      ((ps.map (·.name)).Nodup ∧ (∀ p ∈ ps, p.name ∉ seen) ∧ (∀ p ∈ ps, p.name ∈ nt) ∧
       (∀ p ∈ ps, ∀ alt ∈ p.alternatives, ∀ s ∈ alt, s ∈ nt ∨ s ∈ t)) := by
  induction ps with
  | nil => intro seen; simp [checkProductions]
  | cons p ps ih =>
    intro seen
    unfold checkProductions
    by_cases h1 : p.name ∈ seen
    · simp only [if_pos h1]
      constructor
      · intro h; cases h
      · rintro ⟨-, h2, -⟩; exact absurd h1 (h2 p (List.mem_cons_self ..))
    · simp only [if_neg h1]
      by_cases h2 : p.name ∈ nt
      · rw [if_neg (not_not_intro h2)]
        cases hf : p.alternatives.flatten.find?
            (fun s => !(decide (s ∈ nt) || decide (s ∈ t))) with
        | some s =>
          simp only
          constructor
          · intro h; cases h
          · rintro ⟨-, -, -, h4⟩
            have hs : s ∈ p.alternatives.flatten := List.mem_of_find?_eq_some hf
            have hps := List.find?_some hf
            simp only [Bool.not_eq_eq_eq_not, Bool.not_true, Bool.or_eq_false_iff,
              decide_eq_false_iff_not] at hps
            obtain ⟨alt, halt, hsalt⟩ := List.mem_flatten.mp hs
            exact absurd (h4 p (List.mem_cons_self ..) alt halt s hsalt) (not_or.mpr hps)
        | none =>
          simp only
          rw [ih (p.name :: seen)]
          have hsym : ∀ alt ∈ p.alternatives, ∀ s ∈ alt, s ∈ nt ∨ s ∈ t := by
            intro alt halt s hs
            have := List.find?_eq_none.mp hf s (List.mem_flatten.mpr ⟨alt, halt, hs⟩)
            simp only [Bool.not_eq_true', Bool.or_eq_false_iff,
              decide_eq_false_iff_not, not_and, not_not] at this
            by_cases hnt : s ∈ nt
            · exact Or.inl hnt
            · exact Or.inr (this hnt)
          simp only [List.map_cons, List.nodup_cons, List.forall_mem_cons]
          constructor
          · rintro ⟨hnd, hsn, hmem, hsyms⟩
            refine ⟨⟨?_, hnd⟩, ⟨h1, fun q hq hc => hsn q hq (List.mem_cons_of_mem _ hc)⟩,
              ⟨h2, hmem⟩, ⟨hsym, hsyms⟩⟩
            intro hc
            obtain ⟨q, hq, he⟩ := List.mem_map.mp hc
            exact hsn q hq (by rw [he]; exact List.mem_cons_self ..)
          · rintro ⟨⟨hnotin, hnd⟩, ⟨-, hsn⟩, ⟨-, hmem⟩, ⟨-, hsyms⟩⟩
            refine ⟨hnd, fun q hq hc => ?_, hmem, hsyms⟩
            rcases List.mem_cons.mp hc with he | hseen
            · exact hnotin (List.mem_map.mpr ⟨q, hq, he⟩)
            · exact hsn q hq hseen
      · rw [if_pos h2]
        constructor
        · intro h; cases h
        · rintro ⟨-, -, h3, -⟩; exact absurd (h3 p (List.mem_cons_self ..)) h2

theorem find?_split {α : Type} (p : α → Bool) :
    ∀ (l : List α) {b : α}, l.find? p = some b →
      ∃ pre post, l = pre ++ b :: post ∧ (∀ x ∈ pre, p x = false) ∧ p b = true := by
  intro l
  induction l with
  | nil => intro b h; cases h
  | cons a l ih =>
    intro b h
    cases hp : p a with
    | true =>
      rw [List.find?_cons_of_pos _ hp] at h
      obtain rfl : a = b := Option.some.inj h
      exact ⟨[], l, rfl, fun x hx => absurd hx (List.not_mem_nil x), hp⟩
    | false =>
      rw [List.find?_cons_of_neg _ (by rw [hp]; exact Bool.false_ne_true)] at h
      obtain ⟨pre, post, hsplit, hpre, hb⟩ := ih h
      refine ⟨a :: pre, post, by rw [hsplit]; rfl, ?_, hb⟩
      intro x hx
      rcases List.mem_cons.mp hx with rfl | hx2
      · exact hp
      · exact hpre x hx2

/-- The per-production loop fails at the first offending production: there
is a decomposition `ps = ps1 ++ p :: ps2` where every production of `ps1`
passes all three checks and `p` fails exactly as the error says, the
earlier checks of `p` itself passing. -/
theorem checkProductions_error (nt t : List Str) (ps : List ParsedProduction) :
    ∀ seen e, checkProductions nt t seen ps = .error e →
      ∃ ps1 p ps2, ps = ps1 ++ p :: ps2 ∧
        (ps1.map (·.name)).Nodup ∧ (∀ q ∈ ps1, q.name ∉ seen) ∧
        (∀ q ∈ ps1, q.name ∈ nt) ∧
        (∀ q ∈ ps1, ∀ alt ∈ q.alternatives, ∀ x ∈ alt, x ∈ nt ∨ x ∈ t) ∧
        ((∃ s, e = .duplicateProduction s ∧ p.name = s ∧
            (s ∈ seen ∨ s ∈ ps1.map (·.name))) ∨
         (∃ s, e = .productionsNotNonterminal s ∧ p.name = s ∧ s ∉ seen ∧
            s ∉ ps1.map (·.name) ∧ s ∉ nt) ∨
         (∃ s, e = .productionsNotSymbol s ∧ p.name ∉ seen ∧
            p.name ∉ ps1.map (·.name) ∧ p.name ∈ nt ∧
            (∃ pre post, p.alternatives.flatten = pre ++ s :: post ∧
              (∀ x ∈ pre, x ∈ nt ∨ x ∈ t)) ∧ s ∉ nt ∧ s ∉ t)) := by
  induction ps with
  | nil => intro seen e h; cases h
  | cons p ps ih =>
    intro seen e h
    unfold checkProductions at h
    by_cases h1 : p.name ∈ seen
    · rw [if_pos h1] at h
      obtain rfl : GrammarParseError.duplicateProduction p.name = e := Except.error.inj h
      exact ⟨[], p, ps, rfl, List.nodup_nil,
        fun q hq => absurd hq (List.not_mem_nil q),
        fun q hq => absurd hq (List.not_mem_nil q),
        fun q hq => absurd hq (List.not_mem_nil q),
        Or.inl ⟨p.name, rfl, rfl, Or.inl h1⟩⟩
    · rw [if_neg h1] at h
      by_cases h2 : p.name ∈ nt
      · rw [if_neg (not_not_intro h2)] at h
        cases hf : p.alternatives.flatten.find?
            (fun s => !(decide (s ∈ nt) || decide (s ∈ t))) with
        | some s =>
          rw [hf] at h
          obtain rfl : GrammarParseError.productionsNotSymbol s = e := Except.error.inj h
          obtain ⟨pre, post, hsplit, hpre, hs⟩ := find?_split _ _ hf
          simp only [Bool.not_eq_eq_eq_not, Bool.not_true, Bool.or_eq_false_iff,
            decide_eq_false_iff_not] at hs
          have hpre2 : ∀ x ∈ pre, x ∈ nt ∨ x ∈ t := by
            intro x hx
            have h3 := hpre x hx
            simp at h3
            by_cases hnt : x ∈ nt
            · exact Or.inl hnt
            · exact Or.inr (h3 hnt)
          exact ⟨[], p, ps, rfl, List.nodup_nil,
            fun q hq => absurd hq (List.not_mem_nil q),
            fun q hq => absurd hq (List.not_mem_nil q),
            fun q hq => absurd hq (List.not_mem_nil q),
            Or.inr (Or.inr ⟨s, rfl, h1, List.not_mem_nil _, h2,
              ⟨pre, post, hsplit, hpre2⟩, hs.1, hs.2⟩)⟩
        | none =>
          rw [hf] at h
          have hsymP : ∀ alt ∈ p.alternatives, ∀ x ∈ alt, x ∈ nt ∨ x ∈ t := by
            intro alt halt x hx
            have := List.find?_eq_none.mp hf x (List.mem_flatten.mpr ⟨alt, halt, hx⟩)
            simp only [Bool.not_eq_true', Bool.or_eq_false_iff,
              decide_eq_false_iff_not, not_and, not_not] at this
            by_cases hnt : x ∈ nt
            · exact Or.inl hnt
            · exact Or.inr (this hnt)
          obtain ⟨ps1, p2, ps2, hsplit, hnd, hseen, hmem, hsym, hcase⟩ :=
            ih (p.name :: seen) e h
          have hnotp : ∀ q ∈ ps1, q.name ≠ p.name :=
            fun q hq he => hseen q hq (he ▸ List.mem_cons_self ..)
          have hpn : p.name ∉ ps1.map (·.name) := by
            intro hc
            obtain ⟨q, hq, he⟩ := List.mem_map.mp hc
            exact hnotp q hq he
          refine ⟨p :: ps1, p2, ps2, by rw [hsplit]; rfl, ?_, ?_, ?_, ?_, ?_⟩
          · rw [List.map_cons, List.nodup_cons]
            exact ⟨hpn, hnd⟩
          · intro q hq
            rcases List.mem_cons.mp hq with rfl | hq2
            · exact h1
            · exact fun hc => hseen q hq2 (List.mem_cons_of_mem _ hc)
          · intro q hq
            rcases List.mem_cons.mp hq with rfl | hq2
            · exact h2
            · exact hmem q hq2
          · intro q hq
            rcases List.mem_cons.mp hq with rfl | hq2
            · exact hsymP
            · exact hsym q hq2
          · rcases hcase with ⟨s, rfl, hname, hor⟩ |
                ⟨s, rfl, hname, hns, hnp1, hnnt⟩ |
                ⟨s, rfl, hns, hnp1, hpnt, hfst, hnt2, ht2⟩
            · refine Or.inl ⟨s, rfl, hname, ?_⟩
              rcases hor with hsseen | hsps1
              · rcases List.mem_cons.mp hsseen with rfl | hs2
                · exact Or.inr (by
                    rw [List.map_cons]
                    exact List.mem_cons_self ..)
                · exact Or.inl hs2
              · exact Or.inr (by rw [List.map_cons]; exact List.mem_cons_of_mem _ hsps1)
            · refine Or.inr (Or.inl ⟨s, rfl, hname, ?_, ?_, hnnt⟩)
              · exact fun hc => hns (List.mem_cons_of_mem _ hc)
              · rw [List.map_cons]
                intro hc
                rcases List.mem_cons.mp hc with rfl | hc2
                · exact hns (List.mem_cons_self ..)
                · exact hnp1 hc2
            · refine Or.inr (Or.inr ⟨s, rfl, ?_, ?_, hpnt, hfst, hnt2, ht2⟩)
              · exact fun hc => hns (List.mem_cons_of_mem _ hc)
              · rw [List.map_cons]
                intro hc
                rcases List.mem_cons.mp hc with heq | hc2
                · exact hns (by rw [heq]; exact List.mem_cons_self ..)
                · exact hnp1 hc2
      · rw [if_pos h2] at h
        obtain rfl : GrammarParseError.productionsNotNonterminal p.name = e := Except.error.inj h
        exact ⟨[], p, ps, rfl, List.nodup_nil,
          fun q hq => absurd hq (List.not_mem_nil q),
          fun q hq => absurd hq (List.not_mem_nil q),
          fun q hq => absurd hq (List.not_mem_nil q),
          Or.inr (Or.inl ⟨p.name, rfl, rfl, h1, List.not_mem_nil _, h2⟩)⟩

/-- The four symbol-table checks of grammar validation all pass. -/
def grammarBaseOk (g : ParsedGrammar) : Prop :=
  g.nonterminals.Nodup ∧ g.terminals.Nodup ∧
    (∀ s ∈ g.nonterminals, s ∉ g.terminals) ∧ g.start ∈ g.nonterminals

/-- A prefix of productions that passes all three per-production checks:
pairwise-distinct heads, every head a declared nonterminal, every symbol
of every alternative declared. -/
def prodPrefixOk (g : ParsedGrammar) (ps1 : List ParsedProduction) : Prop :=
  (ps1.map (·.name)).Nodup ∧ (∀ q ∈ ps1, q.name ∈ g.nonterminals) ∧
    (∀ q ∈ ps1, ∀ alt ∈ q.alternatives, ∀ x ∈ alt,
      x ∈ g.nonterminals ∨ x ∈ g.terminals)

/-- What each `GrammarParseError` constructor witnesses about the input:
every check preceding it in the validator's order passes — for the
production-stage errors, all productions before the offending one pass
all three checks, and the offending production's own earlier checks
pass — and the error carries an offending symbol of the check that
failed (for an undeclared-symbol error, the first undeclared symbol of
that production). -/
def grammarErrSound (g : ParsedGrammar) : GrammarParseError → Prop
  | .duplicateNonterminal s => List.Duplicate s g.nonterminals
  | .duplicateTerminal s => g.nonterminals.Nodup ∧ List.Duplicate s g.terminals
  | .terminalNonterminal s => g.nonterminals.Nodup ∧ g.terminals.Nodup ∧
      s ∈ g.nonterminals ∧ s ∈ g.terminals
  | .startNotNonterminal => g.nonterminals.Nodup ∧ g.terminals.Nodup ∧
      (∀ s ∈ g.nonterminals, s ∉ g.terminals) ∧ g.start ∉ g.nonterminals
  | .duplicateProduction s => grammarBaseOk g ∧
      ∃ ps1 p ps2, g.productions = ps1 ++ p :: ps2 ∧ prodPrefixOk g ps1 ∧
        p.name = s ∧ s ∈ ps1.map (·.name)
  | .productionsNotNonterminal s => grammarBaseOk g ∧
      ∃ ps1 p ps2, g.productions = ps1 ++ p :: ps2 ∧ prodPrefixOk g ps1 ∧
        p.name = s ∧ s ∉ ps1.map (·.name) ∧ s ∉ g.nonterminals
  | .productionsNotSymbol s => grammarBaseOk g ∧
      ∃ ps1 p ps2, g.productions = ps1 ++ p :: ps2 ∧ prodPrefixOk g ps1 ∧
        p.name ∉ ps1.map (·.name) ∧ p.name ∈ g.nonterminals ∧
        (∃ pre post, p.alternatives.flatten = pre ++ s :: post ∧
          (∀ x ∈ pre, x ∈ g.nonterminals ∨ x ∈ g.terminals)) ∧
        s ∉ g.nonterminals ∧ s ∉ g.terminals

/-- C9 (amended): Converting a `ParsedGrammar` to a `Grammar` succeeds iff
the nonterminals are pairwise distinct, the terminals are pairwise
distinct, no name is both, the start symbol is a declared nonterminal, no
two productions share a head, every head is a declared nonterminal, and
every symbol of every alternative is declared; on failure the returned
error identifies an offending symbol of the first failing check, where the
four symbol-table checks precede the production checks and the production
checks run per production in declaration order. -/
theorem claim_C9_grammar_validation (g : ParsedGrammar) :
    ((tryFromParsedGrammar g).isOk = true ↔
      (g.nonterminals.Nodup ∧ g.terminals.Nodup ∧
       (∀ s ∈ g.nonterminals, s ∉ g.terminals) ∧ g.start ∈ g.nonterminals ∧
       (g.productions.map (·.name)).Nodup ∧
       (∀ p ∈ g.productions, p.name ∈ g.nonterminals) ∧
       (∀ p ∈ g.productions, ∀ alt ∈ p.alternatives, ∀ s ∈ alt,
         s ∈ g.nonterminals ∨ s ∈ g.terminals))) ∧
    (∀ e, tryFromParsedGrammar g = .error e → grammarErrSound g e) := by
  unfold tryFromParsedGrammar
  cases hnt : firstDup g.nonterminals with
  | some d =>
    have hdup := firstDup_eq_some _ _ hnt
    refine ⟨⟨(fun h => by cases h), fun h => absurd h.1 hdup.not_nodup⟩, ?_⟩
    intro e he
    obtain rfl : GrammarParseError.duplicateNonterminal d = e := Except.error.inj he
    exact hdup
  | none =>
    have hndnt : g.nonterminals.Nodup := (firstDup_eq_none_iff _).mp hnt
    cases ht : firstDup g.terminals with
    | some d =>
      have hdup := firstDup_eq_some _ _ ht
      refine ⟨⟨(fun h => by cases h), fun h => absurd h.2.1 hdup.not_nodup⟩, ?_⟩
      intro e he
      obtain rfl : GrammarParseError.duplicateTerminal d = e := Except.error.inj he
      exact ⟨hndnt, hdup⟩
    | none =>
      have hndt : g.terminals.Nodup := (firstDup_eq_none_iff _).mp ht
      cases hint : g.nonterminals.find? (fun s => decide (s ∈ g.terminals)) with
      | some x =>
        have hxnt : x ∈ g.nonterminals := List.mem_of_find?_eq_some hint
        have hxt : x ∈ g.terminals := by simpa using List.find?_some hint
        refine ⟨⟨(fun h => by cases h), fun h => absurd hxt (h.2.2.1 x hxnt)⟩, ?_⟩
        intro e he
        obtain rfl : GrammarParseError.terminalNonterminal x = e := Except.error.inj he
        exact ⟨hndnt, hndt, hxnt, hxt⟩
      | none =>
        have hdisj : ∀ s ∈ g.nonterminals, s ∉ g.terminals := fun s hs => by
          simpa using List.find?_eq_none.mp hint s hs
        by_cases hstart : g.start ∉ g.nonterminals
        · rw [if_pos hstart]
          refine ⟨⟨(fun h => by cases h), fun h => absurd h.2.2.2.1 hstart⟩, ?_⟩
          intro e he
          obtain rfl : GrammarParseError.startNotNonterminal = e := Except.error.inj he
          exact ⟨hndnt, hndt, hdisj, hstart⟩
        · rw [if_neg hstart]
          push_neg at hstart
          cases hcp : checkProductions g.nonterminals g.terminals [] g.productions with
          | error e' =>
            refine ⟨⟨(fun h => by cases h), ?_⟩, ?_⟩
            · rintro ⟨-, -, -, -, hhead, hmem, hsym⟩
              have : checkProductions g.nonterminals g.terminals [] g.productions = .ok () :=
                (checkProductions_ok_iff _ _ _ []).mpr
                  ⟨hhead, fun p _ h => absurd h (List.not_mem_nil _), hmem, hsym⟩
              rw [hcp] at this
              cases this
            · intro e he
              obtain rfl : e' = e := Except.error.inj he
              have hbase : grammarBaseOk g := ⟨hndnt, hndt, hdisj, hstart⟩
              obtain ⟨ps1, p, ps2, hsplit, hnd, hseen0, hmemnt, hsymok, hcase⟩ :=
                checkProductions_error _ _ _ [] e' hcp
              have hpre : prodPrefixOk g ps1 := ⟨hnd, hmemnt, hsymok⟩
              rcases hcase with ⟨s, rfl, hname, hor⟩ |
                  ⟨s, rfl, hname, -, hnp1, hnnt⟩ |
                  ⟨s, rfl, -, hnp1, hpnt, hfst, hnt2, ht2⟩
              · exact ⟨hbase, ps1, p, ps2, hsplit, hpre, hname,
                  hor.resolve_left (List.not_mem_nil s)⟩
              · exact ⟨hbase, ps1, p, ps2, hsplit, hpre, hname, hnp1, hnnt⟩
              · exact ⟨hbase, ps1, p, ps2, hsplit, hpre, hnp1, hpnt, hfst, hnt2, ht2⟩
          | ok u =>
            cases u
            have hok := (checkProductions_ok_iff g.nonterminals g.terminals g.productions []).mp hcp
            refine ⟨⟨fun _ => ?_, fun _ => rfl⟩, ?_⟩
            · exact ⟨hndnt, hndt, hdisj, hstart, hok.1, hok.2.2.1, hok.2.2.2⟩
            · intro e he; cases he

/-- Follows the claim's words, not the code: the validation checks applied
globally, each check kind in the claim's listed order (duplicate heads
among all productions before any head-declared or symbol-declared
check). -/
def claimOrderError (g : ParsedGrammar) : Option GrammarParseError :=
  match firstDup g.nonterminals with
  | some d => some (.duplicateNonterminal d)
  | none =>
    match firstDup g.terminals with
    | some d => some (.duplicateTerminal d)
    | none =>
      match g.nonterminals.find? (fun s => decide (s ∈ g.terminals)) with
      | some x => some (.terminalNonterminal x)
      | none =>
        if g.start ∉ g.nonterminals then some .startNotNonterminal
        else
          match firstDup (g.productions.map (·.name)) with
          | some d => some (.duplicateProduction d)
          | none =>
            match (g.productions.map (·.name)).find?
                (fun s => decide (s ∉ g.nonterminals)) with
            | some d => some (.productionsNotNonterminal d)
            | none =>
              match ((g.productions.map (·.alternatives)).flatten.flatten).find?
                  (fun s => !(decide (s ∈ g.nonterminals) || decide (s ∈ g.terminals))) with
              | some s => some (.productionsNotSymbol s)
              | none => none

/-- A grammar whose first production has an undeclared symbol and whose
second production duplicates the first's head. -/
def gCex : ParsedGrammar :=
  ⟨[['A']], [['x']], ['A'], [⟨['A'], [[['y']]]⟩, ⟨['A'], [[['x']]]⟩]⟩

/-- Counterexample to C9 as stated: on `gCex` the code reports the
undeclared symbol of the first production, while the claim's fixed global
check order would report the duplicated production head first. -/
theorem claim_C9_counterexample :
    tryFromParsedGrammar gCex = .error (.productionsNotSymbol ['y']) ∧
    claimOrderError gCex = some (.duplicateProduction ['A']) ∧
    (GrammarParseError.productionsNotSymbol ['y']) ≠ (.duplicateProduction ['A']) := by
  decide

/-- A grammar with a duplicated nonterminal. -/
def gDup : ParsedGrammar := ⟨[['A'], ['A']], [], ['A'], []⟩

/-- Witness for C9 at a concrete grammar with a duplicated nonterminal. -/
theorem claim_C9_grammar_validation_witness :
    tryFromParsedGrammar gDup = .error (.duplicateNonterminal ['A']) ∧
    grammarErrSound gDup (.duplicateNonterminal ['A']) :=
  ⟨by decide, (claim_C9_grammar_validation gDup).2 _ (by decide)⟩

/-! ## Grammar production parser
(embedded from `src/dandy/src/parser/grammar.rs`)

The nom combinators are embedded as functions from input to an optional
(rest, value) pair; a parse failure is `none`.  `nom`'s
`separated_list0/1` loops are given explicit fuel; the separators of this
grammar always consume at least one character, so fuel equal to the input
length never runs out. -/

/-- A parser over character lists: returns the remaining input and value. -/
abbrev Parser (α : Type) := Str → Option (Str × α)

/-- `nom::character::complete::space0/1` match only spaces and tabs. -/
def isNomSpace (c : Char) : Bool := c == ' ' || c == '\t'

/-- Embedded from nom's `space0`. -/
def space0 : Parser Unit := fun i => some (i.dropWhile isNomSpace, ())

/-- Embedded from nom's `space1`. -/
def space1 : Parser Unit := fun i =>
  match i with
  | [] => none
  | c :: rest => if isNomSpace c then some (rest.dropWhile isNomSpace, ()) else none

/-- Embedded from nom's `tag`. -/
def ptag (s : Str) : Parser Unit := fun i =>
  if i.take s.length = s then some (i.drop s.length, ()) else none

/-- Embedded from `symbol_name`: `take_till1` of non-whitespace, non-`#`
characters, verified to be none of `|`, `→`, `->`. -/
def symbolName : Parser Str := fun i =>
  let tok := i.takeWhile (fun c => !(c.isWhitespace || c == '#'))
  if tok.isEmpty then none
  else if tok = ['|'] ∨ tok = ['→'] ∨ tok = ['-', '>'] then none
  else some (i.drop tok.length, tok)

/-- Embedded from `arrow`: `tag("->")` or `tag("→")`. -/
def arrow : Parser Unit := fun i =>
  match ptag ['-', '>'] i with
  | some r => some r
  | none => ptag ['→'] i

/-- Embedded from `pipe`: `tag("|")`. -/
def pipe : Parser Unit := ptag ['|']

/-- The alternatives separator `delimited(space0, pipe, space0)`. -/
def altSep : Parser Unit := fun i => do
  let (i1, _) ← space0 i
  let (i2, _) ← pipe i1
  space0 i2

/-- The loop of nom's `separated_listX`: repeatedly parse separator then
element, backtracking and stopping at the first failure. -/
def sepLoop {α : Type} (sep : Parser Unit) (elem : Parser α) :
    Nat → Str → List α → Str × List α
  | 0, i, acc => (i, acc.reverse)
  | fuel + 1, i, acc =>
    match (do
      let (i1, _) ← sep i
      elem i1 : Option (Str × α)) with
    | none => (i, acc.reverse)
    | some (i2, x) => sepLoop sep elem fuel i2 (x :: acc)

/-- Embedded from nom's `separated_list1`. -/
def sepList1 {α : Type} (sep : Parser Unit) (elem : Parser α) : Parser (List α) := fun i =>
  match elem i with
  | none => none
  | some (i1, x) => some (sepLoop sep elem (i1.length + 1) i1 [x])

/-- Embedded from nom's `separated_list0`. -/
def sepList0 {α : Type} (sep : Parser Unit) (elem : Parser α) : Parser (List α) := fun i =>
  match elem i with
  | none => some (i, [])
  | some (i1, x) => some (sepLoop sep elem (i1.length + 1) i1 [x])

/-- One alternative: `separated_list0(space1, symbol_name)` — possibly
empty. -/
def alternative : Parser (List Str) := sepList0 space1 symbolName

/-- Embedded from `production` (`src/dandy/src/parser/grammar.rs`,
lines 52–66). -/
def production : Parser ParsedProduction := fun i => do
  let (i1, _) ← space0 i
  let (i2, name) ← symbolName i1
  let (i3, _) ← space1 i2
  let (i4, _) ← arrow i3
  let (i5, _) ← space1 i4
  let (i6, alts) ← sepList1 altSep alternative i5
  pure (i6, ParsedProduction.mk name alts)

/-- C10: The grammar parser accepts an empty alternative in a production
— both between two adjacent `|` separators and after a trailing `|` —
producing an empty symbol sequence (an ε-production) in the parsed
production's alternatives, and grammar validation accepts such a
production. -/
theorem claim_C10_empty_alternative :
    production ('A' :: " -> x | | y".toList) =
      some ([], ⟨['A'], [[['x']], [], [['y']]]⟩) ∧
    production ('A' :: " -> x |".toList) =
      some ([], ⟨['A'], [[['x']], []]⟩) ∧
    (tryFromParsedGrammar
      ⟨[['A']], [['x'], ['y']], ['A'], [⟨['A'], [[['x']], [], [['y']]]⟩]⟩).isOk = true := by
  refine ⟨by decide, by decide, by decide⟩

/-! ## Worklist closure

The spec computes ε-closures and reachable-state sets by worklist
traversal (§4.4, §4.3).  We model this as iterating a one-step expansion
`n` times, where `n` bounds the universe `range n`; the result is the
least set containing the seed and closed under the successor map. -/

/-- One expansion step: add all successors of the current set. -/
def grow (g : Nat → Finset Nat) (S : Finset Nat) : Finset Nat :=
  S ∪ S.biUnion g

/-- Worklist closure: iterate the expansion `n` times. -/
def closure (g : Nat → Finset Nat) (n : Nat) (S : Finset Nat) : Finset Nat :=
  (grow g)^[n] S

theorem subset_grow (g : Nat → Finset Nat) (S : Finset Nat) : S ⊆ grow g S :=
  Finset.subset_union_left

theorem subset_iterate_grow (g : Nat → Finset Nat) (S : Finset Nat) (k : Nat) :
    S ⊆ (grow g)^[k] S := by
  induction k with
  | zero => exact fun q h => h
  | succ k ih =>
    rw [Function.iterate_succ_apply']
    exact ih.trans (subset_grow g _)

theorem subset_closure_set (g : Nat → Finset Nat) (n : Nat) (S : Finset Nat) :
    S ⊆ closure g n S :=
  subset_iterate_grow g S n

theorem grow_subset_range {g : Nat → Finset Nat} {n : Nat}
    (hg : ∀ q, g q ⊆ Finset.range n) {S : Finset Nat} (hS : S ⊆ Finset.range n) :
    grow g S ⊆ Finset.range n := by
  unfold grow
  intro q hq
  rcases Finset.mem_union.mp hq with h | h
  · exact hS h
  · obtain ⟨p, -, hp⟩ := Finset.mem_biUnion.mp h
    exact hg p hp

theorem iterate_grow_subset_range {g : Nat → Finset Nat} {n : Nat}
    (hg : ∀ q, g q ⊆ Finset.range n) {S : Finset Nat} (hS : S ⊆ Finset.range n) (k : Nat) :
    (grow g)^[k] S ⊆ Finset.range n := by
  induction k with
  | zero => exact hS
  | succ k ih =>
    rw [Function.iterate_succ_apply']
    exact grow_subset_range hg ih

theorem iterate_grow_of_fix {g : Nat → Finset Nat} {S : Finset Nat}
    (h : grow g S = S) (k : Nat) : (grow g)^[k] S = S := by
  induction k with
  | zero => rfl
  | succ k ih => rw [Function.iterate_succ_apply', ih, h]

theorem closure_isFix {g : Nat → Finset Nat} {n : Nat}
    (hg : ∀ q, g q ⊆ Finset.range n) {S : Finset Nat} (hS : S ⊆ Finset.range n) :
    grow g (closure g n S) = closure g n S := by
  have hfix : ∃ k ≤ n, grow g ((grow g)^[k] S) = (grow g)^[k] S := by
    by_contra hcon
    push_neg at hcon
    have hcard : ∀ k, k ≤ n + 1 → k ≤ ((grow g)^[k] S).card := by
      intro k
      induction k with
      | zero => intro _; exact Nat.zero_le _
      | succ k ih =>
        intro hk
        have hne := hcon k (by omega)
        have hssub : (grow g)^[k] S ⊂ grow g ((grow g)^[k] S) :=
          Finset.ssubset_iff_subset_ne.mpr ⟨subset_grow g _, Ne.symm hne⟩
        calc k + 1 ≤ ((grow g)^[k] S).card + 1 := by
              have := ih (by omega); omega
          _ ≤ (grow g ((grow g)^[k] S)).card := Finset.card_lt_card hssub
          _ = (((grow g)^[k + 1]) S).card := by rw [Function.iterate_succ_apply']
    have h1 := hcard (n + 1) (by omega)
    have h2 : ((grow g)^[n + 1] S).card ≤ n := by
      have := Finset.card_le_card (iterate_grow_subset_range hg hS (n + 1))
      simpa using this
    omega
  obtain ⟨k, hk, hfixk⟩ := hfix
  have : closure g n S = (grow g)^[k] S := by
    unfold closure
    rw [show n = (n - k) + k by omega, Function.iterate_add_apply]
    exact iterate_grow_of_fix hfixk (n - k)
  rw [this, hfixk]

/-- Membership in the closure is reachability from the seed via the
successor relation. -/
theorem mem_closure_iff {g : Nat → Finset Nat} {n : Nat}
    (hg : ∀ q, g q ⊆ Finset.range n) {S : Finset Nat} (hS : S ⊆ Finset.range n)
    (q : Nat) :
    q ∈ closure g n S ↔ ∃ s ∈ S, Relation.ReflTransGen (fun a b => b ∈ g a) s q := by
  constructor
  · suffices h : ∀ k, ∀ q, q ∈ (grow g)^[k] S →
        ∃ s ∈ S, Relation.ReflTransGen (fun a b => b ∈ g a) s q from h n q
    intro k
    induction k with
    | zero => exact fun q hq => ⟨q, hq, Relation.ReflTransGen.refl⟩
    | succ k ih =>
      intro q hq
      rw [Function.iterate_succ_apply'] at hq
      rcases Finset.mem_union.mp hq with h | h
      · exact ih q h
      · obtain ⟨p, hp, hmem⟩ := Finset.mem_biUnion.mp h
        obtain ⟨s, hs, hrtg⟩ := ih p hp
        exact ⟨s, hs, hrtg.tail hmem⟩
  · rintro ⟨s, hs, hrtg⟩
    induction hrtg with
    | refl => exact subset_closure_set g n S hs
    | tail hab hbc ih =>
      rw [← closure_isFix hg hS]
      unfold grow
      exact Finset.mem_union.mpr (Or.inr (Finset.mem_biUnion.mpr ⟨_, ih, hbc⟩))

/-- The closure distributes over the seed set: it is the union of the
closures of the seed's singletons. -/
theorem closure_eq_biUnion {g : Nat → Finset Nat} {n : Nat}
    (hg : ∀ q, g q ⊆ Finset.range n) {S : Finset Nat} (hS : S ⊆ Finset.range n) :
    closure g n S = S.biUnion (fun q => closure g n {q}) := by
  ext q
  rw [mem_closure_iff hg hS, Finset.mem_biUnion]
  constructor
  · rintro ⟨s, hs, hrtg⟩
    exact ⟨s, hs, (mem_closure_iff hg (by
      intro x hx
      rw [Finset.mem_singleton] at hx
      subst hx
      exact hS hs) q).mpr ⟨s, Finset.mem_singleton_self s, hrtg⟩⟩
  · rintro ⟨s, hs, hmem⟩
    obtain ⟨s', hs', hrtg⟩ := (mem_closure_iff hg (by
      intro x hx
      rw [Finset.mem_singleton] at hx
      subst hx
      exact hS hs) q).mp hmem
    rw [Finset.mem_singleton] at hs'
    subst hs'
    exact ⟨s', hs, hrtg⟩

/-- A closure with no successors anywhere is the seed itself. -/
theorem closure_of_empty {g : Nat → Finset Nat} {n : Nat}
    (hg : ∀ q, g q = ∅) (S : Finset Nat) : closure g n S = S := by
  have : grow g S = S := by
    unfold grow
    rw [Finset.union_eq_left]
    intro q hq
    obtain ⟨p, -, hp⟩ := Finset.mem_biUnion.mp hq
    rw [hg p] at hp
    cases hp
  exact iterate_grow_of_fix this n

/-! ## NFA acceptance (spec §4.4)

Maintain a current set of states.  Initialize to the ε-closure of the
initial state.  For each input token, take the union of transitions from
all current states under that symbol, then the ε-closure of that union.
Accept iff the final set contains an accepting state. -/

/-- The state record at index `q` (a default empty state out of range). -/
def Nfa.stateAt (n : Nfa) (q : Nat) : NfaState :=
  n.states.getD q default

/-- The ε-successors of state `q`. -/
def Nfa.epsSet (n : Nfa) (q : Nat) : Finset Nat :=
  (n.stateAt q).epsilonTransitions.toFinset

/-- Modelled from the spec: ε-closure by worklist traversal (§4.4). -/
def Nfa.epsClosure (n : Nfa) (S : Finset Nat) : Finset Nat :=
  closure n.epsSet n.states.length S

/-- The successors of state `q` on alphabet position `x`. -/
def Nfa.symSet (n : Nfa) (q x : Nat) : Finset Nat :=
  ((n.stateAt q).transitions.getD x []).toFinset

/-- One frontier step: union of transitions, then ε-closure (§4.4). -/
def Nfa.stepSet (n : Nfa) (S : Finset Nat) (x : Nat) : Finset Nat :=
  n.epsClosure (S.biUnion (fun q => n.symSet q x))

/-- Frontier run over a word of alphabet positions. -/
def Nfa.runSet (n : Nfa) (S : Finset Nat) (w : List Nat) : Finset Nat :=
  w.foldl n.stepSet S

/-- Modelled from the spec: NFA acceptance (§4.4); a token outside the
alphabet rejects the whole input, as for DFAs (§4.3). -/
def Nfa.accepts (n : Nfa) (w : List Str) : Bool :=
  if ∀ tok ∈ w, tok ∈ n.alphabet then
    decide (∃ q ∈ n.runSet (n.epsClosure {n.initialState})
      (w.map (fun tok => idxOf tok n.alphabet)), (n.stateAt q).accepting = true)
  else false

/-- Modelled from the spec: `has_epsilon_moves` iff any ε set is
non-empty (§3). -/
def Nfa.hasEpsilonMoves (n : Nfa) : Bool :=
  n.states.any (fun s => !s.epsilonTransitions.isEmpty)

/-- Modelled from the spec: ε-removal (§4.4).  For each state `q` and each
symbol `x`, the new transitions are the union of `δ(r, x)` over
`r ∈ εclose(q)`; `q` becomes accepting iff `εclose(q)` contains an
accepting state; the ε sets are cleared. -/
def Nfa.removeEpsilonMoves (n : Nfa) : Nfa :=
  { alphabet := n.alphabet
    initialState := n.initialState
    states := (List.range n.states.length).map (fun q =>
      { name := (n.stateAt q).name
        accepting := decide (∃ r ∈ n.epsClosure {q}, (n.stateAt r).accepting = true)
        epsilonTransitions := []
        transitions := (List.range n.alphabet.length).map
          (fun x => ((n.epsClosure {q}).biUnion (fun r => n.symSet r x)).sort (· ≤ ·)) }) }

/-! ## Lemmas about ε-removal -/

theorem Nfa.stateAt_mem {n : Nfa} {q : Nat} (hq : q < n.states.length) :
    n.stateAt q ∈ n.states := by
  unfold Nfa.stateAt
  rw [List.getD_eq_getElem?_getD, List.getElem?_eq_getElem hq]
  exact List.getElem_mem _

theorem Nfa.stateAt_default {n : Nfa} {q : Nat} (hq : ¬q < n.states.length) :
    n.stateAt q = default := by
  unfold Nfa.stateAt
  rw [List.getD_eq_getElem?_getD, List.getElem?_eq_none (by omega)]
  rfl

theorem Nfa.epsSet_subset {n : Nfa} (hwf : n.WF) (q : Nat) :
    n.epsSet q ⊆ Finset.range n.states.length := by
  intro t ht
  rw [Nfa.epsSet, List.mem_toFinset] at ht
  by_cases hq : q < n.states.length
  · have := (hwf.2.2 _ (Nfa.stateAt_mem hq)).2.2 t ht
    exact Finset.mem_range.mpr this
  · rw [Nfa.stateAt_default hq] at ht
    cases ht

theorem Nfa.symSet_subset {n : Nfa} (hwf : n.WF) (q x : Nat) :
    n.symSet q x ⊆ Finset.range n.states.length := by
  intro t ht
  rw [Nfa.symSet, List.mem_toFinset] at ht
  by_cases hq : q < n.states.length
  · have hmem := Nfa.stateAt_mem hq
    by_cases hx : x < (n.stateAt q).transitions.length
    · have hrow : (n.stateAt q).transitions.getD x [] = (n.stateAt q).transitions[x] := by
        rw [List.getD_eq_getElem?_getD, List.getElem?_eq_getElem hx]
        rfl
      rw [hrow] at ht
      exact Finset.mem_range.mpr
        ((hwf.2.2 _ hmem).2.1 _ (List.getElem_mem _) t ht)
    · rw [List.getD_eq_getElem?_getD, List.getElem?_eq_none (by omega)] at ht
      cases ht
  · rw [Nfa.stateAt_default hq] at ht
    exact absurd ht (List.not_mem_nil t)

theorem Nfa.epsClosure_subset_range {n : Nfa} (hwf : n.WF) {S : Finset Nat}
    (hS : S ⊆ Finset.range n.states.length) :
    n.epsClosure S ⊆ Finset.range n.states.length :=
  iterate_grow_subset_range (Nfa.epsSet_subset hwf) hS n.states.length

theorem Nfa.removeEps_length (n : Nfa) :
    n.removeEpsilonMoves.states.length = n.states.length := by
  unfold Nfa.removeEpsilonMoves
  simp

theorem Nfa.removeEps_stateAt {n : Nfa} {q : Nat} (hq : q < n.states.length) :
    n.removeEpsilonMoves.stateAt q =
      { name := (n.stateAt q).name
        accepting := decide (∃ r ∈ n.epsClosure {q}, (n.stateAt r).accepting = true)
        epsilonTransitions := []
        transitions := (List.range n.alphabet.length).map
          (fun x => ((n.epsClosure {q}).biUnion (fun r => n.symSet r x)).sort (· ≤ ·)) } := by
  unfold Nfa.stateAt Nfa.removeEpsilonMoves
  simp only
  rw [getD_map_range _ _ _ _ hq]
  rfl

theorem Nfa.removeEps_epsSet (n : Nfa) (q : Nat) :
    n.removeEpsilonMoves.epsSet q = ∅ := by
  unfold Nfa.epsSet
  by_cases hq : q < n.states.length
  · rw [Nfa.removeEps_stateAt hq]
    rfl
  · rw [Nfa.stateAt_default]
    · rfl
    · rw [Nfa.removeEps_length]; exact hq

theorem Nfa.removeEps_epsClosure (n : Nfa) (S : Finset Nat) :
    n.removeEpsilonMoves.epsClosure S = S :=
  closure_of_empty (Nfa.removeEps_epsSet n) S

theorem Nfa.removeEps_symSet {n : Nfa} {q x : Nat} (hq : q < n.states.length)
    (hx : x < n.alphabet.length) :
    n.removeEpsilonMoves.symSet q x = (n.epsClosure {q}).biUnion (fun r => n.symSet r x) := by
  unfold Nfa.symSet
  rw [Nfa.removeEps_stateAt hq]
  simp only
  rw [getD_map_range _ _ _ _ hx, Finset.sort_toFinset]
  rfl

/-- The closure of a seed is the union of the closures of its singletons. -/
theorem Nfa.epsClosure_eq_biUnion {n : Nfa} (hwf : n.WF) {S : Finset Nat}
    (hS : S ⊆ Finset.range n.states.length) :
    n.epsClosure S = S.biUnion (fun q => n.epsClosure {q}) :=
  closure_eq_biUnion (Nfa.epsSet_subset hwf) hS

/-- The new frontier step is the union of the original transition sets
from the ε-closure of the frontier. -/
theorem Nfa.removeEps_stepSet {n : Nfa} (hwf : n.WF) {S : Finset Nat}
    (hS : S ⊆ Finset.range n.states.length) {x : Nat} (hx : x < n.alphabet.length) :
    n.removeEpsilonMoves.stepSet S x = (n.epsClosure S).biUnion (fun q => n.symSet q x) := by
  unfold Nfa.stepSet
  rw [Nfa.removeEps_epsClosure]
  have h1 : S.biUnion (fun q => n.removeEpsilonMoves.symSet q x) =
      S.biUnion (fun q => (n.epsClosure {q}).biUnion (fun r => n.symSet r x)) := by
    apply Finset.biUnion_congr rfl
    intro q hq
    exact Nfa.removeEps_symSet (Finset.mem_range.mp (hS hq)) hx
  rw [h1, ← Finset.biUnion_biUnion, ← Nfa.epsClosure_eq_biUnion hwf hS]

theorem Nfa.stepSet_subset_range {n : Nfa} (hwf : n.WF) (S : Finset Nat) (x : Nat) :
    n.stepSet S x ⊆ Finset.range n.states.length := by
  unfold Nfa.stepSet
  apply Nfa.epsClosure_subset_range hwf
  intro t ht
  obtain ⟨q, -, hq⟩ := Finset.mem_biUnion.mp ht
  exact Nfa.symSet_subset hwf q x hq

/-- Frontier invariant: running the ε-free NFA and then closing equals
running the original NFA from the closed frontier. -/
theorem Nfa.removeEps_runSet {n : Nfa} (hwf : n.WF) (w : List Nat)
    (hw : ∀ x ∈ w, x < n.alphabet.length) :
    ∀ S, S ⊆ Finset.range n.states.length →
    n.epsClosure (n.removeEpsilonMoves.runSet S w) = n.runSet (n.epsClosure S) w := by
  induction w with
  | nil => intro S hS; rfl
  | cons x xs ih =>
    intro S hS
    have hx : x < n.alphabet.length := hw x (List.mem_cons_self ..)
    have hstep : n.removeEpsilonMoves.stepSet S x = (n.epsClosure S).biUnion
        (fun q => n.symSet q x) := Nfa.removeEps_stepSet hwf hS hx
    have hsub : n.removeEpsilonMoves.stepSet S x ⊆ Finset.range n.states.length := by
      rw [hstep]
      intro t ht
      obtain ⟨q, -, hq⟩ := Finset.mem_biUnion.mp ht
      exact Nfa.symSet_subset hwf q x hq
    show n.epsClosure (n.removeEpsilonMoves.runSet (n.removeEpsilonMoves.stepSet S x) xs) =
      n.runSet (n.stepSet (n.epsClosure S) x) xs
    rw [ih (fun y hy => hw y (List.mem_cons_of_mem _ hy)) _ hsub, hstep]
    rfl

/-- Acceptance of the cleared frontier matches acceptance of its
ε-closure in the original NFA. -/
theorem Nfa.removeEps_accSet {n : Nfa} (hwf : n.WF) {S : Finset Nat}
    (hS : S ⊆ Finset.range n.states.length) :
    (∃ q ∈ S, (n.removeEpsilonMoves.stateAt q).accepting = true) ↔
      ∃ r ∈ n.epsClosure S, (n.stateAt r).accepting = true := by
  rw [Nfa.epsClosure_eq_biUnion hwf hS]
  constructor
  · rintro ⟨q, hq, hacc⟩
    rw [Nfa.removeEps_stateAt (Finset.mem_range.mp (hS hq))] at hacc
    obtain ⟨r, hr, hracc⟩ := of_decide_eq_true hacc
    exact ⟨r, Finset.mem_biUnion.mpr ⟨q, hq, hr⟩, hracc⟩
  · rintro ⟨r, hr, hracc⟩
    obtain ⟨q, hq, hrq⟩ := Finset.mem_biUnion.mp hr
    refine ⟨q, hq, ?_⟩
    rw [Nfa.removeEps_stateAt (Finset.mem_range.mp (hS hq))]
    exact decide_eq_true ⟨r, hrq, hracc⟩

/-- A well-formed NFA's frontier run never leaves the state range. -/
theorem Nfa.runSet_subset_range {n : Nfa} (hwf : n.WF) (w : List Nat) :
    ∀ S, S ⊆ Finset.range n.states.length →
      n.runSet S w ⊆ Finset.range n.states.length := by
  induction w with
  | nil => exact fun S hS => hS
  | cons x xs ih =>
    intro S hS
    exact ih (n.stepSet S x) (Nfa.stepSet_subset_range hwf S x)

/-- ε-removal preserves structural well-formedness. -/
theorem Nfa.removeEps_WF {n : Nfa} (hwf : n.WF) : n.removeEpsilonMoves.WF := by
  refine ⟨?_, ?_, ?_⟩
  · have h0 : 0 < n.states.length := List.length_pos.mpr hwf.1
    intro hc
    rw [← Nfa.removeEps_length n, hc] at h0
    cases h0
  · rw [Nfa.removeEps_length]; exact hwf.2.1
  · intro s hs
    unfold Nfa.removeEpsilonMoves at hs
    simp only [List.mem_map, List.mem_range] at hs
    obtain ⟨q, hq, rfl⟩ := hs
    refine ⟨by rw [List.length_map, List.length_range]; rfl, ?_, by simp⟩
    intro ts hts t ht
    simp only [List.mem_map, List.mem_range] at hts
    obtain ⟨x, hx, rfl⟩ := hts
    rw [Finset.mem_sort] at ht
    obtain ⟨r, -, hr⟩ := Finset.mem_biUnion.mp ht
    rw [Nfa.removeEps_length]
    exact Finset.mem_range.mp (Nfa.symSet_subset hwf r x hr)

/-- C5: ε-removal preserves the accepted language, clears every state's
ε-transition set, and `has_epsilon_moves` becomes false. -/
theorem claim_C5_epsilon_removal (n : Nfa) (hwf : n.WF) :
    (∀ w, n.removeEpsilonMoves.accepts w = n.accepts w) ∧
    (∀ s ∈ n.removeEpsilonMoves.states, s.epsilonTransitions = []) ∧
    n.removeEpsilonMoves.hasEpsilonMoves = false := by
  have heps : ∀ s ∈ n.removeEpsilonMoves.states, s.epsilonTransitions = [] := by
    intro s hs
    unfold Nfa.removeEpsilonMoves at hs
    simp only [List.mem_map, List.mem_range] at hs
    obtain ⟨q, -, rfl⟩ := hs
    rfl
  refine ⟨?_, heps, ?_⟩
  · intro w
    unfold Nfa.accepts
    have halph : n.removeEpsilonMoves.alphabet = n.alphabet := rfl
    rw [halph]
    by_cases hall : ∀ tok ∈ w, tok ∈ n.alphabet
    · rw [if_pos hall, if_pos hall]
      have hidx : ∀ x ∈ w.map (fun tok => idxOf tok n.alphabet), x < n.alphabet.length := by
        intro x hx
        obtain ⟨tok, htok, rfl⟩ := List.mem_map.mp hx
        exact idxOf_lt_length (hall tok htok)
      have hinit : n.removeEpsilonMoves.initialState = n.initialState := rfl
      have hinitset : ({n.initialState} : Finset Nat) ⊆ Finset.range n.states.length := by
        intro q hq
        rw [Finset.mem_singleton] at hq
        subst hq
        exact Finset.mem_range.mpr hwf.2.1
      rw [hinit, Nfa.removeEps_epsClosure]
      apply decide_eq_decide.mpr
      have hrun := Nfa.removeEps_runSet hwf _ hidx _ hinitset
      have hrsub : n.removeEpsilonMoves.runSet {n.initialState}
          (w.map (fun tok => idxOf tok n.alphabet)) ⊆ Finset.range n.states.length := by
        rw [← Nfa.removeEps_length n]
        apply Nfa.runSet_subset_range (Nfa.removeEps_WF hwf)
        rw [Nfa.removeEps_length n]
        exact hinitset
      rw [Nfa.removeEps_accSet hwf hrsub, hrun]
    · rw [if_neg hall, if_neg hall]
  · unfold Nfa.hasEpsilonMoves
    rw [List.any_eq_false]
    intro s hs
    rw [heps s hs]
    decide

/-- Sample ε-NFA: `p` reaches accepting `q` only through an ε-move. -/
def sampleN : Nfa :=
  ⟨[['a']], [⟨['p'], false, [1], [[]]⟩, ⟨['q'], true, [], [[1]]⟩], 0⟩

/-- Witness for C5 at a concrete two-state ε-NFA and the word `a`. -/
theorem claim_C5_epsilon_removal_witness :
    sampleN.WF ∧
    (sampleN.removeEpsilonMoves.accepts [['a']] = sampleN.accepts [['a']] ∧
     (∀ s ∈ sampleN.removeEpsilonMoves.states, s.epsilonTransitions = []) ∧
     sampleN.removeEpsilonMoves.hasEpsilonMoves = false) :=
  ⟨by decide, (claim_C5_epsilon_removal sampleN (by decide)).1 [['a']],
    (claim_C5_epsilon_removal sampleN (by decide)).2.1,
    (claim_C5_epsilon_removal sampleN (by decide)).2.2⟩

/-! ## Word enumeration (spec §4.4)

`words()` yields the accepted language in length-lexicographic order:
the implementation enumerates every finite word over the alphabet in
order with a multi-counter and filters by acceptance.  We model the
enumeration truncated at a maximal length `k` (the lazy stream's prefix
the claim quantifies over). -/

/-- All words of length `l` over `sigma`, in lexicographic order by the
alphabet's declared symbol order. -/
def wordsOfLen (sigma : List Str) : Nat → List (List Str)
  | 0 => [[]]
  | l + 1 => (sigma.map (fun a => (wordsOfLen sigma l).map (a :: ·))).flatten

/-- Modelled from the spec: the multi-counter enumeration of every word
over `sigma` (§4.4), truncated to lengths `≤ k`: shorter words first,
ties broken by the declared symbol order. -/
def allWordsUpTo (sigma : List Str) (k : Nat) : List (List Str) :=
  ((List.range (k + 1)).map (wordsOfLen sigma)).flatten

/-- Modelled from the spec: the `words()` enumeration (§4.4), truncated
to lengths `≤ k`: every word over the alphabet in length-lex order,
filtered by acceptance. -/
def Nfa.wordsUpTo (n : Nfa) (k : Nat) : List (List Str) :=
  (allWordsUpTo n.alphabet k).filter n.accepts

/-- Symbol order: position in the declared alphabet. -/
def symLt (sigma : List Str) (a b : Str) : Prop :=
  idxOf a sigma < idxOf b sigma

instance (sigma : List Str) : DecidableRel (symLt sigma) := by
  unfold symLt; infer_instance

/-- Length-lexicographic order on words: shorter first, ties broken
lexicographically by the declared symbol order. -/
def llLt (sigma : List Str) (u v : List Str) : Prop :=
  u.length < v.length ∨ (u.length = v.length ∧ List.Lex (symLt sigma) u v)

instance (sigma : List Str) (u v : List Str) : Decidable (llLt sigma u v) := by
  unfold llLt
  have : DecidableRel (List.Lex (symLt sigma)) := List.Lex.decidableRel _
  infer_instance

/-- Boolean `≤` for the length-lex order, used by the merge. -/
def llLe (sigma : List Str) (u v : List Str) : Bool :=
  decide (llLt sigma u v) || decide (u = v)

theorem wordsOfLen_mem_iff (sigma : List Str) (l : Nat) (w : List Str) :
    w ∈ wordsOfLen sigma l ↔ w.length = l ∧ ∀ tok ∈ w, tok ∈ sigma := by
  induction l generalizing w with
  | zero =>
    unfold wordsOfLen
    simp only [List.mem_singleton, List.length_eq_zero]
    constructor
    · rintro rfl; exact ⟨rfl, by intro tok h; cases h⟩
    · rintro ⟨rfl, -⟩; rfl
  | succ l ih =>
    unfold wordsOfLen
    rw [List.mem_flatten]
    constructor
    · rintro ⟨L, hL, hw⟩
      obtain ⟨a, ha, rfl⟩ := List.mem_map.mp hL
      obtain ⟨u, hu, rfl⟩ := List.mem_map.mp hw
      obtain ⟨hlen, htoks⟩ := (ih u).mp hu
      refine ⟨by simp [hlen], ?_⟩
      intro tok htok
      rcases List.mem_cons.mp htok with rfl | h
      · exact ha
      · exact htoks tok h
    · rintro ⟨hlen, htoks⟩
      cases w with
      | nil => cases hlen
      | cons a u =>
        refine ⟨(wordsOfLen sigma l).map (a :: ·),
          List.mem_map.mpr ⟨a, htoks a (List.mem_cons_self ..), rfl⟩,
          List.mem_map.mpr ⟨u, (ih u).mpr ⟨by simpa using hlen,
            fun tok htok => htoks tok (List.mem_cons_of_mem _ htok)⟩, rfl⟩⟩

theorem allWordsUpTo_mem_iff (sigma : List Str) (k : Nat) (w : List Str) :
    w ∈ allWordsUpTo sigma k ↔ w.length ≤ k ∧ ∀ tok ∈ w, tok ∈ sigma := by
  unfold allWordsUpTo
  rw [List.mem_flatten]
  constructor
  · rintro ⟨L, hL, hw⟩
    obtain ⟨l, hl, rfl⟩ := List.mem_map.mp hL
    obtain ⟨hlen, htoks⟩ := (wordsOfLen_mem_iff sigma l w).mp hw
    have hlt := List.mem_range.mp hl
    exact ⟨by omega, htoks⟩
  · rintro ⟨hlen, htoks⟩
    exact ⟨wordsOfLen sigma w.length,
      List.mem_map.mpr ⟨w.length, List.mem_range.mpr (by omega), rfl⟩,
      (wordsOfLen_mem_iff sigma w.length w).mpr ⟨rfl, htoks⟩⟩

theorem idxOf_getElem {α : Type} [DecidableEq α] {l : List α} (hnd : l.Nodup) :
    ∀ i (hi : i < l.length), idxOf (l[i]) l = i := by
  induction l with
  | nil => intro i hi; cases hi
  | cons b t ih =>
    intro i hi
    cases i with
    | zero => unfold idxOf; simp
    | succ j =>
      unfold idxOf
      have hj : j < t.length := by simpa using hi
      have hbt : b ∉ t := (List.nodup_cons.mp hnd).1
      have hne : b ≠ (b :: t)[j + 1] := by
        simp only [List.getElem_cons_succ]
        intro he
        exact hbt (he ▸ List.getElem_mem hj)
      rw [if_neg hne]
      simp only [List.getElem_cons_succ]
      rw [ih (List.nodup_cons.mp hnd).2 j hj]

theorem nodup_pairwise_symLt {sigma : List Str} (hnd : sigma.Nodup) :
    sigma.Pairwise (symLt sigma) := by
  rw [List.pairwise_iff_getElem]
  intro i j hi hj hij
  unfold symLt
  rw [idxOf_getElem hnd i hi, idxOf_getElem hnd j hj]
  exact hij

theorem lex_irrefl {α : Type} {r : α → α → Prop} (hr : ∀ a, ¬r a a) :
    ∀ u : List α, ¬List.Lex r u u := by
  intro u
  induction u with
  | nil => intro h; cases h
  | cons a t ih =>
    intro h
    cases h with
    | cons h' => exact ih h'
    | rel h' => exact hr a h'

theorem lex_asymm {α : Type} {r : α → α → Prop} (hr : ∀ a b, r a b → ¬r b a) :
    ∀ u v : List α, List.Lex r u v → ¬List.Lex r v u := by
  intro u v h
  induction h with
  | nil => intro h'; cases h'
  | cons h' ih =>
    intro hvu
    cases hvu with
    | cons h'' => exact ih h''
    | rel h'' => exact hr _ _ h'' h''
  | rel h' =>
    intro hvu
    cases hvu with
    | cons h'' => exact hr _ _ h' h'
    | rel h'' => exact hr _ _ h' h''

theorem wordsOfLen_sorted {sigma : List Str} (hnd : sigma.Nodup) (l : Nat) :
    (wordsOfLen sigma l).Pairwise (List.Lex (symLt sigma)) := by
  induction l with
  | zero => unfold wordsOfLen; exact List.pairwise_singleton _ _
  | succ l ih =>
    unfold wordsOfLen
    rw [List.pairwise_flatten]
    constructor
    · intro L hL
      obtain ⟨a, ha, rfl⟩ := List.mem_map.mp hL
      rw [List.pairwise_map]
      exact ih.imp (fun h => List.Lex.cons h)
    · rw [List.pairwise_map]
      refine (nodup_pairwise_symLt hnd).imp ?_
      intro a b hab x hx y hy
      obtain ⟨u, -, rfl⟩ := List.mem_map.mp hx
      obtain ⟨v, -, rfl⟩ := List.mem_map.mp hy
      exact List.Lex.rel hab

theorem llLt_irrefl (sigma : List Str) (u : List Str) : ¬llLt sigma u u := by
  rintro (h | ⟨-, h⟩)
  · exact Nat.lt_irrefl _ h
  · exact lex_irrefl (α := Str) (r := symLt sigma) (fun a => Nat.lt_irrefl _) u h

theorem llLt_asymm (sigma : List Str) (u v : List Str) (h : llLt sigma u v) :
    ¬llLt sigma v u := by
  rintro (h' | ⟨heq, h'⟩)
  · rcases h with h | ⟨heq, -⟩
    · omega
    · omega
  · rcases h with h | ⟨-, hlex⟩
    · omega
    · exact lex_asymm (fun a b hab hba => by unfold symLt at hab hba; omega) u v hlex h'

theorem allWordsUpTo_sorted {sigma : List Str} (hnd : sigma.Nodup) (k : Nat) :
    (allWordsUpTo sigma k).Pairwise (llLt sigma) := by
  unfold allWordsUpTo
  rw [List.pairwise_flatten]
  constructor
  · intro L hL
    obtain ⟨l, -, rfl⟩ := List.mem_map.mp hL
    refine (wordsOfLen_sorted hnd l).imp_of_mem ?_
    intro u v hu hv hlex
    exact Or.inr ⟨by
      rw [((wordsOfLen_mem_iff sigma l u).mp hu).1,
        ((wordsOfLen_mem_iff sigma l v).mp hv).1], hlex⟩
  · rw [List.pairwise_map]
    refine (List.pairwise_lt_range _).imp_of_mem ?_
    intro l1 l2 h1 h2 hlt x hx y hy
    exact Or.inl (by
      rw [((wordsOfLen_mem_iff sigma l1 x).mp hx).1,
        ((wordsOfLen_mem_iff sigma l2 y).mp hy).1]
      exact hlt)

theorem allWordsUpTo_nodup {sigma : List Str} (hnd : sigma.Nodup) (k : Nat) :
    (allWordsUpTo sigma k).Nodup := by
  have hs := allWordsUpTo_sorted hnd k
  refine hs.imp ?_
  intro u v h he
  exact llLt_irrefl sigma v (he ▸ h)

theorem llLt_le_pair {sigma : List Str} {u v : List Str} (h : llLt sigma u v) :
    llLe sigma u v = true ∧ llLe sigma v u = false := by
  unfold llLe
  constructor
  · rw [decide_eq_true h]
    rfl
  · rw [Bool.or_eq_false_iff]
    constructor
    · exact decide_eq_false (llLt_asymm sigma u v h)
    · exact decide_eq_false (fun he => llLt_irrefl sigma u (he ▸ h))

/-- Merge two lists by a Boolean `≤`, preferring the left on ties. -/
def mergeBy {α : Type} (le : α → α → Bool) : List α → List α → List α
  | [], ys => ys
  | x :: xs, [] => x :: xs
  | x :: xs, y :: ys =>
    if le x y then x :: mergeBy le xs (y :: ys) else y :: mergeBy le (x :: xs) ys

theorem mergeBy_nil_right {α : Type} (le : α → α → Bool) (A : List α) :
    mergeBy le A [] = A := by
  cases A <;> simp [mergeBy]

theorem mergeBy_cons_cons {α : Type} (le : α → α → Bool) (x y : α) (xs ys : List α) :
    mergeBy le (x :: xs) (y :: ys) =
      if le x y then x :: mergeBy le xs (y :: ys) else y :: mergeBy le (x :: xs) ys := by
  simp only [mergeBy]

theorem mergeBy_cons_left {α : Type} (le : α → α → Bool) (x : α) (A B : List α)
    (h : ∀ y ∈ B, le x y = true) :
    mergeBy le (x :: A) B = x :: mergeBy le A B := by
  cases B with
  | nil => rw [mergeBy_nil_right, mergeBy_nil_right]
  | cons y B' =>
    rw [mergeBy_cons_cons, if_pos (h y (List.mem_cons_self ..))]

theorem mergeBy_cons_right {α : Type} (le : α → α → Bool) (y : α) (A B : List α)
    (h : ∀ a ∈ A, le a y = false) :
    mergeBy le A (y :: B) = y :: mergeBy le A B := by
  cases A with
  | nil => simp [mergeBy]
  | cons a A' =>
    rw [mergeBy_cons_cons,
      if_neg (by rw [h a (List.mem_cons_self ..)]; exact Bool.false_ne_true)]

/-- Merging the kept and dropped sublists of a strictly ordered list
restores the list. -/
theorem mergeBy_filter {α : Type} (le : α → α → Bool) (p : α → Bool) (l : List α)
    (h : l.Pairwise (fun a b => le a b = true ∧ le b a = false)) :
    mergeBy le (l.filter p) (l.filter (fun a => !p a)) = l := by
  induction l with
  | nil => simp [mergeBy]
  | cons x t ih =>
    rw [List.pairwise_cons] at h
    obtain ⟨hx, ht⟩ := h
    by_cases hp : p x = true
    · rw [List.filter_cons_of_pos hp, List.filter_cons_of_neg (by simp [hp])]
      rw [mergeBy_cons_left _ _ _ _ (fun y hy => (hx y (List.mem_of_mem_filter hy)).1)]
      rw [ih ht]
    · rw [List.filter_cons_of_neg (by simpa using hp),
        List.filter_cons_of_pos (by simp [Bool.eq_false_iff.mpr hp])]
      rw [mergeBy_cons_right _ _ _ _ (fun a ha => (hx a (List.mem_of_mem_filter ha)).2)]
      rw [ih ht]

/-- C4: the `words()` enumeration is in strict length-lexicographic order,
contains exactly the accepted words over the alphabet of length at most
`k`, and merging it with the enumeration of any automaton `C` accepting
the complementary language yields every word over the alphabet of length
at most `k` exactly once, in that order. -/
theorem claim_C4_word_enumeration (n : Nfa) (k : Nat) (hnd : n.alphabet.Nodup)
    (C : Nfa) (hC : C.alphabet = n.alphabet)
    (hcompl : ∀ w, w.length ≤ k → (∀ tok ∈ w, tok ∈ n.alphabet) →
      C.accepts w = !n.accepts w) :
    (n.wordsUpTo k).Pairwise (llLt n.alphabet) ∧
    (C.wordsUpTo k).Pairwise (llLt n.alphabet) ∧
    (∀ w, w ∈ n.wordsUpTo k ↔
      w.length ≤ k ∧ (∀ tok ∈ w, tok ∈ n.alphabet) ∧ n.accepts w = true) ∧
    mergeBy (llLe n.alphabet) (n.wordsUpTo k) (C.wordsUpTo k) =
      allWordsUpTo n.alphabet k ∧
    (allWordsUpTo n.alphabet k).Nodup ∧
    (∀ w, w ∈ allWordsUpTo n.alphabet k ↔
      w.length ≤ k ∧ ∀ tok ∈ w, tok ∈ n.alphabet) := by
  have hCw : C.wordsUpTo k =
      (allWordsUpTo n.alphabet k).filter (fun w => !n.accepts w) := by
    unfold Nfa.wordsUpTo
    rw [hC]
    apply List.filter_congr
    intro w hw
    obtain ⟨hl, ht⟩ := (allWordsUpTo_mem_iff _ _ _).mp hw
    exact hcompl w hl ht
  refine ⟨?_, ?_, ?_, ?_, allWordsUpTo_nodup hnd k, allWordsUpTo_mem_iff _ _⟩
  · exact (allWordsUpTo_sorted hnd k).filter _
  · rw [hCw]
    exact (allWordsUpTo_sorted hnd k).filter _
  · intro w
    unfold Nfa.wordsUpTo
    rw [List.mem_filter, allWordsUpTo_mem_iff]
    constructor
    · rintro ⟨⟨h1, h2⟩, h3⟩; exact ⟨h1, h2, h3⟩
    · rintro ⟨h1, h2, h3⟩; exact ⟨⟨h1, h2⟩, h3⟩
  · rw [hCw]
    exact mergeBy_filter _ _ _
      ((allWordsUpTo_sorted hnd k).imp (fun h => llLt_le_pair h))

/-- NFA over alphabet `a` accepting nothing. -/
def sampleZ : Nfa := ⟨[['a']], [⟨['z'], false, [], [[0]]⟩], 0⟩

/-- Witness for C4 at the all-accepting `sampleN`, its complement
`sampleZ`, and maximal length 0. -/
theorem claim_C4_word_enumeration_witness :
    sampleN.alphabet.Nodup ∧ sampleZ.alphabet = sampleN.alphabet ∧
    mergeBy (llLe sampleN.alphabet) (sampleN.wordsUpTo 0) (sampleZ.wordsUpTo 0) =
      allWordsUpTo sampleN.alphabet 0 :=
  ⟨by decide, by decide,
    (claim_C4_word_enumeration sampleN 0 (by decide) sampleZ (by decide)
      (fun w hl ht => by
        have hw : w = [] := List.length_eq_zero.mp (Nat.le_zero.mp hl)
        subst hw
        decide)).2.2.2.1⟩

/-! ## Table text tokenizer (spec §4.1)

Tokens are whitespace-delimited; `#` starts a comment running to the end
of the line; `{` and `}` delimit NFA transition sets and are tokens of
their own (they cannot occur inside names). -/

/-- Characters that may occur inside a token. -/
def isTokChar (c : Char) : Bool :=
  !(c.isWhitespace || c == '#' || c == '{' || c == '}')

theorem length_dropWhile_lt_cons (p : Char → Bool) (c : Char) (cs : Str) :
    (cs.dropWhile p).length < (c :: cs).length := by
  have := (List.dropWhile_sublist p (l := cs)).length_le
  simp only [List.length_cons]
  omega

/-- Modelled from the spec: tokenize one line (§4.1): split on whitespace,
stop at `#`, emit `{` and `}` as standalone tokens. -/
def tokenize (s : Str) : List Str :=
  match s with
  | [] => []
  | c :: cs =>
    if c = '#' then []
    else if c.isWhitespace then tokenize cs
    else if c = '{' then ['{'] :: tokenize cs
    else if c = '}' then ['}'] :: tokenize cs
    else ((c :: cs).takeWhile isTokChar) :: tokenize (cs.dropWhile isTokChar)
termination_by s.length
decreasing_by
  · simp
  · simp
  · simp
  · exact length_dropWhile_lt_cons isTokChar _ _

/-- A plain token: non-empty, all characters allowed inside tokens. -/
def PlainTok (t : Str) : Prop :=
  t ≠ [] ∧ ∀ c ∈ t, isTokChar c = true

instance (t : Str) : Decidable (PlainTok t) := by
  unfold PlainTok; infer_instance

/-- The first character of `rest` (if any) cannot extend a token. -/
def TokBreak (rest : Str) : Prop :=
  match rest with
  | [] => True
  | c :: _ => isTokChar c = false

theorem isTokChar_not_hash {c : Char} (h : isTokChar c = true) : ¬c = '#' := by
  unfold isTokChar at h
  simp only [Bool.not_eq_eq_eq_not, Bool.not_true, Bool.or_eq_false_iff] at h
  intro he
  subst he
  simp at h

theorem isTokChar_not_ws {c : Char} (h : isTokChar c = true) : ¬c.isWhitespace = true := by
  unfold isTokChar at h
  simp only [Bool.not_eq_eq_eq_not, Bool.not_true, Bool.or_eq_false_iff] at h
  intro he
  rw [he] at h
  simp at h

theorem isTokChar_not_open {c : Char} (h : isTokChar c = true) : ¬c = '{' := by
  unfold isTokChar at h
  simp only [Bool.not_eq_eq_eq_not, Bool.not_true, Bool.or_eq_false_iff] at h
  intro he
  subst he
  simp at h

theorem isTokChar_not_close {c : Char} (h : isTokChar c = true) : ¬c = '}' := by
  unfold isTokChar at h
  simp only [Bool.not_eq_eq_eq_not, Bool.not_true, Bool.or_eq_false_iff] at h
  intro he
  subst he
  simp at h

theorem takeWhile_all_append {p : Char → Bool} (t cs : Str)
    (h : ∀ c ∈ t, p c = true)
    (hcs : match cs with | [] => True | c :: _ => p c = false) :
    (t ++ cs).takeWhile p = t := by
  induction t with
  | nil =>
    cases cs with
    | nil => rfl
    | cons c cs' =>
      simp only [List.nil_append]
      rw [List.takeWhile_cons_of_neg (by rw [hcs]; exact Bool.false_ne_true)]
  | cons c t' ih =>
    simp only [List.cons_append]
    rw [List.takeWhile_cons_of_pos (h c (List.mem_cons_self ..))]
    rw [ih (fun c hc => h c (List.mem_cons_of_mem _ hc))]

theorem dropWhile_all_append {p : Char → Bool} (t cs : Str)
    (h : ∀ c ∈ t, p c = true)
    (hcs : match cs with | [] => True | c :: _ => p c = false) :
    (t ++ cs).dropWhile p = cs := by
  induction t with
  | nil =>
    cases cs with
    | nil => rfl
    | cons c cs' =>
      simp only [List.nil_append]
      rw [List.dropWhile_cons_of_neg (by rw [hcs]; exact Bool.false_ne_true)]
  | cons c t' ih =>
    simp only [List.cons_append]
    rw [List.dropWhile_cons_of_pos (h c (List.mem_cons_self ..))]
    exact ih (fun c hc => h c (List.mem_cons_of_mem _ hc))

theorem tokenize_space (cs : Str) : tokenize (' ' :: cs) = tokenize cs := by
  rw [tokenize]
  rw [if_neg (by decide), if_pos (by decide)]

theorem tokenize_open (cs : Str) : tokenize ('{' :: cs) = ['{'] :: tokenize cs := by
  rw [tokenize]
  rw [if_neg (by decide), if_neg (by decide), if_pos rfl]

theorem tokenize_close (cs : Str) : tokenize ('}' :: cs) = ['}'] :: tokenize cs := by
  rw [tokenize]
  rw [if_neg (by decide), if_neg (by decide), if_neg (by decide), if_pos rfl]

theorem tokenize_plain_append {t : Str} (ht : PlainTok t) (cs : Str) (hcs : TokBreak cs) :
    tokenize (t ++ cs) = t :: tokenize cs := by
  obtain ⟨htne, htok⟩ := ht
  cases t with
  | nil => exact absurd rfl htne
  | cons c t' =>
    have hc : isTokChar c = true := htok c (List.mem_cons_self ..)
    simp only [List.cons_append]
    rw [tokenize]
    rw [if_neg (isTokChar_not_hash hc), if_neg (isTokChar_not_ws hc),
      if_neg (isTokChar_not_open hc), if_neg (isTokChar_not_close hc)]
    rw [show c :: (t' ++ cs) = (c :: t') ++ cs from rfl]
    rw [takeWhile_all_append _ _ htok (by cases cs <;> simpa [TokBreak] using hcs)]
    rw [dropWhile_all_append t' cs (fun a ha => htok a (List.mem_cons_of_mem _ ha))
      (by cases cs <;> simpa [TokBreak] using hcs)]

/-- Split a character list at every occurrence of `sep` (segments keep
their order; empty segments are preserved). -/
def splitOnChar (sep : Char) : Str → List Str
  | [] => [[]]
  | c :: cs =>
    if c = sep then [] :: splitOnChar sep cs
    else
      match splitOnChar sep cs with
      | [] => [[c]]
      | seg :: rest => (c :: seg) :: rest

theorem splitOnChar_no_sep {sep : Char} {l : Str} (h : sep ∉ l) :
    splitOnChar sep l = [l] := by
  induction l with
  | nil => rfl
  | cons c cs ih =>
    rw [splitOnChar]
    rw [if_neg (show ¬c = sep from fun he => h (List.mem_cons.mpr (Or.inl he.symm)))]
    rw [ih (fun hm => h (List.mem_cons_of_mem _ hm))]

theorem splitOnChar_append {sep : Char} {l : Str} (h : sep ∉ l) (rest : Str) :
    splitOnChar sep (l ++ sep :: rest) = l :: splitOnChar sep rest := by
  induction l with
  | nil =>
    simp only [List.nil_append]
    rw [splitOnChar]
    rw [if_pos rfl]
  | cons c cs ih =>
    simp only [List.cons_append]
    rw [splitOnChar]
    rw [if_neg (show ¬c = sep from fun he => h (List.mem_cons.mpr (Or.inl he.symm)))]
    rw [ih (fun hm => h (List.mem_cons_of_mem _ hm))]

theorem splitOnChar_intercalate (sep : Char) (ls : List Str) (hne : ls ≠ [])
    (h : ∀ l ∈ ls, sep ∉ l) :
    splitOnChar sep (List.intercalate [sep] ls) = ls := by
  induction ls with
  | nil => exact absurd rfl hne
  | cons l ls' ih =>
    cases ls' with
    | nil =>
      rw [List.intercalate, List.intersperse_singleton, List.flatten]
      simp only [List.flatten_nil, List.append_nil]
      exact splitOnChar_no_sep (h l (List.mem_cons_self ..))
    | cons l2 ls'' =>
      have hstep : List.intercalate [sep] (l :: l2 :: ls'') =
          l ++ sep :: List.intercalate [sep] (l2 :: ls'') := by
        unfold List.intercalate
        rw [List.intersperse_cons_cons]
        simp [List.flatten]
      rw [hstep, splitOnChar_append (h l (List.mem_cons_self ..))]
      rw [ih (by intro hc; cases hc) (fun x hx => h x (List.mem_cons_of_mem _ hx))]

/-- Joining per-chunk tokenizations: if every chunk tokenizes itself in
front of any token break, the whole space-joined line tokenizes to the
concatenation of the chunks' token lists. -/
theorem tokenize_intercalate (chunks : List Str) (f : Str → List Str)
    (hch : ∀ ch ∈ chunks, ∀ rest, TokBreak rest →
      tokenize (ch ++ rest) = f ch ++ tokenize rest) :
    tokenize (List.intercalate [' '] chunks) = (chunks.map f).flatten := by
  induction chunks with
  | nil => simp [List.intercalate]; rw [tokenize]
  | cons ch chs ih =>
    cases chs with
    | nil =>
      have hint : List.intercalate [' '] [ch] = ch := by simp [List.intercalate]
      rw [hint]
      have hap := hch ch (List.mem_cons_self ..) [] trivial
      rw [List.append_nil] at hap
      rw [show tokenize ([] : Str) = [] from by rw [tokenize]] at hap
      rw [List.append_nil] at hap
      simpa using hap
    | cons ch2 chs' =>
      have hstep : List.intercalate [' '] (ch :: ch2 :: chs') =
          ch ++ ' ' :: List.intercalate [' '] (ch2 :: chs') := by
        unfold List.intercalate
        rw [List.intersperse_cons_cons]
        simp [List.flatten]
      rw [hstep]
      rw [hch ch (List.mem_cons_self ..) (' ' :: List.intercalate [' '] (ch2 :: chs'))
        (by show isTokChar ' ' = false; decide)]
      rw [tokenize_space]
      rw [ih (fun c hc rest hrest => hch c (List.mem_cons_of_mem _ hc) rest hrest)]
      simp

/-! ## Table writer (spec §4.6) and table parser (spec §4.1–4.2) -/

/-- Join tokens with single spaces (the writer's column padding is
whitespace the parser ignores, so single spaces are emitted). -/
def joinToks (ts : List Str) : Str := List.intercalate [' '] ts

/-- An NFA transition set cell `{n₁ n₂ …}` (spec §4.6). -/
def braceGroup (names : List Str) : Str :=
  '{' :: (List.intercalate [' '] names ++ ['}'])

/-- The chunks of one DFA state row: optional `→`, optional `*`, the
state name, one target name per alphabet symbol (spec §4.6). -/
def dfaRowChunks (d : Dfa) (i : Nat) : List Str :=
  (if i = d.initialState then [['→']] else []) ++
  (if (d.states.getD i default).accepting then [['*']] else []) ++
  [(d.states.getD i default).name] ++
  (d.states.getD i default).transitions.map (fun t => (d.states.getD t default).name)

/-- Modelled from the spec: serialize a DFA back to table text (§4.6). -/
def Dfa.toTable (d : Dfa) : Str :=
  List.intercalate ['\n'] (joinToks d.alphabet ::
    (List.range d.states.length).map (fun i => joinToks (dfaRowChunks d i)))

/-- The chunks of one NFA state row: markers, name, the ε set cell, then
one set cell per alphabet symbol, targets in stored order (spec §4.6,
design note (c)). -/
def nfaRowChunks (n : Nfa) (i : Nat) : List Str :=
  (if i = n.initialState then [['→']] else []) ++
  (if (n.stateAt i).accepting then [['*']] else []) ++
  [(n.stateAt i).name] ++
  [braceGroup ((n.stateAt i).epsilonTransitions.map (fun t => (n.stateAt t).name))] ++
  (n.stateAt i).transitions.map (fun ts => braceGroup (ts.map (fun t => (n.stateAt t).name)))

/-- Modelled from the spec: serialize an NFA back to table text with an
`ε` column first (§4.6). -/
def Nfa.toTable (n : Nfa) : Str :=
  List.intercalate ['\n'] (joinToks (['ε'] :: n.alphabet) ::
    (List.range n.states.length).map (fun i => joinToks (nfaRowChunks n i)))

/-- Split into lines, tokenize each, drop blank/comment-only lines
(spec §4.1). -/
def parseLines (text : Str) : List (List Str) :=
  ((splitOnChar '\n' text).map tokenize).filter (fun ts => !ts.isEmpty)

/-- Strip the optional initial (`→`/`->`) and accepting (`*`) markers,
order-insensitive (spec §4.1). -/
def takeMarks (ts : List Str) : Bool × Bool × List Str :=
  match ts with
  | [] => (false, false, [])
  | t :: rest =>
    if t = ['→'] ∨ t = ['-', '>'] then
      match rest with
      | u :: rest' => if u = ['*'] then (true, true, rest') else (true, false, rest)
      | [] => (true, false, [])
    else if t = ['*'] then
      match rest with
      | u :: rest' =>
        if u = ['→'] ∨ u = ['-', '>'] then (true, true, rest') else (false, true, rest)
      | [] => (false, true, [])
    else (false, false, ts)

/-- One DFA row: markers, then the state name, then one cell per symbol. -/
def parseDfaRow (ts : List Str) : Option (Bool × Bool × Str × List Str) :=
  match takeMarks ts with
  | (ini, acc, name :: cells) => some (ini, acc, name, cells)
  | (_, _, []) => none

/-- The state names of a list of parsed rows, in row order. -/
def rowNames {β : Type} (rows : List (Bool × Bool × Str × β)) : List Str :=
  rows.map (fun q => q.2.2.1)

/-- The validation of parsed DFA rows (spec §4.2): distinct names,
exactly one initial mark, full rows referencing declared names; then
materialize states in row order with names resolved to indices. -/
def dfaParseRows (header : List Str) (rows : List (Bool × Bool × Str × List Str)) :
    Option Dfa :=
  if ¬(rowNames rows).Nodup then none
  else if rows.countP (fun r => r.1) ≠ 1 then none
  else if ¬(∀ r ∈ rows, r.2.2.2.length = header.length ∧
      ∀ cell ∈ r.2.2.2, cell ∈ rowNames rows) then none
  else some
    { alphabet := header
      states := rows.map (fun r =>
        ({ name := r.2.2.1, accepting := r.2.1,
           transitions := r.2.2.2.map (fun cell => idxOf cell (rowNames rows)) } : DfaState))
      initialState := rows.findIdx (fun r => r.1) }

/-- Header handling and row parsing for a DFA table (spec §4.1–4.2):
reject a missing header, duplicate or ε header symbols. -/
def dfaParseLines : List (List Str) → Option Dfa
  | [] => none
  | header :: rowToks =>
    if ¬header.Nodup then none
    else if ['ε'] ∈ header ∨ ['e', 'p', 's'] ∈ header then none
    else
      match rowToks.mapM parseDfaRow with
      | none => none
      | some rows => dfaParseRows header rows

/-- Modelled from the spec: parse-and-validate a DFA table (§4.1–4.2). -/
def dfaParse (text : Str) : Option Dfa :=
  dfaParseLines (parseLines text)

/-- Scan the members of a `{…}` set up to the closing `}`. -/
def scanSet : List Str → Option (List Str × List Str)
  | [] => none
  | t :: rest =>
    if t = ['}'] then some ([], rest)
    else if t = ['{'] then none
    else
      match scanSet rest with
      | none => none
      | some (names, rem) => some (t :: names, rem)

theorem scanSet_length : ∀ l ns rem, scanSet l = some (ns, rem) → rem.length < l.length := by
  intro l
  induction l with
  | nil => intro ns rem h; cases h
  | cons t rest ih =>
    intro ns rem h
    rw [scanSet] at h
    by_cases h1 : t = ['}']
    · rw [if_pos h1] at h
      obtain ⟨-, rfl⟩ := Prod.mk.injEq .. ▸ Option.some.inj h
      simp
    · rw [if_neg h1] at h
      by_cases h2 : t = ['{']
      · rw [if_pos h2] at h; cases h
      · rw [if_neg h2] at h
        cases hs : scanSet rest with
        | none => rw [hs] at h; cases h
        | some pr =>
          rw [hs] at h
          obtain ⟨ns', rem'⟩ := pr
          obtain ⟨-, rfl⟩ := Prod.mk.injEq .. ▸ Option.some.inj h
          have := ih ns' _ hs
          simp only [List.length_cons]
          omega

/-- The sequence of `{…}` cells of an NFA row. -/
def parseSetCells (l : List Str) : Option (List (List Str)) :=
  match l with
  | [] => some []
  | t :: rest =>
    if t = ['{'] then
      match h : scanSet rest with
      | none => none
      | some (names, rem) =>
        match parseSetCells rem with
        | none => none
        | some cells => some (names :: cells)
    else none
termination_by l.length
decreasing_by
  have := scanSet_length _ _ _ h
  simp only [List.length_cons]
  omega

/-- One NFA row: markers, name, then the set cells. -/
def parseNfaRow (ts : List Str) : Option (Bool × Bool × Str × List (List Str)) :=
  match takeMarks ts with
  | (ini, acc, name :: cellToks) =>
    match parseSetCells cellToks with
    | none => none
    | some cells => some (ini, acc, name, cells)
  | (_, _, []) => none

/-- The ε column position of an NFA header, if any (spec §4.2 step 1). -/
def epsIdxOf (header : List Str) : Option Nat :=
  if ['ε'] ∈ header then some (idxOf ['ε'] header)
  else if ['e', 'p', 's'] ∈ header then some (idxOf ['e', 'p', 's'] header)
  else none

/-- The validation of parsed NFA rows (spec §4.2): as for the DFA, with
the ε column routed to the per-state ε-transition sets. -/
def nfaParseRows (header : List Str) (rows : List (Bool × Bool × Str × List (List Str))) :
    Option Nfa :=
  if ¬(rowNames rows).Nodup then none
  else if rows.countP (fun r => r.1) ≠ 1 then none
  else if ¬(∀ r ∈ rows, r.2.2.2.length = header.length ∧
      ∀ cell ∈ r.2.2.2, ∀ nm ∈ cell, nm ∈ rowNames rows) then none
  else some
    { alphabet := header.filter (fun a => decide (a ≠ ['ε'] ∧ a ≠ ['e', 'p', 's']))
      states := rows.map (fun r =>
        ({ name := r.2.2.1, accepting := r.2.1,
           epsilonTransitions :=
             (match epsIdxOf header with
               | some k => r.2.2.2.getD k []
               | none => []).map (fun nm => idxOf nm (rowNames rows))
           transitions :=
             ((match epsIdxOf header with
               | some k => r.2.2.2.eraseIdx k
               | none => r.2.2.2 : List (List Str))).map
               (fun cell => cell.map (fun nm => idxOf nm (rowNames rows))) } :
          NfaState))
      initialState := rows.findIdx (fun r => r.1) }

/-- Header handling and row parsing for an NFA table (spec §4.1–4.2). -/
def nfaParseLines : List (List Str) → Option Nfa
  | [] => none
  | header :: rowToks =>
    if ¬header.Nodup then none
    else if ['ε'] ∈ header ∧ ['e', 'p', 's'] ∈ header then none
    else
      match rowToks.mapM parseNfaRow with
      | none => none
      | some rows => nfaParseRows header rows

/-- Modelled from the spec: parse-and-validate an NFA table (§4.1–4.2).
An `ε`/`eps` header symbol is moved out of the alphabet: its column
becomes the per-state ε-transition sets. -/
def nfaParse (text : Str) : Option Nfa :=
  nfaParseLines (parseLines text)

/-- Reserved tokens that cannot be state names or alphabet symbols
(spec §4.1), together with the ε spellings. -/
def reservedToks : List Str :=
  [['→'], ['-', '>'], ['*'], ['|'], ['{'], ['}'], ['ε'], ['e', 'p', 's']]

/-- A usable name or symbol token: lexically plain and not reserved. -/
def GoodTok (t : Str) : Prop := PlainTok t ∧ t ∉ reservedToks

instance (t : Str) : Decidable (GoodTok t) := by
  unfold GoodTok; infer_instance

/-- A valid DFA (spec §3, §4.1): structurally well-formed, non-empty
alphabet of distinct usable symbols, distinct usable state names. -/
def Dfa.Valid (d : Dfa) : Prop :=
  d.WF ∧ d.alphabet ≠ [] ∧ d.alphabet.Nodup ∧ (∀ a ∈ d.alphabet, GoodTok a) ∧
  (d.states.map (fun s => s.name)).Nodup ∧ (∀ s ∈ d.states, GoodTok s.name)

instance (d : Dfa) : Decidable d.Valid := by
  unfold Dfa.Valid; infer_instance

/-- A valid NFA (spec §3, §4.1). -/
def Nfa.Valid (n : Nfa) : Prop :=
  n.WF ∧ n.alphabet.Nodup ∧ (∀ a ∈ n.alphabet, GoodTok a) ∧
  (n.states.map (fun s => s.name)).Nodup ∧ (∀ s ∈ n.states, GoodTok s.name)

instance (n : Nfa) : Decidable n.Valid := by
  unfold Nfa.Valid; infer_instance

/-! ## Round-trip lemmas -/

theorem mapM_some {α β : Type} (g : α → Option β) (f : α → β) (l : List α)
    (h : ∀ x ∈ l, g x = some (f x)) : l.mapM g = some (l.map f) := by
  induction l with
  | nil => rfl
  | cons x xs ih =>
    rw [List.mapM_cons, h x (List.mem_cons_self ..),
      ih (fun y hy => h y (List.mem_cons_of_mem _ hy))]
    rfl

theorem map_getD_range {α : Type} (l : List α) (dflt : α) :
    (List.range l.length).map (fun i => l.getD i dflt) = l := by
  apply List.ext_getElem
  · simp
  · intro i h1 h2
    simp only [List.getElem_map, List.getElem_range]
    rw [List.getD_eq_getElem?_getD, List.getElem?_eq_getElem h2]
    rfl

theorem countP_range_eq_one {k n : Nat} (h : k < n) :
    (List.range n).countP (fun i => decide (i = k)) = 1 := by
  induction n with
  | zero => omega
  | succ m ih =>
    rw [List.range_succ, List.countP_append]
    by_cases hk : k < m
    · rw [ih hk]
      have : (List.countP (fun i => decide (i = k)) [m]) = 0 := by
        simp only [List.countP_cons, List.countP_nil]
        rw [decide_eq_false (by omega)]
        rfl
      omega
    · have hkm : k = m := by omega
      subst hkm
      have h0 : (List.range k).countP (fun i => decide (i = k)) = 0 := by
        apply List.countP_eq_zero.mpr
        intro i hi
        have := List.mem_range.mp hi
        simp only [decide_eq_true_eq]
        omega
      rw [h0]
      simp

theorem findIdx_spec {α : Type} (p : α → Bool) (l : List α) (i : Nat) (hi : i < l.length)
    (hp : p (l.get ⟨i, hi⟩) = true)
    (hj : ∀ j, j < i → ∀ (hjl : j < l.length), p (l.get ⟨j, hjl⟩) = false) :
    l.findIdx p = i := by
  induction l generalizing i with
  | nil => cases hi
  | cons a t ih =>
    rw [List.findIdx_cons]
    cases i with
    | zero =>
      rw [show p a = true from hp]
      rfl
    | succ j =>
      rw [show p a = false from hj 0 (by omega) (by simp)]
      simp only [cond_false]
      have hjt : j < t.length := by simpa using hi
      rw [ih j hjt hp
        (fun j' h1 h2 => hj (j' + 1) (by omega) (by simpa using Nat.succ_lt_succ h2))]

theorem mem_intercalate_char {s : Char} {ls : List Str} {c : Char}
    (h : c ∈ List.intercalate [s] ls) : c = s ∨ ∃ l ∈ ls, c ∈ l := by
  induction ls with
  | nil => cases h
  | cons l ls' ih =>
    cases ls' with
    | nil =>
      rw [List.intercalate, List.intersperse_singleton] at h
      simp only [List.flatten, List.flatten_nil, List.append_nil] at h
      exact Or.inr ⟨l, List.mem_cons_self .., by simpa using h⟩
    | cons l2 ls'' =>
      have hstep : List.intercalate [s] (l :: l2 :: ls'') =
          l ++ s :: List.intercalate [s] (l2 :: ls'') := by
        unfold List.intercalate
        rw [List.intersperse_cons_cons]
        simp [List.flatten]
      rw [hstep] at h
      rcases List.mem_append.mp h with h1 | h1
      · exact Or.inr ⟨l, List.mem_cons_self .., h1⟩
      · rcases List.mem_cons.mp h1 with rfl | h2
        · exact Or.inl rfl
        · rcases ih h2 with he | ⟨l', hl', hc⟩
          · exact Or.inl he
          · exact Or.inr ⟨l', List.mem_cons_of_mem _ hl', hc⟩

theorem flatten_map_singleton {α : Type} (l : List α) :
    (l.map (fun x => [x])).flatten = l := by
  induction l with
  | nil => rfl
  | cons x xs ih =>
    simp only [List.map_cons, List.flatten_cons, List.singleton_append]
    rw [ih]

theorem tokenize_joinToks_plain {ts : List Str} (h : ∀ t ∈ ts, PlainTok t) :
    tokenize (joinToks ts) = ts := by
  unfold joinToks
  rw [tokenize_intercalate ts (fun ch => [ch])
    (fun ch hch rest hrest => tokenize_plain_append (h ch hch) rest hrest)]
  exact flatten_map_singleton ts

theorem tokenize_inner_set {names : List Str} (h : ∀ t ∈ names, PlainTok t) (rest : Str) :
    tokenize (List.intercalate [' '] names ++ '}' :: rest) =
      names ++ ['}'] :: tokenize rest := by
  induction names with
  | nil =>
    rw [show List.intercalate [' '] ([] : List Str) = [] by simp [List.intercalate]]
    rw [List.nil_append, tokenize_close]
    rfl
  | cons nm names' ih =>
    cases names' with
    | nil =>
      rw [show List.intercalate [' '] [nm] = nm by simp [List.intercalate]]
      rw [tokenize_plain_append (h nm (List.mem_cons_self ..)) ('}' :: rest)
        (by show isTokChar '}' = false; decide)]
      rw [tokenize_close]
      rfl
    | cons nm2 more =>
      have hstep : List.intercalate [' '] (nm :: nm2 :: more) =
          nm ++ ' ' :: List.intercalate [' '] (nm2 :: more) := by
        unfold List.intercalate
        rw [List.intersperse_cons_cons]
        simp [List.flatten]
      rw [hstep, List.append_assoc, List.cons_append]
      rw [tokenize_plain_append (h nm (List.mem_cons_self ..))
        (' ' :: (List.intercalate [' '] (nm2 :: more) ++ '}' :: rest))
        (by show isTokChar ' ' = false; decide)]
      rw [tokenize_space]
      rw [ih (fun x hx => h x (List.mem_cons_of_mem _ hx))]
      rfl

theorem tokenize_braceGroup_append {names : List Str} (h : ∀ t ∈ names, PlainTok t)
    (rest : Str) :
    tokenize (braceGroup names ++ rest) = ['{'] :: (names ++ (['}'] :: tokenize rest)) := by
  unfold braceGroup
  rw [List.cons_append, List.append_assoc, List.cons_append]
  simp only [List.nil_append]
  rw [tokenize_open, tokenize_inner_set h rest]

theorem getD_mem_of_lt {α : Type} {l : List α} {i : Nat} (hi : i < l.length) (dflt : α) :
    l.getD i dflt ∈ l := by
  rw [List.getD_eq_getElem?_getD, List.getElem?_eq_getElem hi]
  exact List.getElem_mem _

theorem goodTok_not_arrow {t : Str} (h : GoodTok t) : ¬(t = ['→'] ∨ t = ['-', '>']) := by
  rintro (rfl | rfl)
  · exact h.2 (by decide)
  · exact h.2 (by decide)

theorem goodTok_not_star {t : Str} (h : GoodTok t) : t ≠ ['*'] := by
  rintro rfl
  exact h.2 (by decide)

theorem takeMarks_chunks (P : Prop) [Decidable P] (acc : Bool) (name : Str)
    (cells : List Str) (hn : GoodTok name) :
    takeMarks ((if P then [['→']] else []) ++
      ((if acc = true then [['*']] else []) ++ (name :: cells))) =
      (decide P, acc, name :: cells) := by
  have h1 := goodTok_not_arrow hn
  have h2 := goodTok_not_star hn
  by_cases hP : P
  · rw [if_pos hP, decide_eq_true hP]
    cases acc
    · rw [if_neg (by simp)]
      simp [takeMarks, h1, h2]
    · rw [if_pos rfl]
      simp [takeMarks]
  · rw [if_neg hP, decide_eq_false hP]
    cases acc
    · rw [if_neg (by simp)]
      simp [takeMarks, h1, h2]
    · rw [if_pos rfl]
      simp [takeMarks, h1, h2]

theorem map_getD_range_comp {α β : Type} (l : List α) (dflt : α) (g : α → β) :
    (List.range l.length).map (fun i => g (l.getD i dflt)) = l.map g := by
  conv_rhs => rw [← map_getD_range l dflt]
  rw [List.map_map]
  rfl

theorem mapM_some_map {α β γ : Type} (g : α → Option γ) (f : β → α) (h : β → γ)
    (l : List β) (hx : ∀ x ∈ l, g (f x) = some (h x)) :
    (l.map f).mapM g = some (l.map h) := by
  induction l with
  | nil => rfl
  | cons x xs ih =>
    simp only [List.map_cons]
    rw [List.mapM_cons, hx x (List.mem_cons_self ..),
      ih (fun y hy => hx y (List.mem_cons_of_mem _ hy))]
    rfl

theorem joinToks_no_newline {ts : List Str} (h : ∀ t ∈ ts, PlainTok t) :
    '\n' ∉ joinToks ts := by
  intro hmem
  rcases mem_intercalate_char hmem with he | ⟨t, ht, hc⟩
  · cases he
  · have := (h t ht).2 '\n' hc
    revert this
    decide

theorem parseDfaRow_chunks (d : Dfa) (i : Nat)
    (hn : GoodTok (d.states.getD i default).name) :
    parseDfaRow (dfaRowChunks d i) =
      some (decide (i = d.initialState), (d.states.getD i default).accepting,
        (d.states.getD i default).name,
        (d.states.getD i default).transitions.map
          (fun t => (d.states.getD t default).name)) := by
  unfold parseDfaRow dfaRowChunks
  simp only [List.append_assoc, List.singleton_append]
  rw [takeMarks_chunks _ _ _ _ hn]

/-- The DFA serializer/parser round-trip: parsing the emitted table
recovers the very same DFA. -/
theorem dfaParse_toTable (d : Dfa) (hv : d.Valid) : dfaParse d.toTable = some d := by
  obtain ⟨⟨hsne, hinitlt, hrows⟩, hane, hand, hagood, hnnd, hngood⟩ := hv
  have hstatemem : ∀ i, i < d.states.length → d.states.getD i default ∈ d.states :=
    fun i hi => getD_mem_of_lt hi default
  have hngood' : ∀ i, i < d.states.length → GoodTok (d.states.getD i default).name :=
    fun i hi => hngood _ (hstatemem i hi)
  have hplainchunk : ∀ i, i < d.states.length → ∀ ch ∈ dfaRowChunks d i, PlainTok ch := by
    intro i hi ch hch
    unfold dfaRowChunks at hch
    rcases List.mem_append.mp hch with h1 | h1
    · rcases List.mem_append.mp h1 with h2 | h2
      · rcases List.mem_append.mp h2 with h3 | h3
        · by_cases hP : i = d.initialState
          · rw [if_pos hP] at h3
            rcases List.mem_singleton.mp h3 with rfl
            exact ⟨by decide, by decide⟩
          · rw [if_neg hP] at h3
            cases h3
        · by_cases hacc : (d.states.getD i default).accepting = true
          · rw [if_pos hacc] at h3
            rcases List.mem_singleton.mp h3 with rfl
            exact ⟨by decide, by decide⟩
          · rw [if_neg hacc] at h3
            cases h3
      · rcases List.mem_singleton.mp h2 with rfl
        exact (hngood' i hi).1
    · obtain ⟨t, ht, rfl⟩ := List.mem_map.mp h1
      have htlt : t < d.states.length := (hrows _ (hstatemem i hi)).2 t ht
      exact (hngood' t htlt).1
  have hlineplain : ∀ i, i < d.states.length →
      tokenize (joinToks (dfaRowChunks d i)) = dfaRowChunks d i :=
    fun i hi => tokenize_joinToks_plain (hplainchunk i hi)
  have hsplit : splitOnChar '\n' d.toTable =
      joinToks d.alphabet ::
        (List.range d.states.length).map (fun i => joinToks (dfaRowChunks d i)) := by
    unfold Dfa.toTable
    apply splitOnChar_intercalate
    · intro h; cases h
    · intro l hl
      rcases List.mem_cons.mp hl with rfl | hl2
      · exact joinToks_no_newline (fun t ht => (hagood t ht).1)
      · obtain ⟨i, hi, rfl⟩ := List.mem_map.mp hl2
        exact joinToks_no_newline (hplainchunk i (List.mem_range.mp hi))
  have hparseLines : parseLines d.toTable =
      d.alphabet :: (List.range d.states.length).map (fun i => dfaRowChunks d i) := by
    unfold parseLines
    rw [hsplit]
    rw [List.map_cons, List.map_map]
    rw [tokenize_joinToks_plain (fun t ht => (hagood t ht).1)]
    have hmapped : List.map (tokenize ∘ fun i => joinToks (dfaRowChunks d i))
        (List.range d.states.length) =
        List.map (fun i => dfaRowChunks d i) (List.range d.states.length) :=
      List.map_congr_left (fun i hi => hlineplain i (List.mem_range.mp hi))
    rw [hmapped]
    apply List.filter_eq_self.mpr
    intro ts hts
    rcases List.mem_cons.mp hts with rfl | hts2
    · cases halph : d.alphabet with
      | nil => exact absurd halph hane
      | cons a as => rfl
    · obtain ⟨i, hi, rfl⟩ := List.mem_map.mp hts2
      have hnmem : (d.states.getD i default).name ∈ dfaRowChunks d i := by
        unfold dfaRowChunks
        exact List.mem_append.mpr (Or.inl (List.mem_append.mpr (Or.inr
          (List.mem_singleton.mpr rfl))))
      cases hch : dfaRowChunks d i with
      | nil => exact absurd (hch ▸ hnmem) (List.not_mem_nil _)
      | cons c cs => rfl
  unfold dfaParse
  rw [hparseLines, dfaParseLines]
  rw [if_neg (not_not_intro hand)]
  rw [if_neg (show ¬(['ε'] ∈ d.alphabet ∨ ['e', 'p', 's'] ∈ d.alphabet) from by
    rintro (h | h)
    · exact (hagood _ h).2 (by decide)
    · exact (hagood _ h).2 (by decide))]
  rw [mapM_some_map parseDfaRow (fun i => dfaRowChunks d i)
    (fun i => (decide (i = d.initialState), (d.states.getD i default).accepting,
      (d.states.getD i default).name,
      (d.states.getD i default).transitions.map (fun t => (d.states.getD t default).name)))
    (List.range d.states.length)
    (fun i hi => parseDfaRow_chunks d i (hngood' i (List.mem_range.mp hi)))]
  show dfaParseRows d.alphabet _ = some d
  set rowsList := (List.range d.states.length).map
    (fun i => (decide (i = d.initialState), (d.states.getD i default).accepting,
      (d.states.getD i default).name,
      (d.states.getD i default).transitions.map (fun t => (d.states.getD t default).name)))
    with hrowsList
  have hnames : rowNames rowsList = d.states.map (fun s => s.name) := by
    rw [hrowsList]
    unfold rowNames
    rw [List.map_map]
    exact map_getD_range_comp d.states default (fun s => s.name)
  unfold dfaParseRows
  rw [if_neg (not_not_intro (hnames ▸ hnnd))]
  rw [if_neg (show ¬(rowsList.countP (fun r => r.1) ≠ 1) from fun hne => hne (by
    rw [hrowsList, List.countP_map]
    exact countP_range_eq_one hinitlt))]
  rw [if_neg (show ¬¬(∀ r ∈ rowsList, r.2.2.2.length = d.alphabet.length ∧
      ∀ cell ∈ r.2.2.2, cell ∈ rowNames rowsList) from not_not_intro (by
    intro r hr
    rw [hrowsList] at hr
    obtain ⟨i, hi, rfl⟩ := List.mem_map.mp hr
    have hilt := List.mem_range.mp hi
    constructor
    · rw [List.length_map]
      exact (hrows _ (hstatemem i hilt)).1
    · intro cell hcell
      obtain ⟨t, ht, rfl⟩ := List.mem_map.mp hcell
      have htlt : t < d.states.length := (hrows _ (hstatemem i hilt)).2 t ht
      rw [hnames]
      exact List.mem_map.mpr ⟨_, hstatemem t htlt, rfl⟩))]
  have hstates : rowsList.map (fun r =>
      ({ name := r.2.2.1, accepting := r.2.1,
         transitions := r.2.2.2.map (fun cell => idxOf cell (rowNames rowsList)) } :
        DfaState)) = d.states := by
    apply List.ext_getElem
    · simp [hrowsList]
    · intro j h1 h2
      simp only [hrowsList, List.getElem_map, List.getElem_range]
      have hjlt : j < d.states.length := h2
      have hgetD : d.states.getD j default = d.states[j] := by
        rw [List.getD_eq_getElem?_getD, List.getElem?_eq_getElem hjlt]
        rfl
      have hcells : ((d.states.getD j default).transitions.map
          (fun t => (d.states.getD t default).name)).map
            (fun cell => idxOf cell (rowNames rowsList)) =
          (d.states.getD j default).transitions := by
        rw [List.map_map]
        have hpt : ∀ t ∈ (d.states.getD j default).transitions,
            ((fun cell => idxOf cell (rowNames rowsList)) ∘
              (fun t => (d.states.getD t default).name)) t = id t := by
          intro t ht
          have htlt : t < d.states.length := (hrows _ (hstatemem j hjlt)).2 t ht
          show idxOf (d.states.getD t default).name (rowNames rowsList) = t
          rw [hnames]
          have hb : t < (d.states.map (fun s => s.name)).length := by simpa using htlt
          have hname : (d.states.getD t default).name =
              (d.states.map (fun s => s.name)).get ⟨t, hb⟩ := by
            simp only [List.get_eq_getElem, List.getElem_map]
            rw [List.getD_eq_getElem?_getD, List.getElem?_eq_getElem htlt]
            rfl
          rw [hname]
          exact idxOf_getElem hnnd t hb
        rw [List.map_congr_left hpt, List.map_id]
      rw [hcells, hgetD]
  have hinitidx : rowsList.findIdx (fun r => r.1) = d.initialState := by
    rw [hrowsList]
    apply findIdx_spec _ _ d.initialState (by simpa using hinitlt)
    · simp
    · intro j hj hjl
      simp only [List.get_eq_getElem, List.getElem_map, List.getElem_range]
      exact decide_eq_false (by omega)
  rw [hstates, hinitidx]

theorem plainTok_ne_open {t : Str} (h : PlainTok t) : t ≠ ['{'] := by
  rintro rfl
  have := h.2 '{' (List.mem_cons_self ..)
  revert this
  decide

theorem plainTok_ne_close {t : Str} (h : PlainTok t) : t ≠ ['}'] := by
  rintro rfl
  have := h.2 '}' (List.mem_cons_self ..)
  revert this
  decide

theorem scanSet_names (ns : List Str) (h : ∀ t ∈ ns, PlainTok t) (rest : List Str) :
    scanSet (ns ++ ['}'] :: rest) = some (ns, rest) := by
  induction ns with
  | nil =>
    simp only [List.nil_append]
    rw [scanSet, if_pos rfl]
  | cons nm ns' ih =>
    simp only [List.cons_append]
    rw [scanSet]
    rw [if_neg (plainTok_ne_close (h nm (List.mem_cons_self ..)))]
    rw [if_neg (plainTok_ne_open (h nm (List.mem_cons_self ..)))]
    rw [ih (fun t ht => h t (List.mem_cons_of_mem _ ht))]

theorem parseSetCells_nil : parseSetCells [] = some [] := by
  rw [parseSetCells]

theorem parseSetCells_group (ns : List Str) (rest : List Str) (cs : List (List Str))
    (h : ∀ t ∈ ns, PlainTok t) (hrest : parseSetCells rest = some cs) :
    parseSetCells (['{'] :: (ns ++ ['}'] :: rest)) = some (ns :: cs) := by
  rw [parseSetCells]
  rw [if_pos rfl]
  split
  · next heq =>
    rw [scanSet_names ns h rest] at heq
    cases heq
  · next names rem heq =>
    rw [scanSet_names ns h rest] at heq
    obtain ⟨h1, h2⟩ := Prod.mk.injEq .. ▸ Option.some.inj heq
    subst h1
    subst h2
    rw [hrest]

theorem parseSetCells_flat (groups : List (List Str))
    (h : ∀ g ∈ groups, ∀ t ∈ g, PlainTok t) :
    parseSetCells ((groups.map (fun g => ['{'] :: (g ++ [['}']]))).flatten) =
      some groups := by
  induction groups with
  | nil => exact parseSetCells_nil
  | cons g gs ih =>
    simp only [List.map_cons, List.flatten_cons]
    have hsh : (['{'] :: (g ++ [['}']])) ++
        (gs.map (fun g => ['{'] :: (g ++ [['}']]))).flatten =
        ['{'] :: (g ++ ['}'] ::
          (gs.map (fun g => ['{'] :: (g ++ [['}']]))).flatten) := by
      simp
    rw [hsh]
    exact parseSetCells_group g _ gs (h g (List.mem_cons_self ..))
      (ih (fun g' hg' => h g' (List.mem_cons_of_mem _ hg')))

theorem tokenize_nil_eq : tokenize [] = [] := by rw [tokenize]

theorem tokenize_plain_tok {t : Str} (h : PlainTok t) : tokenize t = [t] := by
  have := tokenize_plain_append h [] trivial
  rw [List.append_nil, tokenize_nil_eq] at this
  exact this

theorem tokenize_braceGroup_tok {g : List Str} (h : ∀ t ∈ g, PlainTok t) :
    tokenize (braceGroup g) = ['{'] :: (g ++ [['}']]) := by
  have := tokenize_braceGroup_append h []
  rw [List.append_nil, tokenize_nil_eq] at this
  simpa using this

theorem tokenize_chunk_append {ch : Str}
    (hch : PlainTok ch ∨ ∃ g, (∀ t ∈ g, PlainTok t) ∧ ch = braceGroup g)
    (rest : Str) (hrest : TokBreak rest) :
    tokenize (ch ++ rest) = tokenize ch ++ tokenize rest := by
  rcases hch with hp | ⟨g, hg, rfl⟩
  · rw [tokenize_plain_append hp rest hrest, tokenize_plain_tok hp]
    rfl
  · rw [tokenize_braceGroup_append hg rest, tokenize_braceGroup_tok hg]
    simp

/-- The NFA serializer/parser round-trip: parsing the emitted table
recovers the very same NFA, including the order of targets inside each
transition set. -/
theorem nfaParse_toTable (n : Nfa) (hv : n.Valid) : nfaParse n.toTable = some n := by
  obtain ⟨⟨hsne, hinitlt, hrows⟩, hand, hagood, hnnd, hngood⟩ := hv
  have hstatemem : ∀ i, i < n.states.length → n.stateAt i ∈ n.states :=
    fun i hi => Nfa.stateAt_mem hi
  have hngood' : ∀ i, i < n.states.length → GoodTok (n.stateAt i).name :=
    fun i hi => hngood _ (hstatemem i hi)
  have hepsg : ∀ i, i < n.states.length →
      ∀ t ∈ (n.stateAt i).epsilonTransitions.map (fun t => (n.stateAt t).name), PlainTok t := by
    intro i hi t ht
    obtain ⟨q, hq, rfl⟩ := List.mem_map.mp ht
    have hqlt : q < n.states.length := (hrows _ (hstatemem i hi)).2.2 q hq
    exact (hngood' q hqlt).1
  have hcellg : ∀ i, i < n.states.length → ∀ ts ∈ (n.stateAt i).transitions,
      ∀ t ∈ ts.map (fun t => (n.stateAt t).name), PlainTok t := by
    intro i hi ts hts t ht
    obtain ⟨q, hq, rfl⟩ := List.mem_map.mp ht
    have hqlt : q < n.states.length := (hrows _ (hstatemem i hi)).2.1 ts hts q hq
    exact (hngood' q hqlt).1
  have hchunks : ∀ i, i < n.states.length → ∀ ch ∈ nfaRowChunks n i,
      PlainTok ch ∨ ∃ g, (∀ t ∈ g, PlainTok t) ∧ ch = braceGroup g := by
    intro i hi ch hch
    unfold nfaRowChunks at hch
    rcases List.mem_append.mp hch with h1 | h1
    · rcases List.mem_append.mp h1 with h2 | h2
      · rcases List.mem_append.mp h2 with h3 | h3
        · rcases List.mem_append.mp h3 with h4 | h4
          · by_cases hP : i = n.initialState
            · rw [if_pos hP] at h4
              rcases List.mem_singleton.mp h4 with rfl
              exact Or.inl ⟨by decide, by decide⟩
            · rw [if_neg hP] at h4
              cases h4
          · by_cases hacc : (n.stateAt i).accepting = true
            · rw [if_pos hacc] at h4
              rcases List.mem_singleton.mp h4 with rfl
              exact Or.inl ⟨by decide, by decide⟩
            · rw [if_neg hacc] at h4
              cases h4
        · rcases List.mem_singleton.mp h3 with rfl
          exact Or.inl (hngood' i hi).1
      · rcases List.mem_singleton.mp h2 with rfl
        exact Or.inr ⟨_, hepsg i hi, rfl⟩
    · obtain ⟨ts, hts, rfl⟩ := List.mem_map.mp h1
      exact Or.inr ⟨_, hcellg i hi ts hts, rfl⟩
  have hnoNl : ∀ i, i < n.states.length → '\n' ∉ joinToks (nfaRowChunks n i) := by
    intro i hi hmem
    rcases mem_intercalate_char hmem with he | ⟨ch, hch, hc⟩
    · cases he
    · rcases hchunks i hi ch hch with hp | ⟨g, hg, rfl⟩
      · have := hp.2 '\n' hc
        revert this
        decide
      · unfold braceGroup at hc
        rcases List.mem_cons.mp hc with he | hc2
        · cases he
        · rcases List.mem_append.mp hc2 with hc3 | hc3
          · rcases mem_intercalate_char hc3 with he | ⟨t, ht, hct⟩
            · cases he
            · have := (hg t ht).2 '\n' hct
              revert this
              decide
          · exact absurd (List.mem_singleton.mp hc3) (by decide)
  have hrowtok : ∀ i, i < n.states.length →
      tokenize (joinToks (nfaRowChunks n i)) =
        (if i = n.initialState then [['→']] else []) ++
        (if (n.stateAt i).accepting = true then [['*']] else []) ++
        [(n.stateAt i).name] ++
        ((((n.stateAt i).epsilonTransitions.map (fun t => (n.stateAt t).name)) ::
          (n.stateAt i).transitions.map (fun ts => ts.map (fun t => (n.stateAt t).name))).map
            (fun g => ['{'] :: (g ++ [['}']]))).flatten := by
    intro i hi
    rw [show joinToks (nfaRowChunks n i) = List.intercalate [' '] (nfaRowChunks n i) from rfl]
    rw [tokenize_intercalate (nfaRowChunks n i) tokenize
      (fun ch hch rest hrest => tokenize_chunk_append (hchunks i hi ch hch) rest hrest)]
    unfold nfaRowChunks
    simp only [List.map_append, List.map_cons, List.map_nil, List.flatten_append,
      List.flatten_cons, List.flatten_nil, List.append_nil]
    rw [tokenize_plain_tok (hngood' i hi).1]
    rw [tokenize_braceGroup_tok (hepsg i hi)]
    have hcellmap : ((n.stateAt i).transitions.map
        (fun ts => braceGroup (ts.map (fun t => (n.stateAt t).name)))).map tokenize =
        (n.stateAt i).transitions.map
          (fun ts => ['{'] :: (ts.map (fun t => (n.stateAt t).name) ++ [['}']])) := by
      rw [List.map_map]
      apply List.map_congr_left
      intro ts hts
      exact tokenize_braceGroup_tok (hcellg i hi ts hts)
    rw [hcellmap]
    by_cases hP : i = n.initialState
    · rw [if_pos hP]
      by_cases hacc : (n.stateAt i).accepting = true
      · rw [if_pos hacc]
        simp [tokenize_plain_tok (show PlainTok ['→'] from ⟨by decide, by decide⟩),
          tokenize_plain_tok (show PlainTok ['*'] from ⟨by decide, by decide⟩),
          Function.comp_def]
      · rw [if_neg hacc]
        simp [tokenize_plain_tok (show PlainTok ['→'] from ⟨by decide, by decide⟩),
          Function.comp_def]
    · rw [if_neg hP]
      by_cases hacc : (n.stateAt i).accepting = true
      · rw [if_pos hacc]
        simp [tokenize_plain_tok (show PlainTok ['*'] from ⟨by decide, by decide⟩),
          Function.comp_def]
      · rw [if_neg hacc]
        simp [Function.comp_def]
  have hparserow : ∀ i, i < n.states.length →
      parseNfaRow (tokenize (joinToks (nfaRowChunks n i))) =
        some (decide (i = n.initialState), (n.stateAt i).accepting, (n.stateAt i).name,
          ((n.stateAt i).epsilonTransitions.map (fun t => (n.stateAt t).name)) ::
            (n.stateAt i).transitions.map (fun ts => ts.map (fun t => (n.stateAt t).name))) := by
    intro i hi
    rw [hrowtok i hi]
    unfold parseNfaRow
    simp only [List.append_assoc, List.singleton_append]
    rw [takeMarks_chunks _ _ _ _ (hngood' i hi)]
    have hcells := parseSetCells_flat
      ((((n.stateAt i).epsilonTransitions.map (fun t => (n.stateAt t).name)) ::
        (n.stateAt i).transitions.map (fun ts => ts.map (fun t => (n.stateAt t).name))))
      (by
        intro g hg t ht
        rcases List.mem_cons.mp hg with rfl | hg2
        · exact hepsg i hi t ht
        · obtain ⟨ts, hts, rfl⟩ := List.mem_map.mp hg2
          exact hcellg i hi ts hts t ht)
    dsimp only
    rw [hcells]
  have hsplit : splitOnChar '\n' n.toTable =
      joinToks (['ε'] :: n.alphabet) ::
        (List.range n.states.length).map (fun i => joinToks (nfaRowChunks n i)) := by
    unfold Nfa.toTable
    apply splitOnChar_intercalate
    · intro h; cases h
    · intro l hl
      rcases List.mem_cons.mp hl with rfl | hl2
      · apply joinToks_no_newline
        intro t ht
        rcases List.mem_cons.mp ht with rfl | ht2
        · exact ⟨by decide, by decide⟩
        · exact (hagood t ht2).1
      · obtain ⟨i, hi, rfl⟩ := List.mem_map.mp hl2
        exact hnoNl i (List.mem_range.mp hi)
  have hheadtok : tokenize (joinToks (['ε'] :: n.alphabet)) = ['ε'] :: n.alphabet := by
    apply tokenize_joinToks_plain
    intro t ht
    rcases List.mem_cons.mp ht with rfl | ht2
    · exact ⟨by decide, by decide⟩
    · exact (hagood t ht2).1
  have hparseLines : parseLines n.toTable =
      (['ε'] :: n.alphabet) ::
        (List.range n.states.length).map (fun i => tokenize (joinToks (nfaRowChunks n i))) := by
    unfold parseLines
    rw [hsplit]
    rw [List.map_cons, List.map_map]
    rw [hheadtok]
    apply List.filter_eq_self.mpr
    intro ts hts
    rcases List.mem_cons.mp hts with rfl | hts2
    · rfl
    · obtain ⟨i, hi, rfl⟩ := List.mem_map.mp hts2
      have hilt := List.mem_range.mp hi
      rw [show (tokenize ∘ fun i => joinToks (nfaRowChunks n i)) i =
        tokenize (joinToks (nfaRowChunks n i)) from rfl]
      rw [hrowtok i hilt]
      have hnmem : (n.stateAt i).name ∈
          (if i = n.initialState then [['→']] else []) ++
          (if (n.stateAt i).accepting = true then [['*']] else []) ++
          [(n.stateAt i).name] ++
          ((((n.stateAt i).epsilonTransitions.map (fun t => (n.stateAt t).name)) ::
            (n.stateAt i).transitions.map (fun ts => ts.map (fun t => (n.stateAt t).name))).map
              (fun g => ['{'] :: (g ++ [['}']]))).flatten :=
        List.mem_append.mpr (Or.inl (List.mem_append.mpr (Or.inr
          (List.mem_singleton.mpr rfl))))
      cases hch : (if i = n.initialState then [['→']] else []) ++
          (if (n.stateAt i).accepting = true then [['*']] else []) ++
          [(n.stateAt i).name] ++
          ((((n.stateAt i).epsilonTransitions.map (fun t => (n.stateAt t).name)) ::
            (n.stateAt i).transitions.map (fun ts => ts.map (fun t => (n.stateAt t).name))).map
              (fun g => ['{'] :: (g ++ [['}']]))).flatten with
      | nil => exact absurd (hch ▸ hnmem) (List.not_mem_nil _)
      | cons c cs => rfl
  unfold nfaParse
  rw [hparseLines, nfaParseLines]
  have hepsnotin : (['ε'] : Str) ∉ n.alphabet := fun hmem => (hagood _ hmem).2 (by decide)
  have hepsnotin2 : (['e', 'p', 's'] : Str) ∉ n.alphabet :=
    fun hmem => (hagood _ hmem).2 (by decide)
  rw [if_neg (not_not_intro (List.nodup_cons.mpr ⟨hepsnotin, hand⟩))]
  rw [if_neg (show ¬(['ε'] ∈ (['ε'] :: n.alphabet) ∧ ['e', 'p', 's'] ∈ (['ε'] :: n.alphabet)) from by
    rintro ⟨-, h2⟩
    rcases List.mem_cons.mp h2 with he | h3
    · cases he
    · exact hepsnotin2 h3)]
  rw [mapM_some_map parseNfaRow (fun i => tokenize (joinToks (nfaRowChunks n i)))
    (fun i => (decide (i = n.initialState), (n.stateAt i).accepting, (n.stateAt i).name,
      ((n.stateAt i).epsilonTransitions.map (fun t => (n.stateAt t).name)) ::
        (n.stateAt i).transitions.map (fun ts => ts.map (fun t => (n.stateAt t).name))))
    (List.range n.states.length)
    (fun i hi => hparserow i (List.mem_range.mp hi))]
  show nfaParseRows (['ε'] :: n.alphabet) _ = some n
  set rowsList := (List.range n.states.length).map
    (fun i => (decide (i = n.initialState), (n.stateAt i).accepting, (n.stateAt i).name,
      ((n.stateAt i).epsilonTransitions.map (fun t => (n.stateAt t).name)) ::
        (n.stateAt i).transitions.map (fun ts => ts.map (fun t => (n.stateAt t).name))))
    with hrowsList
  have hnames : rowNames rowsList = n.states.map (fun s => s.name) := by
    rw [hrowsList]
    unfold rowNames
    rw [List.map_map]
    exact map_getD_range_comp n.states default (fun s => s.name)
  unfold nfaParseRows
  rw [if_neg (not_not_intro (hnames ▸ hnnd))]
  rw [if_neg (show ¬(rowsList.countP (fun r => r.1) ≠ 1) from fun hne => hne (by
    rw [hrowsList, List.countP_map]
    exact countP_range_eq_one hinitlt))]
  rw [if_neg (show ¬¬(∀ r ∈ rowsList, r.2.2.2.length = (['ε'] :: n.alphabet).length ∧
      ∀ cell ∈ r.2.2.2, ∀ nm ∈ cell, nm ∈ rowNames rowsList) from not_not_intro (by
    intro r hr
    rw [hrowsList] at hr
    obtain ⟨i, hi, rfl⟩ := List.mem_map.mp hr
    have hilt := List.mem_range.mp hi
    constructor
    · simp only [List.length_cons, List.length_map]
      rw [(hrows _ (hstatemem i hilt)).1]
    · intro cell hcell nm hnm
      rw [hnames]
      rcases List.mem_cons.mp hcell with rfl | hcell2
      · obtain ⟨q, hq, rfl⟩ := List.mem_map.mp hnm
        have hqlt : q < n.states.length := (hrows _ (hstatemem i hilt)).2.2 q hq
        exact List.mem_map.mpr ⟨_, hstatemem q hqlt, rfl⟩
      · obtain ⟨ts, hts, rfl⟩ := List.mem_map.mp hcell2
        obtain ⟨q, hq, rfl⟩ := List.mem_map.mp hnm
        have hqlt : q < n.states.length := (hrows _ (hstatemem i hilt)).2.1 ts hts q hq
        exact List.mem_map.mpr ⟨_, hstatemem q hqlt, rfl⟩))]
  have hepsIdx : epsIdxOf (['ε'] :: n.alphabet) = some 0 := by
    unfold epsIdxOf
    rw [if_pos (List.mem_cons_self ..)]
    congr 1
  have hidxname : ∀ q, q < n.states.length →
      idxOf (n.stateAt q).name (rowNames rowsList) = q := by
    intro q hqlt
    rw [hnames]
    have hb : q < (n.states.map (fun s => s.name)).length := by simpa using hqlt
    have hname : (n.stateAt q).name = (n.states.map (fun s => s.name)).get ⟨q, hb⟩ := by
      simp only [List.get_eq_getElem, List.getElem_map]
      unfold Nfa.stateAt
      rw [List.getD_eq_getElem?_getD, List.getElem?_eq_getElem hqlt]
      rfl
    rw [hname]
    exact idxOf_getElem hnnd q hb
  have hstates : rowsList.map (fun r =>
      ({ name := r.2.2.1, accepting := r.2.1,
         epsilonTransitions :=
           (r.2.2.2.getD 0 []).map (fun nm => idxOf nm (rowNames rowsList))
         transitions :=
           (r.2.2.2.eraseIdx 0).map
             (fun cell => cell.map (fun nm => idxOf nm (rowNames rowsList))) } :
        NfaState)) = n.states := by
    apply List.ext_getElem
    · simp [hrowsList]
    · intro j h1 h2
      simp only [hrowsList, List.getElem_map, List.getElem_range]
      have hjlt : j < n.states.length := h2
      have hgetD : n.stateAt j = n.states[j] := by
        unfold Nfa.stateAt
        rw [List.getD_eq_getElem?_getD, List.getElem?_eq_getElem hjlt]
        rfl
      have hepsmap : ((n.stateAt j).epsilonTransitions.map
          (fun t => (n.stateAt t).name)).map (fun nm => idxOf nm (rowNames rowsList)) =
          (n.stateAt j).epsilonTransitions := by
        rw [List.map_map]
        have hpt : ∀ t ∈ (n.stateAt j).epsilonTransitions,
            ((fun nm => idxOf nm (rowNames rowsList)) ∘ (fun t => (n.stateAt t).name)) t =
              id t := by
          intro t ht
          exact hidxname t ((hrows _ (hstatemem j hjlt)).2.2 t ht)
        rw [List.map_congr_left hpt, List.map_id]
      have hcellmap : ((n.stateAt j).transitions.map
          (fun ts => ts.map (fun t => (n.stateAt t).name))).map
            (fun cell => cell.map (fun nm => idxOf nm (rowNames rowsList))) =
          (n.stateAt j).transitions := by
        rw [List.map_map]
        have hpt : ∀ ts ∈ (n.stateAt j).transitions,
            ((fun cell => cell.map (fun nm => idxOf nm (rowNames rowsList))) ∘
              (fun ts => ts.map (fun t => (n.stateAt t).name))) ts = id ts := by
          intro ts hts
          show (ts.map (fun t => (n.stateAt t).name)).map
            (fun nm => idxOf nm (rowNames rowsList)) = ts
          rw [List.map_map]
          have hq : ∀ t ∈ ts,
              ((fun nm => idxOf nm (rowNames rowsList)) ∘ (fun t => (n.stateAt t).name)) t =
                id t := by
            intro t ht
            exact hidxname t ((hrows _ (hstatemem j hjlt)).2.1 ts hts t ht)
          rw [List.map_congr_left hq, List.map_id]
        rw [List.map_congr_left hpt, List.map_id]
      rw [show ((((n.stateAt j).epsilonTransitions.map (fun t => (n.stateAt t).name)) ::
          (n.stateAt j).transitions.map (fun ts => ts.map (fun t => (n.stateAt t).name))).getD 0
            []) = (n.stateAt j).epsilonTransitions.map (fun t => (n.stateAt t).name) from rfl]
      rw [show ((((n.stateAt j).epsilonTransitions.map (fun t => (n.stateAt t).name)) ::
          (n.stateAt j).transitions.map (fun ts => ts.map (fun t => (n.stateAt t).name))).eraseIdx
            0) = (n.stateAt j).transitions.map (fun ts => ts.map (fun t => (n.stateAt t).name))
          from rfl]
      rw [hepsmap, hcellmap, hgetD]
  have hinitidx : rowsList.findIdx (fun r => r.1) = n.initialState := by
    rw [hrowsList]
    apply findIdx_spec _ _ n.initialState (by simpa using hinitlt)
    · simp
    · intro j hj hjl
      simp only [List.get_eq_getElem, List.getElem_map, List.getElem_range]
      exact decide_eq_false (by omega)
  have halph : (['ε'] :: n.alphabet).filter
      (fun a => decide (a ≠ ['ε'] ∧ a ≠ ['e', 'p', 's'])) = n.alphabet := by
    rw [List.filter_cons_of_neg (by simp)]
    apply List.filter_eq_self.mpr
    intro a ha
    have hg := hagood a ha
    simp only [decide_eq_true_eq]
    exact ⟨fun he => hg.2 (he ▸ (by decide : (['ε'] : Str) ∈ reservedToks)),
      fun he => hg.2 (he ▸ (by decide : (['e', 'p', 's'] : Str) ∈ reservedToks))⟩
  simp only [hepsIdx]
  rw [hstates, hinitidx, halph]

/-- C1: For every valid DFA and every valid NFA, writing the automaton as
a table with the table writer and parsing that table back yields exactly
the original automaton — same alphabet order, same state order, same
names, markers, and transition entries, and for an NFA the same order of
targets inside every transition set. -/
theorem claim_C1_table_roundtrip :
    (∀ d : Dfa, d.Valid → dfaParse d.toTable = some d) ∧
    (∀ n : Nfa, n.Valid → nfaParse n.toTable = some n) :=
  ⟨fun d hv => dfaParse_toTable d hv, fun n hv => nfaParse_toTable n hv⟩

/-- Witness for C1 at the concrete one-state DFA `sampleA` and the
concrete two-state ε-NFA `sampleN`. -/
theorem claim_C1_table_roundtrip_witness :
    dfaParse sampleA.toTable = some sampleA ∧ nfaParse sampleN.toTable = some sampleN :=
  ⟨claim_C1_table_roundtrip.1 sampleA (by decide),
   claim_C1_table_roundtrip.2 sampleN (by decide)⟩

/-! ## DFA equivalence via product-pair reachability (spec §4.3)

A pair of state indices `(i, j)` of two DFAs is encoded row-major as
`i * nB + j`.  The reachable pairs of the product are computed with the
same worklist closure as the ε-closure; the two automata accept the same
language iff every reachable pair agrees on acceptance. -/

/-- One product step on an encoded state pair. -/
def pairStep (A B : Dfa) (k x : Nat) : Nat :=
  A.stepIdx (k / B.states.length) x * B.states.length + B.stepIdx (k % B.states.length) x

/-- All one-symbol successors of an encoded state pair. -/
def pairSuccs (A B : Dfa) (k : Nat) : Finset Nat :=
  ((List.range A.alphabet.length).map (pairStep A B k)).toFinset

/-- The reachable encoded pairs of the product of `A` and `B`. -/
def reachPairs (A B : Dfa) : Finset Nat :=
  closure (pairSuccs A B) (A.states.length * B.states.length)
    {A.initialState * B.states.length + B.initialState}

/-- Whether every reachable product pair agrees on acceptance. -/
def pairAgree (A B : Dfa) : Bool :=
  decide (∀ k ∈ reachPairs A B,
    A.accIdx (k / B.states.length) = B.accIdx (k % B.states.length))

/-- Run the product from an encoded pair over a list of symbol positions. -/
def pairRun (A B : Dfa) (k : Nat) (xs : List Nat) : Nat :=
  xs.foldl (pairStep A B) k

theorem Dfa.stepIdx_oob {d : Dfa} {q : Nat} (hq : ¬q < d.states.length) (x : Nat) :
    d.stepIdx q x = 0 := by
  have hdef : d.states.getD q default = default := by
    rw [List.getD_eq_getElem?_getD, List.getElem?_eq_none (by omega)]
    rfl
  unfold Dfa.stepIdx
  rw [hdef]
  rfl

theorem pairStep_lt {A B : Dfa} (hA : A.WF) (hB : B.WF) (k x : Nat) :
    pairStep A B k x < A.states.length * B.states.length := by
  have hnA : 0 < A.states.length := List.length_pos.mpr hA.1
  have hnB : 0 < B.states.length := List.length_pos.mpr hB.1
  have hjB : k % B.states.length < B.states.length := Nat.mod_lt _ hnB
  have hsB : B.stepIdx (k % B.states.length) x < B.states.length := Dfa.stepIdx_lt hB hjB x
  unfold pairStep
  by_cases hi : k / B.states.length < A.states.length
  · exact pair_encode_lt (Dfa.stepIdx_lt hA hi x) hsB
  · rw [Dfa.stepIdx_oob hi x]
    calc 0 * B.states.length + B.stepIdx (k % B.states.length) x
        < 1 * B.states.length := by omega
      _ ≤ A.states.length * B.states.length := Nat.mul_le_mul_right _ hnA

theorem pairSuccs_subset_range {A B : Dfa} (hA : A.WF) (hB : B.WF) (k : Nat) :
    pairSuccs A B k ⊆ Finset.range (A.states.length * B.states.length) := by
  intro p hp
  rw [pairSuccs, List.mem_toFinset] at hp
  obtain ⟨x, hx, rfl⟩ := List.mem_map.mp hp
  exact Finset.mem_range.mpr (pairStep_lt hA hB k x)

theorem rtg_pairSuccs_iff {A B : Dfa} {s k : Nat} :
    Relation.ReflTransGen (fun a b => b ∈ pairSuccs A B a) s k ↔
      ∃ xs : List Nat, (∀ x ∈ xs, x < A.alphabet.length) ∧ pairRun A B s xs = k := by
  constructor
  · intro h
    induction h with
    | refl => exact ⟨[], fun x hx => absurd hx (List.not_mem_nil x), rfl⟩
    | tail hab hbc ih =>
      obtain ⟨xs, hbd, hfold⟩ := ih
      rw [pairSuccs, List.mem_toFinset] at hbc
      obtain ⟨x, hx, hstep⟩ := List.mem_map.mp hbc
      refine ⟨xs ++ [x], ?_, ?_⟩
      · intro y hy
        rcases List.mem_append.mp hy with h1 | h1
        · exact hbd y h1
        · rcases List.mem_singleton.mp h1 with rfl
          exact List.mem_range.mp hx
      · rw [pairRun, List.foldl_append]
        rw [show xs.foldl (pairStep A B) s = pairRun A B s xs from rfl, hfold]
        exact hstep
  · rintro ⟨xs, hbd, rfl⟩
    induction xs generalizing s with
    | nil => exact .refl
    | cons x xs ih =>
      have hstep : pairStep A B s x ∈ pairSuccs A B s := by
        rw [pairSuccs, List.mem_toFinset]
        exact List.mem_map.mpr ⟨x, List.mem_range.mpr (hbd x (List.mem_cons_self ..)), rfl⟩
      have h1 : Relation.ReflTransGen (fun a b => b ∈ pairSuccs A B a) s (pairStep A B s x) :=
        .single hstep
      exact h1.trans (ih (fun y hy => hbd y (List.mem_cons_of_mem _ hy)))

theorem pairRun_decode {A B : Dfa} (hA : A.WF) (hB : B.WF) :
    ∀ (xs : List Nat) {i j : Nat}, i < A.states.length → j < B.states.length →
      pairRun A B (i * B.states.length + j) xs =
        A.runIdx i xs * B.states.length + B.runIdx j xs := by
  intro xs
  induction xs with
  | nil => intro i j hi hj; rfl
  | cons x xs ih =>
    intro i j hi hj
    have hstep : pairStep A B (i * B.states.length + j) x =
        A.stepIdx i x * B.states.length + B.stepIdx j x := by
      unfold pairStep
      rw [pair_encode_div hj, pair_encode_mod hj]
    show pairRun A B (pairStep A B (i * B.states.length + j) x) xs = _
    rw [hstep, ih (Dfa.stepIdx_lt hA hi x) (Dfa.stepIdx_lt hB hj x)]
    rfl

theorem mem_reachPairs_iff {A B : Dfa} (hA : A.WF) (hB : B.WF) (k : Nat) :
    k ∈ reachPairs A B ↔ ∃ xs : List Nat, (∀ x ∈ xs, x < A.alphabet.length) ∧
      A.runIdx A.initialState xs * B.states.length + B.runIdx B.initialState xs = k := by
  have hS : ({A.initialState * B.states.length + B.initialState} : Finset Nat) ⊆
      Finset.range (A.states.length * B.states.length) := by
    intro p hp
    rw [Finset.mem_singleton] at hp
    subst hp
    exact Finset.mem_range.mpr (pair_encode_lt hA.2.1 hB.2.1)
  rw [reachPairs, mem_closure_iff (fun q => pairSuccs_subset_range hA hB q) hS k]
  constructor
  · rintro ⟨s, hs, hrtg⟩
    rw [Finset.mem_singleton] at hs
    subst hs
    obtain ⟨xs, hbd, hfold⟩ := rtg_pairSuccs_iff.mp hrtg
    refine ⟨xs, hbd, ?_⟩
    rw [← pairRun_decode hA hB xs hA.2.1 hB.2.1]
    exact hfold
  · rintro ⟨xs, hbd, hk⟩
    refine ⟨_, Finset.mem_singleton_self _, rtg_pairSuccs_iff.mpr ⟨xs, hbd, ?_⟩⟩
    rw [pairRun_decode hA hB xs hA.2.1 hB.2.1]
    exact hk

theorem pairAgree_iff {A B : Dfa} (hA : A.WF) (hB : B.WF)
    (hab : A.alphabet = B.alphabet) (hnd : A.alphabet.Nodup) :
    pairAgree A B = true ↔ ∀ w : List Str, A.accepts w = B.accepts w := by
  rw [pairAgree, decide_eq_true_iff]
  constructor
  · intro hag w
    by_cases htok : ∀ tok ∈ w, tok ∈ A.alphabet
    · have htokB : ∀ tok ∈ w, tok ∈ B.alphabet := fun tok ht => hab ▸ htok tok ht
      rw [Dfa.accepts, if_pos htok, Dfa.accepts, if_pos htokB]
      have hxs : w.map (fun tok => idxOf tok B.alphabet) =
          w.map (fun tok => idxOf tok A.alphabet) := by rw [hab]
      rw [hxs]
      have hbd : ∀ x ∈ w.map (fun tok => idxOf tok A.alphabet), x < A.alphabet.length := by
        intro x hx
        obtain ⟨tok, htokm, rfl⟩ := List.mem_map.mp hx
        exact idxOf_lt_length (htok tok htokm)
      have hk := hag _ ((mem_reachPairs_iff hA hB _).mpr ⟨_, hbd, rfl⟩)
      rw [pair_encode_div (Dfa.runIdx_lt hB hB.2.1 _),
        pair_encode_mod (Dfa.runIdx_lt hB hB.2.1 _)] at hk
      exact hk
    · have htokB : ¬∀ tok ∈ w, tok ∈ B.alphabet := by
        rw [← hab]
        exact htok
      rw [Dfa.accepts, if_neg htok, Dfa.accepts, if_neg htokB]
  · intro hlang k hk
    obtain ⟨xs, hbd, rfl⟩ := (mem_reachPairs_iff hA hB k).mp hk
    rw [pair_encode_div (Dfa.runIdx_lt hB hB.2.1 _),
      pair_encode_mod (Dfa.runIdx_lt hB hB.2.1 _)]
    have htok : ∀ tok ∈ xs.map (fun x => A.alphabet.getD x []), tok ∈ A.alphabet := by
      intro tok htokm
      obtain ⟨x, hx, rfl⟩ := List.mem_map.mp htokm
      exact getD_mem_of_lt (hbd x hx) []
    have hback : (xs.map (fun x => A.alphabet.getD x [])).map
        (fun tok => idxOf tok A.alphabet) = xs := by
      rw [List.map_map]
      have hcg : ∀ x ∈ xs, ((fun tok => idxOf tok A.alphabet) ∘
          (fun x => A.alphabet.getD x [])) x = id x := by
        intro x hx
        have hxl := hbd x hx
        show idxOf (A.alphabet.getD x []) A.alphabet = x
        rw [List.getD_eq_getElem?_getD, List.getElem?_eq_getElem hxl]
        exact idxOf_getElem hnd x hxl
      rw [List.map_congr_left hcg, List.map_id]
    have hw := hlang (xs.map (fun x => A.alphabet.getD x []))
    have htokB : ∀ tok ∈ xs.map (fun x => A.alphabet.getD x []), tok ∈ B.alphabet :=
      fun tok ht => hab ▸ htok tok ht
    rw [Dfa.accepts, if_pos htok, Dfa.accepts, if_pos htokB] at hw
    rw [show (xs.map (fun x => A.alphabet.getD x [])).map
        (fun tok => idxOf tok B.alphabet) =
      (xs.map (fun x => A.alphabet.getD x [])).map
        (fun tok => idxOf tok A.alphabet) from by rw [hab]] at hw
    rw [hback] at hw
    exact hw

/-! ## Lifting a DFA to a larger alphabet (spec §4.3, §7)

Equivalence across differing alphabets lifts both DFAs onto the union
alphabet: symbols outside the original alphabet route to a fresh dead
(non-accepting, absorbing) state appended after the original states. -/

/-- Modelled from the spec: lift a DFA to alphabet `U`, routing symbols
outside the original alphabet to a dead state (§4.3, §7). -/
def Dfa.lift (d : Dfa) (U : List Str) : Dfa :=
  let dead := d.states.length
  { alphabet := U
    states := d.states.map (fun s =>
        { name := s.name, accepting := s.accepting,
          transitions := U.map (fun u =>
            if u ∈ d.alphabet then s.transitions.getD (idxOf u d.alphabet) 0 else dead) }) ++
      [{ name := [], accepting := false, transitions := U.map (fun _ => dead) }]
    initialState := d.initialState }

/-- Modelled from the spec: the union of two DFA alphabets, the first
one's symbols first, in order (§4.3). -/
def unionAlphabet (A B : Dfa) : List Str :=
  A.alphabet ++ B.alphabet.filter (fun b => decide (b ∉ A.alphabet))

/-- Modelled from the spec: total DFA equivalence (§4.3, §7).  Both DFAs
are lifted to the union alphabet with a dead state, then language
equality is decided by product-pair reachability.  The result is always
a Boolean; no error is possible. -/
def Dfa.equivalentTo (A B : Dfa) : Bool :=
  pairAgree (A.lift (unionAlphabet A B)) (B.lift (unionAlphabet A B))

theorem Dfa.lift_alphabet (d : Dfa) (U : List Str) : (d.lift U).alphabet = U := rfl

theorem Dfa.lift_initialState (d : Dfa) (U : List Str) :
    (d.lift U).initialState = d.initialState := rfl

theorem Dfa.lift_states_length (d : Dfa) (U : List Str) :
    (d.lift U).states.length = d.states.length + 1 := by
  simp [Dfa.lift]

theorem getD_map_of_lt {α β : Type} (f : α → β) (l : List α) {x : Nat}
    (h : x < l.length) (dflt : β) : (l.map f).getD x dflt = f (l.get ⟨x, h⟩) := by
  rw [List.getD_eq_getElem?_getD, List.getElem?_map, List.getElem?_eq_getElem h]
  rfl

theorem getD_append_lt {α : Type} (l1 l2 : List α) {q : Nat} (h : q < l1.length) (dflt : α) :
    (l1 ++ l2).getD q dflt = l1.getD q dflt := by
  rw [List.getD_eq_getElem?_getD, List.getD_eq_getElem?_getD, List.getElem?_append, if_pos h]

theorem get_idxOf {α : Type} [DecidableEq α] {a : α} {l : List α} (h : a ∈ l) :
    l.get ⟨idxOf a l, idxOf_lt_length h⟩ = a := by
  have h2 := getElem_idxOf h
  rw [List.getD_eq_getElem?_getD, List.getElem?_eq_getElem (idxOf_lt_length h)] at h2
  exact h2

theorem getD_eq_get {α : Type} (l : List α) {q : Nat} (h : q < l.length) (dflt : α) :
    l.getD q dflt = l.get ⟨q, h⟩ := by
  rw [List.getD_eq_getElem?_getD, List.getElem?_eq_getElem h]
  rfl

theorem Dfa.lift_state_lt {d : Dfa} {U : List Str} {q : Nat} (hq : q < d.states.length) :
    (d.lift U).states.getD q default =
      { name := (d.states.get ⟨q, hq⟩).name
        accepting := (d.states.get ⟨q, hq⟩).accepting
        transitions := U.map (fun u =>
          if u ∈ d.alphabet then
            (d.states.get ⟨q, hq⟩).transitions.getD (idxOf u d.alphabet) 0
          else d.states.length) } := by
  show (d.states.map _ ++ [_]).getD q default = _
  rw [getD_append_lt _ _ (by simpa using hq), getD_map_of_lt _ _ (by simpa using hq)]

theorem Dfa.lift_state_dead (d : Dfa) (U : List Str) :
    (d.lift U).states.getD d.states.length default =
      { name := [], accepting := false,
        transitions := U.map (fun _ => d.states.length) } := by
  show (d.states.map _ ++ [_]).getD d.states.length default = _
  rw [List.getD_eq_getElem?_getD,
    List.getElem?_append_right (by simp), List.length_map, Nat.sub_self]
  rfl

theorem Dfa.lift_stepIdx_of_mem {d : Dfa} {U : List Str} {q : Nat}
    (hq : q < d.states.length) {u : Str} (hu : u ∈ d.alphabet) (huU : u ∈ U) :
    (d.lift U).stepIdx q (idxOf u U) = d.stepIdx q (idxOf u d.alphabet) := by
  unfold Dfa.stepIdx
  rw [Dfa.lift_state_lt hq]
  show (U.map _).getD (idxOf u U) 0 = _
  rw [getD_map_of_lt _ _ (idxOf_lt_length huU), get_idxOf huU, if_pos hu,
    getD_eq_get d.states hq]

theorem Dfa.lift_stepIdx_of_notmem {d : Dfa} {U : List Str} {q : Nat}
    (hq : q < d.states.length) {u : Str} (hu : u ∉ d.alphabet) (huU : u ∈ U) :
    (d.lift U).stepIdx q (idxOf u U) = d.states.length := by
  unfold Dfa.stepIdx
  rw [Dfa.lift_state_lt hq]
  show (U.map _).getD (idxOf u U) 0 = _
  rw [getD_map_of_lt _ _ (idxOf_lt_length huU), get_idxOf huU, if_neg hu]

theorem Dfa.lift_stepIdx_dead {d : Dfa} {U : List Str} {x : Nat} (hx : x < U.length) :
    (d.lift U).stepIdx d.states.length x = d.states.length := by
  unfold Dfa.stepIdx
  rw [Dfa.lift_state_dead]
  show (U.map _).getD x 0 = _
  rw [getD_map_of_lt _ _ hx]

theorem Dfa.lift_accIdx {d : Dfa} {U : List Str} {q : Nat} (hq : q < d.states.length) :
    (d.lift U).accIdx q = d.accIdx q := by
  unfold Dfa.accIdx
  rw [Dfa.lift_state_lt hq, getD_eq_get d.states hq]

theorem Dfa.lift_accIdx_dead (d : Dfa) (U : List Str) :
    (d.lift U).accIdx d.states.length = false := by
  unfold Dfa.accIdx
  rw [Dfa.lift_state_dead]

theorem Dfa.lift_run_dead {d : Dfa} {U : List Str} (xs : List Nat)
    (hbd : ∀ x ∈ xs, x < U.length) :
    (d.lift U).runIdx d.states.length xs = d.states.length := by
  induction xs with
  | nil => rfl
  | cons x xs ih =>
    show (d.lift U).runIdx ((d.lift U).stepIdx d.states.length x) xs = _
    rw [Dfa.lift_stepIdx_dead (hbd x (List.mem_cons_self ..))]
    exact ih (fun y hy => hbd y (List.mem_cons_of_mem _ hy))

theorem Dfa.lift_run_good {d : Dfa} {U : List Str} (hd : d.WF) :
    ∀ (w : List Str), (∀ tok ∈ w, tok ∈ d.alphabet) → (∀ tok ∈ w, tok ∈ U) →
      ∀ q, q < d.states.length →
      (d.lift U).runIdx q (w.map (fun tok => idxOf tok U)) =
        d.runIdx q (w.map (fun tok => idxOf tok d.alphabet)) := by
  intro w
  induction w with
  | nil => intro _ _ q _; rfl
  | cons tok w ih =>
    intro hwa hwU q hq
    have htok : tok ∈ d.alphabet := hwa tok (List.mem_cons_self ..)
    have htokU : tok ∈ U := hwU tok (List.mem_cons_self ..)
    show (d.lift U).runIdx ((d.lift U).stepIdx q (idxOf tok U)) _ =
      d.runIdx (d.stepIdx q (idxOf tok d.alphabet)) _
    rw [Dfa.lift_stepIdx_of_mem hq htok htokU]
    exact ih (fun t ht => hwa t (List.mem_cons_of_mem _ ht))
      (fun t ht => hwU t (List.mem_cons_of_mem _ ht))
      _ (Dfa.stepIdx_lt hd hq _)

theorem Dfa.lift_run_bad {d : Dfa} {U : List Str} (hd : d.WF) :
    ∀ (w : List Str), (∀ tok ∈ w, tok ∈ U) → ¬(∀ tok ∈ w, tok ∈ d.alphabet) →
      ∀ q, q < d.states.length →
      (d.lift U).runIdx q (w.map (fun tok => idxOf tok U)) = d.states.length := by
  intro w
  induction w with
  | nil => intro _ hbad; exact absurd (fun tok ht => absurd ht (List.not_mem_nil tok)) hbad
  | cons tok w ih =>
    intro hwU hbad q hq
    have htokU : tok ∈ U := hwU tok (List.mem_cons_self ..)
    by_cases htok : tok ∈ d.alphabet
    · show (d.lift U).runIdx ((d.lift U).stepIdx q (idxOf tok U)) _ = _
      rw [Dfa.lift_stepIdx_of_mem hq htok htokU]
      refine ih (fun t ht => hwU t (List.mem_cons_of_mem _ ht)) ?_ _ (Dfa.stepIdx_lt hd hq _)
      intro hall
      exact hbad (fun t ht => by
        rcases List.mem_cons.mp ht with rfl | ht2
        · exact htok
        · exact hall t ht2)
    · show (d.lift U).runIdx ((d.lift U).stepIdx q (idxOf tok U)) _ = _
      rw [Dfa.lift_stepIdx_of_notmem hq htok htokU]
      apply Dfa.lift_run_dead
      intro x hx
      obtain ⟨t, ht, rfl⟩ := List.mem_map.mp hx
      exact idxOf_lt_length (hwU t (List.mem_cons_of_mem _ ht))

/-- Lifting never changes the accepted language: symbols added to the
alphabet lead straight to the dead state, so they reject exactly as an
out-of-alphabet symbol does in the original automaton. -/
theorem Dfa.lift_accepts {d : Dfa} (hd : d.WF) {U : List Str}
    (hsub : ∀ a ∈ d.alphabet, a ∈ U) (w : List Str) :
    (d.lift U).accepts w = d.accepts w := by
  by_cases hwU : ∀ tok ∈ w, tok ∈ U
  · by_cases hwa : ∀ tok ∈ w, tok ∈ d.alphabet
    · rw [Dfa.accepts, Dfa.accepts,
        if_pos (show ∀ tok ∈ w, tok ∈ (d.lift U).alphabet from hwU), if_pos hwa]
      rw [show (d.lift U).initialState = d.initialState from rfl]
      rw [show (d.lift U).alphabet = U from rfl]
      rw [Dfa.lift_run_good hd w hwa hwU d.initialState hd.2.1]
      exact Dfa.lift_accIdx (Dfa.runIdx_lt hd hd.2.1 _)
    · rw [Dfa.accepts, Dfa.accepts,
        if_pos (show ∀ tok ∈ w, tok ∈ (d.lift U).alphabet from hwU), if_neg hwa]
      rw [show (d.lift U).initialState = d.initialState from rfl]
      rw [show (d.lift U).alphabet = U from rfl]
      rw [Dfa.lift_run_bad hd w hwU hwa d.initialState hd.2.1]
      exact Dfa.lift_accIdx_dead d U
  · have hwa : ¬∀ tok ∈ w, tok ∈ d.alphabet :=
      fun hall => hwU (fun tok ht => hsub tok (hall tok ht))
    rw [Dfa.accepts, Dfa.accepts,
      if_neg (show ¬∀ tok ∈ w, tok ∈ (d.lift U).alphabet from hwU), if_neg hwa]

theorem Dfa.lift_WF {d : Dfa} (hd : d.WF) (U : List Str) : (d.lift U).WF := by
  obtain ⟨hne, hinit, hrows⟩ := hd
  have hlen : (d.lift U).states.length = d.states.length + 1 := Dfa.lift_states_length d U
  refine ⟨?_, ?_, ?_⟩
  · intro hnil
    have := congrArg List.length hnil
    rw [hlen] at this
    exact absurd this (by simp)
  · rw [hlen, Dfa.lift_initialState]
    omega
  · intro s hs
    rcases List.mem_append.mp hs with hs1 | hs1
    · obtain ⟨s0, hs0, rfl⟩ := List.mem_map.mp hs1
      refine ⟨by simp [Dfa.lift_alphabet], ?_⟩
      intro t ht
      obtain ⟨u, hu, rfl⟩ := List.mem_map.mp ht
      rw [hlen]
      by_cases hmem : u ∈ d.alphabet
      · rw [if_pos hmem]
        by_cases hlt : idxOf u d.alphabet < s0.transitions.length
        · have := (hrows s0 hs0).2 _ (getD_mem_of_lt hlt 0)
          omega
        · rw [List.getD_eq_getElem?_getD, List.getElem?_eq_none (by omega)]
          show 0 < d.states.length + 1
          omega
      · rw [if_neg hmem]
        omega
    · rcases List.mem_singleton.mp hs1 with rfl
      refine ⟨by simp [Dfa.lift_alphabet], ?_⟩
      intro t ht
      obtain ⟨u, hu, rfl⟩ := List.mem_map.mp ht
      rw [hlen]
      omega

theorem mem_unionAlphabet_left {A B : Dfa} {a : Str} (h : a ∈ A.alphabet) :
    a ∈ unionAlphabet A B :=
  List.mem_append.mpr (Or.inl h)

theorem mem_unionAlphabet_right {A B : Dfa} {b : Str} (h : b ∈ B.alphabet) :
    b ∈ unionAlphabet A B := by
  by_cases ha : b ∈ A.alphabet
  · exact List.mem_append.mpr (Or.inl ha)
  · exact List.mem_append.mpr (Or.inr (List.mem_filter.mpr ⟨h, by simpa using ha⟩))

theorem unionAlphabet_nodup {A B : Dfa} (hA : A.alphabet.Nodup) (hB : B.alphabet.Nodup) :
    (unionAlphabet A B).Nodup := by
  rw [unionAlphabet, List.nodup_append]
  refine ⟨hA, hB.filter _, ?_⟩
  intro a ha hafil
  have h2 := (List.mem_filter.mp hafil).2
  rw [decide_eq_true_iff] at h2
  exact h2 ha

/-- `equivalentTo` decides equality of the lifted languages. -/
theorem equivalentTo_iff_lift {A B : Dfa} (hA : A.WF) (hB : B.WF)
    (hAnd : A.alphabet.Nodup) (hBnd : B.alphabet.Nodup) :
    A.equivalentTo B = true ↔
      ∀ w : List Str, (A.lift (unionAlphabet A B)).accepts w =
        (B.lift (unionAlphabet A B)).accepts w := by
  unfold Dfa.equivalentTo
  exact pairAgree_iff (Dfa.lift_WF hA _) (Dfa.lift_WF hB _) rfl
    (by rw [Dfa.lift_alphabet]; exact unionAlphabet_nodup hAnd hBnd)

/-- Since lifting preserves the language, `equivalentTo` also decides
plain language equality, with no condition on the alphabets. -/
theorem equivalentTo_iff_lang {A B : Dfa} (hA : A.WF) (hB : B.WF)
    (hAnd : A.alphabet.Nodup) (hBnd : B.alphabet.Nodup) :
    A.equivalentTo B = true ↔ ∀ w : List Str, A.accepts w = B.accepts w := by
  rw [equivalentTo_iff_lift hA hB hAnd hBnd]
  constructor
  · intro h w
    have h2 := h w
    rwa [Dfa.lift_accepts hA (fun a ha => mem_unionAlphabet_left ha) w,
      Dfa.lift_accepts hB (fun a ha => mem_unionAlphabet_right ha) w] at h2
  · intro h w
    rw [Dfa.lift_accepts hA (fun a ha => mem_unionAlphabet_left ha) w,
      Dfa.lift_accepts hB (fun a ha => mem_unionAlphabet_right ha) w]
    exact h w

/-- C6: `equivalent_to` is total — by construction it returns a Boolean
for every pair of DFAs, including pairs over different alphabets, and can
never return an error — and it returns `true` iff the two automata,
lifted to the union of their alphabets with missing symbols routed to a
dead state, accept exactly the same language. -/
theorem claim_C6_equivalence_total (A B : Dfa) (hA : A.WF) (hB : B.WF)
    (hAnd : A.alphabet.Nodup) (hBnd : B.alphabet.Nodup) :
    A.equivalentTo B = true ↔
      ∀ w : List Str, (A.lift (unionAlphabet A B)).accepts w =
        (B.lift (unionAlphabet A B)).accepts w :=
  equivalentTo_iff_lift hA hB hAnd hBnd

/-- Witness for C6 at two concrete one-state DFAs over the different
alphabets `a` and `b`. -/
theorem claim_C6_equivalence_total_witness :
    sampleA.WF ∧ sampleC.WF ∧ sampleA.alphabet.Nodup ∧ sampleC.alphabet.Nodup ∧
      (sampleA.equivalentTo sampleC = true ↔
        ∀ w : List Str, (sampleA.lift (unionAlphabet sampleA sampleC)).accepts w =
          (sampleC.lift (unionAlphabet sampleA sampleC)).accepts w) :=
  ⟨by decide, by decide, by decide, by decide,
    claim_C6_equivalence_total sampleA sampleC (by decide) (by decide) (by decide) (by decide)⟩

/-! ## Removing unreachable states (spec §4.3) -/

/-- All successor indices of state `q` (its transition row). -/
def Dfa.succs (d : Dfa) (q : Nat) : Finset Nat :=
  ((d.states.getD q default).transitions).toFinset

/-- The state indices reachable from the initial state. -/
def Dfa.reachSet (d : Dfa) : Finset Nat :=
  closure d.succs d.states.length {d.initialState}

/-- The reachable state indices in increasing order. -/
def Dfa.keep (d : Dfa) : List Nat :=
  (List.range d.states.length).filter (fun q => decide (q ∈ d.reachSet))

/-- Modelled from the spec: remove unreachable states (§4.3), keeping
the survivors in their original order and re-indexing transitions. -/
def Dfa.removeUnreachable (d : Dfa) : Dfa :=
  { alphabet := d.alphabet
    states := d.keep.map (fun q =>
      { name := (d.states.getD q default).name
        accepting := (d.states.getD q default).accepting
        transitions := (d.states.getD q default).transitions.map (fun t => idxOf t d.keep) })
    initialState := idxOf d.initialState d.keep }

theorem getD_states_mem {d : Dfa} {q : Nat} (hq : q < d.states.length) :
    d.states.getD q default ∈ d.states := by
  rw [getD_eq_get d.states hq]
  exact List.get_mem ..

theorem Dfa.succs_subset {d : Dfa} (hd : d.WF) (q : Nat) :
    d.succs q ⊆ Finset.range d.states.length := by
  intro t ht
  rw [Dfa.succs, List.mem_toFinset] at ht
  by_cases hq : q < d.states.length
  · exact Finset.mem_range.mpr ((hd.2.2 _ (getD_states_mem hq)).2 t ht)
  · have hdef : d.states.getD q default = default := by
      rw [List.getD_eq_getElem?_getD, List.getElem?_eq_none (by omega)]
      rfl
    rw [hdef] at ht
    cases ht

theorem Dfa.initial_subset_range {d : Dfa} (hd : d.WF) :
    ({d.initialState} : Finset Nat) ⊆ Finset.range d.states.length := by
  intro p hp
  rw [Finset.mem_singleton] at hp
  subst hp
  exact Finset.mem_range.mpr hd.2.1

theorem Dfa.initial_mem_reach (d : Dfa) : d.initialState ∈ d.reachSet :=
  subset_closure_set _ _ _ (Finset.mem_singleton_self _)

theorem Dfa.mem_keep_iff {d : Dfa} {q : Nat} :
    q ∈ d.keep ↔ q < d.states.length ∧ q ∈ d.reachSet := by
  rw [Dfa.keep, List.mem_filter, List.mem_range, decide_eq_true_iff]

theorem Dfa.keep_nodup (d : Dfa) : d.keep.Nodup :=
  (List.nodup_range _).filter _

theorem Dfa.reach_closed {d : Dfa} (hd : d.WF) {q t : Nat} (hq : q ∈ d.reachSet)
    (ht : t ∈ d.succs q) : t ∈ d.reachSet := by
  have hfix := closure_isFix (fun p => Dfa.succs_subset hd p) (Dfa.initial_subset_range hd)
  show t ∈ d.reachSet
  rw [Dfa.reachSet, ← hfix, grow]
  exact Finset.mem_union_right _ (Finset.mem_biUnion.mpr ⟨q, hq, ht⟩)

theorem Dfa.step_mem_reach {d : Dfa} (hd : d.WF) {q : Nat} (hq : q ∈ d.reachSet)
    (hqn : q < d.states.length) {x : Nat} (hx : x < d.alphabet.length) :
    d.stepIdx q x ∈ d.reachSet := by
  apply Dfa.reach_closed hd hq
  rw [Dfa.succs, List.mem_toFinset]
  have hlen : (d.states.getD q default).transitions.length = d.alphabet.length :=
    (hd.2.2 _ (getD_states_mem hqn)).1
  show (d.states.getD q default).transitions.getD x 0 ∈ _
  exact getD_mem_of_lt (by omega) 0

theorem Dfa.ru_state {d : Dfa} {q : Nat} (hq : q ∈ d.keep) :
    d.removeUnreachable.states.getD (idxOf q d.keep) default =
      { name := (d.states.getD q default).name
        accepting := (d.states.getD q default).accepting
        transitions := (d.states.getD q default).transitions.map (fun t => idxOf t d.keep) } := by
  show (d.keep.map _).getD _ default = _
  rw [getD_map_of_lt _ _ (idxOf_lt_length hq), get_idxOf hq]

theorem Dfa.ru_stepIdx {d : Dfa} (hd : d.WF) {q : Nat} (hq : q ∈ d.keep)
    {x : Nat} (hx : x < d.alphabet.length) :
    d.removeUnreachable.stepIdx (idxOf q d.keep) x = idxOf (d.stepIdx q x) d.keep := by
  have hqn : q < d.states.length := (Dfa.mem_keep_iff.mp hq).1
  have hlen : (d.states.getD q default).transitions.length = d.alphabet.length :=
    (hd.2.2 _ (getD_states_mem hqn)).1
  show (d.removeUnreachable.states.getD (idxOf q d.keep) default).transitions.getD x 0 = _
  rw [Dfa.ru_state hq]
  show ((d.states.getD q default).transitions.map _).getD x 0 = _
  rw [getD_map_of_lt _ _ (by omega)]
  rw [show d.stepIdx q x = (d.states.getD q default).transitions.getD x 0 from rfl]
  rw [getD_eq_get ((d.states.getD q default).transitions) (by omega) 0]

theorem Dfa.ru_accIdx {d : Dfa} {q : Nat} (hq : q ∈ d.keep) :
    d.removeUnreachable.accIdx (idxOf q d.keep) = d.accIdx q := by
  unfold Dfa.accIdx
  rw [Dfa.ru_state hq]

theorem Dfa.ru_runIdx {d : Dfa} (hd : d.WF) :
    ∀ (xs : List Nat), (∀ x ∈ xs, x < d.alphabet.length) →
      ∀ q, q ∈ d.reachSet → q < d.states.length →
      d.removeUnreachable.runIdx (idxOf q d.keep) xs = idxOf (d.runIdx q xs) d.keep := by
  intro xs
  induction xs with
  | nil => intro _ q _ _; rfl
  | cons x xs ih =>
    intro hbd q hqr hqn
    have hq : q ∈ d.keep := Dfa.mem_keep_iff.mpr ⟨hqn, hqr⟩
    have hx : x < d.alphabet.length := hbd x (List.mem_cons_self ..)
    show d.removeUnreachable.runIdx (d.removeUnreachable.stepIdx (idxOf q d.keep) x) xs = _
    rw [Dfa.ru_stepIdx hd hq hx]
    exact ih (fun y hy => hbd y (List.mem_cons_of_mem _ hy)) _
      (Dfa.step_mem_reach hd hqr hqn hx) (Dfa.stepIdx_lt hd hqn x)

/-- The run from a reachable state stays inside the reachable set. -/
theorem Dfa.run_mem_reach {d : Dfa} (hd : d.WF) :
    ∀ (xs : List Nat), (∀ x ∈ xs, x < d.alphabet.length) →
      ∀ q, q ∈ d.reachSet → q < d.states.length → d.runIdx q xs ∈ d.reachSet := by
  intro xs
  induction xs with
  | nil => intro _ q hq _; exact hq
  | cons x xs ih =>
    intro hbd q hqr hqn
    exact ih (fun y hy => hbd y (List.mem_cons_of_mem _ hy)) _
      (Dfa.step_mem_reach hd hqr hqn (hbd x (List.mem_cons_self ..)))
      (Dfa.stepIdx_lt hd hqn x)

/-- Removing unreachable states preserves the language. -/
theorem Dfa.removeUnreachable_accepts {d : Dfa} (hd : d.WF) (w : List Str) :
    d.removeUnreachable.accepts w = d.accepts w := by
  have hik : d.initialState ∈ d.keep :=
    Dfa.mem_keep_iff.mpr ⟨hd.2.1, Dfa.initial_mem_reach d⟩
  by_cases htok : ∀ tok ∈ w, tok ∈ d.alphabet
  · rw [Dfa.accepts, Dfa.accepts,
      if_pos (show ∀ tok ∈ w, tok ∈ d.removeUnreachable.alphabet from htok), if_pos htok]
    rw [show d.removeUnreachable.alphabet = d.alphabet from rfl]
    rw [show d.removeUnreachable.initialState = idxOf d.initialState d.keep from rfl]
    have hbd : ∀ x ∈ w.map (fun tok => idxOf tok d.alphabet), x < d.alphabet.length := by
      intro x hx
      obtain ⟨tok, ht, rfl⟩ := List.mem_map.mp hx
      exact idxOf_lt_length (htok tok ht)
    rw [Dfa.ru_runIdx hd _ hbd d.initialState (Dfa.initial_mem_reach d) hd.2.1]
    exact Dfa.ru_accIdx (Dfa.mem_keep_iff.mpr
      ⟨Dfa.runIdx_lt hd hd.2.1 _,
        Dfa.run_mem_reach hd _ hbd d.initialState (Dfa.initial_mem_reach d) hd.2.1⟩)
  · rw [Dfa.accepts, Dfa.accepts,
      if_neg (show ¬∀ tok ∈ w, tok ∈ d.removeUnreachable.alphabet from htok), if_neg htok]

theorem Dfa.removeUnreachable_WF {d : Dfa} (hd : d.WF) : d.removeUnreachable.WF := by
  have hik : d.initialState ∈ d.keep :=
    Dfa.mem_keep_iff.mpr ⟨hd.2.1, Dfa.initial_mem_reach d⟩
  refine ⟨?_, ?_, ?_⟩
  · intro hnil
    have hk : d.keep = [] := by
      cases hkk : d.keep with
      | nil => rfl
      | cons a l =>
        rw [show d.removeUnreachable.states = d.keep.map _ from rfl, hkk] at hnil
        cases hnil
    rw [hk] at hik
    cases hik
  · show idxOf d.initialState d.keep < (d.keep.map _).length
    rw [List.length_map]
    exact idxOf_lt_length hik
  · intro s hs
    obtain ⟨q, hq, rfl⟩ := List.mem_map.mp hs
    have hqn := (Dfa.mem_keep_iff.mp hq).1
    have hqr := (Dfa.mem_keep_iff.mp hq).2
    constructor
    · show ((d.states.getD q default).transitions.map _).length =
        d.removeUnreachable.alphabet.length
      rw [List.length_map]
      exact (hd.2.2 _ (getD_states_mem hqn)).1
    · intro t ht
      obtain ⟨t0, ht0, rfl⟩ := List.mem_map.mp ht
      have ht0r : t0 ∈ d.reachSet := Dfa.reach_closed hd hqr
        (by rw [Dfa.succs, List.mem_toFinset]; exact ht0)
      have ht0n : t0 < d.states.length := (hd.2.2 _ (getD_states_mem hqn)).2 t0 ht0
      have ht0k : t0 ∈ d.keep := Dfa.mem_keep_iff.mpr ⟨ht0n, ht0r⟩
      show idxOf t0 d.keep < (d.keep.map _).length
      rw [List.length_map]
      exact idxOf_lt_length ht0k

/-! ## Indistinguishability (Hopcroft-style refinement, spec §4.3)

A pair `(i, j)` of states of one DFA is encoded as `i * n + j`.  The
distinguishable pairs are the closure, under predecessor steps, of the
pairs that already differ on acceptance; the refinement fixed point of
the spec is exactly this closure. -/

/-- Encoded pairs whose two components differ on acceptance. -/
def Dfa.diffPairs (d : Dfa) : Finset Nat :=
  (Finset.range (d.states.length * d.states.length)).filter
    (fun k => d.accIdx (k / d.states.length) ≠ d.accIdx (k % d.states.length))

/-- Encoded pairs stepping, on some symbol, onto the pair `q`. -/
def Dfa.predPairs (d : Dfa) (q : Nat) : Finset Nat :=
  (Finset.range (d.states.length * d.states.length)).filter
    (fun p => ∃ x ∈ Finset.range d.alphabet.length, pairStep d d p x = q)

/-- The distinguishable encoded pairs. -/
def Dfa.distPairs (d : Dfa) : Finset Nat :=
  closure d.predPairs (d.states.length * d.states.length) d.diffPairs

/-- Indistinguishability of two state indices. -/
def Dfa.indist (d : Dfa) (i j : Nat) : Bool :=
  decide (i * d.states.length + j ∉ d.distPairs)

theorem rtg_predPairs_iff {d : Dfa} (hd : d.WF) {s k : Nat}
    (hk : k < d.states.length * d.states.length) :
    Relation.ReflTransGen (fun a b => b ∈ d.predPairs a) s k ↔
      ∃ xs : List Nat, (∀ x ∈ xs, x < d.alphabet.length) ∧ pairRun d d k xs = s := by
  constructor
  · intro h
    induction h with
    | refl => exact ⟨[], fun x hx => absurd hx (List.not_mem_nil x), rfl⟩
    | tail hab hbc ih =>
      rw [Dfa.predPairs, Finset.mem_filter] at hbc
      obtain ⟨x, hx, hstep⟩ := hbc.2
      obtain ⟨xs, hbd, hfold⟩ := ih (hstep ▸ pairStep_lt hd hd _ x)
      refine ⟨x :: xs, ?_, ?_⟩
      · intro y hy
        rcases List.mem_cons.mp hy with rfl | hy2
        · exact Finset.mem_range.mp hx
        · exact hbd y hy2
      · show pairRun d d (pairStep d d _ x) xs = s
        rw [hstep]
        exact hfold
  · rintro ⟨xs, hbd, rfl⟩
    induction xs generalizing k with
    | nil => exact .refl
    | cons x xs ih =>
      show Relation.ReflTransGen _ (pairRun d d (pairStep d d k x) xs) k
      have h1 := ih (pairStep_lt hd hd k x) (fun y hy => hbd y (List.mem_cons_of_mem _ hy))
      refine h1.tail ?_
      rw [Dfa.predPairs, Finset.mem_filter]
      exact ⟨Finset.mem_range.mpr hk,
        x, Finset.mem_range.mpr (hbd x (List.mem_cons_self ..)), rfl⟩

theorem Dfa.mem_distPairs_iff {d : Dfa} (hd : d.WF) {i j : Nat}
    (hi : i < d.states.length) (hj : j < d.states.length) :
    i * d.states.length + j ∈ d.distPairs ↔
      ∃ xs : List Nat, (∀ x ∈ xs, x < d.alphabet.length) ∧
        d.accIdx (d.runIdx i xs) ≠ d.accIdx (d.runIdx j xs) := by
  have hg : ∀ q, d.predPairs q ⊆
      Finset.range (d.states.length * d.states.length) :=
    fun q => Finset.filter_subset _ _
  have hS : d.diffPairs ⊆ Finset.range (d.states.length * d.states.length) :=
    Finset.filter_subset _ _
  have hk : i * d.states.length + j < d.states.length * d.states.length :=
    pair_encode_lt hi hj
  rw [Dfa.distPairs, mem_closure_iff hg hS]
  constructor
  · rintro ⟨s, hs, hrtg⟩
    obtain ⟨xs, hbd, hfold⟩ := (rtg_predPairs_iff hd hk).mp hrtg
    rw [pairRun_decode hd hd xs hi hj] at hfold
    subst hfold
    rw [Dfa.diffPairs, Finset.mem_filter,
      pair_encode_div (Dfa.runIdx_lt hd hj xs),
      pair_encode_mod (Dfa.runIdx_lt hd hj xs)] at hs
    exact ⟨xs, hbd, hs.2⟩
  · rintro ⟨xs, hbd, hne⟩
    refine ⟨d.runIdx i xs * d.states.length + d.runIdx j xs, ?_,
      (rtg_predPairs_iff hd hk).mpr ⟨xs, hbd, by rw [pairRun_decode hd hd xs hi hj]⟩⟩
    rw [Dfa.diffPairs, Finset.mem_filter,
      pair_encode_div (Dfa.runIdx_lt hd hj xs),
      pair_encode_mod (Dfa.runIdx_lt hd hj xs)]
    exact ⟨Finset.mem_range.mpr
      (pair_encode_lt (Dfa.runIdx_lt hd hi xs) (Dfa.runIdx_lt hd hj xs)), hne⟩

/-- Two states are indistinguishable iff they agree on acceptance after
every word of alphabet positions. -/
theorem Dfa.indist_iff {d : Dfa} (hd : d.WF) {i j : Nat}
    (hi : i < d.states.length) (hj : j < d.states.length) :
    d.indist i j = true ↔ ∀ xs : List Nat, (∀ x ∈ xs, x < d.alphabet.length) →
      d.accIdx (d.runIdx i xs) = d.accIdx (d.runIdx j xs) := by
  rw [Dfa.indist, decide_eq_true_iff, Dfa.mem_distPairs_iff hd hi hj]
  constructor
  · intro hne xs hbd
    by_contra hx
    exact hne ⟨xs, hbd, hx⟩
  · rintro hall ⟨xs, hbd, hne⟩
    exact hne (hall xs hbd)

theorem Dfa.indist_refl {d : Dfa} (hd : d.WF) {i : Nat} (hi : i < d.states.length) :
    d.indist i i = true :=
  (Dfa.indist_iff hd hi hi).mpr (fun _ _ => rfl)

theorem Dfa.indist_symm {d : Dfa} (hd : d.WF) {i j : Nat}
    (hi : i < d.states.length) (hj : j < d.states.length)
    (h : d.indist i j = true) : d.indist j i = true :=
  (Dfa.indist_iff hd hj hi).mpr
    (fun xs hbd => ((Dfa.indist_iff hd hi hj).mp h xs hbd).symm)

theorem Dfa.indist_trans {d : Dfa} (hd : d.WF) {i j l : Nat}
    (hi : i < d.states.length) (hj : j < d.states.length) (hl : l < d.states.length)
    (h1 : d.indist i j = true) (h2 : d.indist j l = true) : d.indist i l = true :=
  (Dfa.indist_iff hd hi hl).mpr (fun xs hbd =>
    ((Dfa.indist_iff hd hi hj).mp h1 xs hbd).trans
      ((Dfa.indist_iff hd hj hl).mp h2 xs hbd))

theorem Dfa.indist_step {d : Dfa} (hd : d.WF) {i j : Nat}
    (hi : i < d.states.length) (hj : j < d.states.length)
    (h : d.indist i j = true) {x : Nat} (hx : x < d.alphabet.length) :
    d.indist (d.stepIdx i x) (d.stepIdx j x) = true :=
  (Dfa.indist_iff hd (Dfa.stepIdx_lt hd hi x) (Dfa.stepIdx_lt hd hj x)).mpr
    (fun xs hbd => (Dfa.indist_iff hd hi hj).mp h (x :: xs)
      (fun y hy => by
        rcases List.mem_cons.mp hy with rfl | hy2
        · exact hx
        · exact hbd y hy2))

theorem Dfa.indist_acc {d : Dfa} (hd : d.WF) {i j : Nat}
    (hi : i < d.states.length) (hj : j < d.states.length)
    (h : d.indist i j = true) : d.accIdx i = d.accIdx j :=
  (Dfa.indist_iff hd hi hj).mp h [] (fun x hx => absurd hx (List.not_mem_nil x))

/-! ## Collapsing to class representatives (spec §4.3)

The representative of an equivalence class is its member with the
lexicographically smallest name (spec design note (b)); equal names are
disambiguated by the smaller index. -/

/-- Strict lexicographic order on token strings. -/
def strLt : Str → Str → Bool
  | [], [] => false
  | [], _ :: _ => true
  | _ :: _, [] => false
  | a :: as, b :: bs => if a < b then true else if b < a then false else strLt as bs

theorem strLt_irrefl : ∀ s : Str, strLt s s = false := by
  intro s
  induction s with
  | nil => rfl
  | cons a as ih =>
    show (if a < a then true else if a < a then false else strLt as as) = false
    rw [if_neg (lt_irrefl a), if_neg (lt_irrefl a)]
    exact ih

theorem strLt_trans : ∀ (a b c : Str), strLt a b = true → strLt b c = true →
    strLt a c = true := by
  intro a
  induction a with
  | nil =>
    intro b c hab hbc
    cases b with
    | nil => cases hab
    | cons y bs =>
      cases c with
      | nil => cases hbc
      | cons z cs => rfl
  | cons x as ih =>
    intro b c hab hbc
    cases b with
    | nil => cases hab
    | cons y bs =>
      cases c with
      | nil => cases hbc
      | cons z cs =>
        have hab2 : (if x < y then true else if y < x then false else strLt as bs) = true := hab
        have hbc2 : (if y < z then true else if z < y then false else strLt bs cs) = true := hbc
        show (if x < z then true else if z < x then false else strLt as cs) = true
        by_cases hxy : x < y
        · by_cases hyz : y < z
          · rw [if_pos (lt_trans hxy hyz)]
          · rw [if_neg hyz] at hbc2
            by_cases hzy : z < y
            · rw [if_pos hzy] at hbc2
              cases hbc2
            · obtain rfl : y = z := le_antisymm (not_lt.mp hzy) (not_lt.mp hyz)
              rw [if_pos hxy]
        · rw [if_neg hxy] at hab2
          by_cases hyx : y < x
          · rw [if_pos hyx] at hab2
            cases hab2
          · rw [if_neg hyx] at hab2
            obtain rfl : x = y := le_antisymm (not_lt.mp hyx) (not_lt.mp hxy)
            by_cases hyz : x < z
            · rw [if_pos hyz]
            · rw [if_neg hyz] at hbc2
              by_cases hzy : z < x
              · rw [if_pos hzy] at hbc2
                cases hbc2
              · obtain rfl : x = z := le_antisymm (not_lt.mp hzy) (not_lt.mp hyz)
                rw [if_neg (lt_irrefl x)] at hbc2
                rw [if_neg (lt_irrefl x), if_neg (lt_irrefl x)]
                exact ih bs cs hab2 hbc2

/-- Ordering of state indices by (name, index): smallest name first,
ties broken by the smaller index. -/
def Dfa.stateKeyLt (d : Dfa) (a b : Nat) : Bool :=
  strLt (d.states.getD a default).name (d.states.getD b default).name ||
    (decide ((d.states.getD a default).name = (d.states.getD b default).name) &&
      decide (a < b))

theorem Dfa.stateKeyLt_irrefl (d : Dfa) (a : Nat) : d.stateKeyLt a a = false := by
  rw [Dfa.stateKeyLt, strLt_irrefl, Bool.false_or, decide_eq_false (lt_irrefl a),
    Bool.and_false]

theorem Dfa.stateKeyLt_trans (d : Dfa) (a b c : Nat)
    (h1 : d.stateKeyLt a b = true) (h2 : d.stateKeyLt b c = true) :
    d.stateKeyLt a c = true := by
  rw [Dfa.stateKeyLt, Bool.or_eq_true, Bool.and_eq_true,
    decide_eq_true_iff, decide_eq_true_iff] at h1 h2 ⊢
  rcases h1 with h1 | ⟨h1e, h1l⟩
  · rcases h2 with h2 | ⟨h2e, h2l⟩
    · exact Or.inl (strLt_trans _ _ _ h1 h2)
    · exact Or.inl (h2e ▸ h1)
  · rcases h2 with h2 | ⟨h2e, h2l⟩
    · exact Or.inl (h1e ▸ h2)
    · exact Or.inr ⟨h1e.trans h2e, lt_trans h1l h2l⟩

/-- Every nonempty list has a minimum under an irreflexive transitive
Boolean order. -/
theorem exists_min_of_trans {α : Type} (lt : α → α → Bool)
    (hirr : ∀ a, lt a a = false)
    (htr : ∀ a b c, lt a b = true → lt b c = true → lt a c = true) :
    ∀ (l : List α), l ≠ [] → ∃ m ∈ l, ∀ b ∈ l, lt b m = false := by
  intro l
  induction l with
  | nil => intro h; exact absurd rfl h
  | cons a l ih =>
    intro _
    cases l with
    | nil =>
      refine ⟨a, List.mem_singleton.mpr rfl, ?_⟩
      intro b hb
      rcases List.mem_singleton.mp hb with rfl
      exact hirr b
    | cons a2 l2 =>
      obtain ⟨m, hm, hmin⟩ := ih (by intro h; cases h)
      by_cases hlt : lt a m = true
      · refine ⟨a, List.mem_cons_self .., ?_⟩
        intro b hb
        rcases List.mem_cons.mp hb with rfl | hb2
        · exact hirr b
        · cases hba : lt b a with
          | false => rfl
          | true =>
            have h2 := htr b a m hba hlt
            rw [hmin b hb2] at h2
            cases h2
      · refine ⟨m, List.mem_cons_of_mem _ hm, ?_⟩
        intro b hb
        rcases List.mem_cons.mp hb with rfl | hb2
        · cases hba : lt b m with
          | false => rfl
          | true => exact absurd hba hlt
        · exact hmin b hb2

/-- The indistinguishability class of state `i`, in index order. -/
def Dfa.classOf (d : Dfa) (i : Nat) : List Nat :=
  (List.range d.states.length).filter (fun j => d.indist i j)

/-- The representative of the class of `i`: the member with the
lexicographically smallest name, ties broken by index (spec §4.3). -/
def Dfa.rep (d : Dfa) (i : Nat) : Nat :=
  ((d.classOf i).filter
    (fun j => (d.classOf i).all (fun b => !d.stateKeyLt b j))).headD i

theorem Dfa.mem_classOf_iff {d : Dfa} {i j : Nat} :
    j ∈ d.classOf i ↔ j < d.states.length ∧ d.indist i j = true := by
  rw [Dfa.classOf, List.mem_filter, List.mem_range]

theorem Dfa.self_mem_classOf {d : Dfa} (hd : d.WF) {i : Nat}
    (hi : i < d.states.length) : i ∈ d.classOf i :=
  Dfa.mem_classOf_iff.mpr ⟨hi, Dfa.indist_refl hd hi⟩

theorem minFilter_ne_nil {α : Type} (lt : α → α → Bool)
    (hirr : ∀ a, lt a a = false)
    (htr : ∀ a b c, lt a b = true → lt b c = true → lt a c = true)
    (l : List α) (hne : l ≠ []) :
    l.filter (fun j => l.all (fun b => !lt b j)) ≠ [] := by
  obtain ⟨m, hm, hmin⟩ := exists_min_of_trans lt hirr htr l hne
  intro hnil
  have hmem : m ∈ l.filter (fun j => l.all (fun b => !lt b j)) := by
    rw [List.mem_filter]
    refine ⟨hm, List.all_eq_true.mpr ?_⟩
    intro b hb
    rw [hmin b hb]
    rfl
  rw [hnil] at hmem
  cases hmem

theorem headD_mem_of_ne_nil {α : Type} {l : List α} (h : l ≠ []) (a : α) :
    l.headD a ∈ l := by
  cases l with
  | nil => exact absurd rfl h
  | cons b t => exact List.mem_cons_self ..

theorem headD_congr {α : Type} {l : List α} (h : l ≠ []) (a b : α) :
    l.headD a = l.headD b := by
  cases l with
  | nil => exact absurd rfl h
  | cons c t => rfl

theorem Dfa.rep_mem_classOf {d : Dfa} (hd : d.WF) {i : Nat}
    (hi : i < d.states.length) : d.rep i ∈ d.classOf i := by
  have hne : d.classOf i ≠ [] := by
    intro h
    have := Dfa.self_mem_classOf hd hi
    rw [h] at this
    cases this
  have hfne := minFilter_ne_nil (d.stateKeyLt) (d.stateKeyLt_irrefl)
    (d.stateKeyLt_trans) (d.classOf i) hne
  have hmem := headD_mem_of_ne_nil hfne i
  exact (List.mem_filter.mp hmem).1

theorem Dfa.indist_rep {d : Dfa} (hd : d.WF) {i : Nat} (hi : i < d.states.length) :
    d.indist i (d.rep i) = true :=
  (Dfa.mem_classOf_iff.mp (Dfa.rep_mem_classOf hd hi)).2

theorem Dfa.rep_lt {d : Dfa} (hd : d.WF) {i : Nat} (hi : i < d.states.length) :
    d.rep i < d.states.length :=
  (Dfa.mem_classOf_iff.mp (Dfa.rep_mem_classOf hd hi)).1

theorem Dfa.classOf_congr {d : Dfa} (hd : d.WF) {i j : Nat}
    (hi : i < d.states.length) (hj : j < d.states.length)
    (hij : d.indist i j = true) : d.classOf i = d.classOf j := by
  unfold Dfa.classOf
  apply List.filter_congr
  intro k hk
  have hkn : k < d.states.length := List.mem_range.mp hk
  rw [Bool.eq_iff_iff]
  constructor
  · intro h
    exact Dfa.indist_trans hd hj hi hkn (Dfa.indist_symm hd hi hj hij) h
  · intro h
    exact Dfa.indist_trans hd hi hj hkn hij h

theorem Dfa.rep_congr {d : Dfa} (hd : d.WF) {i j : Nat}
    (hi : i < d.states.length) (hj : j < d.states.length)
    (hij : d.indist i j = true) : d.rep i = d.rep j := by
  have hne : d.classOf j ≠ [] := by
    intro h
    have := Dfa.self_mem_classOf hd hj
    rw [h] at this
    cases this
  have hfne := minFilter_ne_nil (d.stateKeyLt) (d.stateKeyLt_irrefl)
    (d.stateKeyLt_trans) (d.classOf j) hne
  unfold Dfa.rep
  rw [Dfa.classOf_congr hd hi hj hij]
  exact headD_congr hfne i j

theorem Dfa.rep_idem {d : Dfa} (hd : d.WF) {i : Nat} (hi : i < d.states.length) :
    d.rep (d.rep i) = d.rep i :=
  Dfa.rep_congr hd (Dfa.rep_lt hd hi) hi
    (Dfa.indist_symm hd hi (Dfa.rep_lt hd hi) (Dfa.indist_rep hd hi))

/-- The representative indices, in index order. -/
def Dfa.repList (d : Dfa) : List Nat :=
  (List.range d.states.length).filter (fun i => decide (d.rep i = i))

/-- Modelled from the spec: collapse indistinguishable states onto class
representatives (§4.3).  Accepting flags transfer; transitions go to the
representative of the target's class. -/
def Dfa.collapse (d : Dfa) : Dfa :=
  { alphabet := d.alphabet
    states := d.repList.map (fun i =>
      { name := (d.states.getD i default).name
        accepting := (d.states.getD i default).accepting
        transitions := (List.range d.alphabet.length).map
          (fun x => idxOf (d.rep (d.stepIdx i x)) d.repList) })
    initialState := idxOf (d.rep d.initialState) d.repList }

/-- Modelled from the spec: DFA minimization (§4.3): remove unreachable
states, then collapse each indistinguishability class onto the
representative with the lexicographically smallest name. -/
def Dfa.minimize (d : Dfa) : Dfa :=
  d.removeUnreachable.collapse

theorem Dfa.mem_repList_iff {d : Dfa} {i : Nat} :
    i ∈ d.repList ↔ i < d.states.length ∧ d.rep i = i := by
  rw [Dfa.repList, List.mem_filter, List.mem_range, decide_eq_true_iff]

theorem Dfa.rep_mem_repList {d : Dfa} (hd : d.WF) {i : Nat}
    (hi : i < d.states.length) : d.rep i ∈ d.repList :=
  Dfa.mem_repList_iff.mpr ⟨Dfa.rep_lt hd hi, Dfa.rep_idem hd hi⟩

theorem Dfa.collapse_state {d : Dfa} {q : Nat} (hq : q ∈ d.repList) :
    d.collapse.states.getD (idxOf q d.repList) default =
      { name := (d.states.getD q default).name
        accepting := (d.states.getD q default).accepting
        transitions := (List.range d.alphabet.length).map
          (fun x => idxOf (d.rep (d.stepIdx q x)) d.repList) } := by
  show (d.repList.map _).getD _ default = _
  rw [getD_map_of_lt _ _ (idxOf_lt_length hq), get_idxOf hq]

theorem Dfa.collapse_stepIdx {d : Dfa} (hd : d.WF) {i : Nat}
    (hi : i < d.states.length) {x : Nat} (hx : x < d.alphabet.length) :
    d.collapse.stepIdx (idxOf (d.rep i) d.repList) x =
      idxOf (d.rep (d.stepIdx i x)) d.repList := by
  show (d.collapse.states.getD (idxOf (d.rep i) d.repList) default).transitions.getD x 0 = _
  rw [Dfa.collapse_state (Dfa.rep_mem_repList hd hi), getD_map_range _ _ _ _ hx]
  congr 1
  apply Dfa.rep_congr hd (Dfa.stepIdx_lt hd (Dfa.rep_lt hd hi) x) (Dfa.stepIdx_lt hd hi x)
  exact Dfa.indist_step hd (Dfa.rep_lt hd hi) hi
    (Dfa.indist_symm hd hi (Dfa.rep_lt hd hi) (Dfa.indist_rep hd hi)) hx

theorem Dfa.collapse_accIdx {d : Dfa} (hd : d.WF) {i : Nat}
    (hi : i < d.states.length) :
    d.collapse.accIdx (idxOf (d.rep i) d.repList) = d.accIdx i := by
  show (d.collapse.states.getD (idxOf (d.rep i) d.repList) default).accepting = _
  rw [Dfa.collapse_state (Dfa.rep_mem_repList hd hi)]
  exact Dfa.indist_acc hd (Dfa.rep_lt hd hi) hi
    (Dfa.indist_symm hd hi (Dfa.rep_lt hd hi) (Dfa.indist_rep hd hi))

theorem Dfa.collapse_runIdx {d : Dfa} (hd : d.WF) :
    ∀ (xs : List Nat), (∀ x ∈ xs, x < d.alphabet.length) →
      ∀ i, i < d.states.length →
      d.collapse.runIdx (idxOf (d.rep i) d.repList) xs =
        idxOf (d.rep (d.runIdx i xs)) d.repList := by
  intro xs
  induction xs with
  | nil => intro _ i _; rfl
  | cons x xs ih =>
    intro hbd i hi
    have hx : x < d.alphabet.length := hbd x (List.mem_cons_self ..)
    show d.collapse.runIdx (d.collapse.stepIdx (idxOf (d.rep i) d.repList) x) xs = _
    rw [Dfa.collapse_stepIdx hd hi hx]
    exact ih (fun y hy => hbd y (List.mem_cons_of_mem _ hy)) _ (Dfa.stepIdx_lt hd hi x)

/-- Collapsing onto representatives preserves the language. -/
theorem Dfa.collapse_accepts {d : Dfa} (hd : d.WF) (w : List Str) :
    d.collapse.accepts w = d.accepts w := by
  by_cases htok : ∀ tok ∈ w, tok ∈ d.alphabet
  · rw [Dfa.accepts, Dfa.accepts,
      if_pos (show ∀ tok ∈ w, tok ∈ d.collapse.alphabet from htok), if_pos htok]
    rw [show d.collapse.alphabet = d.alphabet from rfl]
    rw [show d.collapse.initialState = idxOf (d.rep d.initialState) d.repList from rfl]
    have hbd : ∀ x ∈ w.map (fun tok => idxOf tok d.alphabet), x < d.alphabet.length := by
      intro x hx
      obtain ⟨tok, ht, rfl⟩ := List.mem_map.mp hx
      exact idxOf_lt_length (htok tok ht)
    rw [Dfa.collapse_runIdx hd _ hbd d.initialState hd.2.1]
    exact Dfa.collapse_accIdx hd (Dfa.runIdx_lt hd hd.2.1 _)
  · rw [Dfa.accepts, Dfa.accepts,
      if_neg (show ¬∀ tok ∈ w, tok ∈ d.collapse.alphabet from htok), if_neg htok]

theorem Dfa.collapse_WF {d : Dfa} (hd : d.WF) : d.collapse.WF := by
  have hik : d.rep d.initialState ∈ d.repList := Dfa.rep_mem_repList hd hd.2.1
  refine ⟨?_, ?_, ?_⟩
  · intro hnil
    have hk : d.repList = [] := by
      cases hkk : d.repList with
      | nil => rfl
      | cons a l =>
        rw [show d.collapse.states = d.repList.map _ from rfl, hkk] at hnil
        cases hnil
    rw [hk] at hik
    cases hik
  · show idxOf (d.rep d.initialState) d.repList < (d.repList.map _).length
    rw [List.length_map]
    exact idxOf_lt_length hik
  · intro s hs
    obtain ⟨q, hq, rfl⟩ := List.mem_map.mp hs
    have hqn := (Dfa.mem_repList_iff.mp hq).1
    constructor
    · show ((List.range d.alphabet.length).map _).length = d.collapse.alphabet.length
      rw [List.length_map, List.length_range]
      rfl
    · intro t ht
      obtain ⟨x, hx, rfl⟩ := List.mem_map.mp ht
      have hxl : x < d.alphabet.length := List.mem_range.mp hx
      show idxOf (d.rep (d.stepIdx q x)) d.repList < (d.repList.map _).length
      rw [List.length_map]
      exact idxOf_lt_length (Dfa.rep_mem_repList hd (Dfa.stepIdx_lt hd hqn x))

theorem Dfa.minimize_accepts {d : Dfa} (hd : d.WF) (w : List Str) :
    d.minimize.accepts w = d.accepts w := by
  rw [Dfa.minimize, Dfa.collapse_accepts (Dfa.removeUnreachable_WF hd),
    Dfa.removeUnreachable_accepts hd]

theorem Dfa.minimize_WF {d : Dfa} (hd : d.WF) : d.minimize.WF :=
  Dfa.collapse_WF (Dfa.removeUnreachable_WF hd)

theorem Dfa.minimize_alphabet (d : Dfa) : d.minimize.alphabet = d.alphabet := rfl

/-- C3: For every structurally well-formed DFA `d` with a duplicate-free
alphabet, `minimize d` accepts exactly the same language as `d`, and the
total equivalence check confirms it in both directions:
`d.equivalentTo (minimize d)` and `(minimize d).equivalentTo d` hold. -/
theorem claim_C3_minimize_language (d : Dfa) (hd : d.WF) (hnd : d.alphabet.Nodup) :
    (∀ w : List Str, d.minimize.accepts w = d.accepts w) ∧
    d.equivalentTo d.minimize = true ∧ d.minimize.equivalentTo d = true := by
  have hm : d.minimize.WF := Dfa.minimize_WF hd
  have hmnd : d.minimize.alphabet.Nodup := by
    rw [Dfa.minimize_alphabet]
    exact hnd
  have hlang : ∀ w, d.minimize.accepts w = d.accepts w := Dfa.minimize_accepts hd
  exact ⟨hlang,
    (equivalentTo_iff_lang hd hm hnd hmnd).mpr (fun w => (hlang w).symm),
    (equivalentTo_iff_lang hm hd hmnd hnd).mpr hlang⟩

/-- Sample DFA with an unreachable second state (used as concrete input). -/
def sampleD : Dfa := ⟨[['a']], [⟨['s'], true, [0]⟩, ⟨['t'], false, [1]⟩], 0⟩

/-- Witness for C3 at the concrete DFA `sampleD`. -/
theorem claim_C3_minimize_language_witness :
    sampleD.WF ∧ sampleD.alphabet.Nodup ∧
      ((∀ w : List Str, sampleD.minimize.accepts w = sampleD.accepts w) ∧
        sampleD.equivalentTo sampleD.minimize = true ∧
        sampleD.minimize.equivalentTo sampleD = true) :=
  ⟨by decide, by decide, claim_C3_minimize_language sampleD (by decide) (by decide)⟩

/-! ## Regular expressions (spec §3, §4.5)

Modelled from the spec: the AST has `Empty` (ε), `Zero` (∅), literals,
n-ary concatenation and alternation, and the two unary repetitions.  The
child lists of `Concat`/`Alt` are kept as a nonempty list type
(`RegexList`), matching the spec's `Concat(list)` with length ≥ 1.  A
one-child `Concat` prints exactly as its child, so re-parsing returns
the canonical form (`canonR`) that collapses such wrappers; the
Thompson construction is invariant under this collapse. -/

mutual

inductive Regex where
  | empty : Regex
  | zero : Regex
  | lit : Char → Regex
  | concat : RegexList → Regex
  | alt : RegexList → Regex
  | star : Regex → Regex
  | plus : Regex → Regex
deriving DecidableEq, Repr

inductive RegexList where
  | one : Regex → RegexList
  | cons : Regex → RegexList → RegexList
deriving DecidableEq, Repr

end

/-- Characters reserved by the regex surface syntax (spec §5). -/
def rexReserved : List Char := ['(', ')', '|', '*', '+', 'ε', '∅']

mutual

/-- Literals of the regex are single characters not equal to a reserved
operator (spec §5). -/
def goodRe : Regex → Bool
  | .empty => true
  | .zero => true
  | .lit c => !rexReserved.contains c
  | .concat l => goodRL l
  | .alt l => goodRL l
  | .star r => goodRe r
  | .plus r => goodRe r

def goodRL : RegexList → Bool
  | .one r => goodRe r
  | .cons a l => goodRe a && goodRL l

end

/-- Precedence: alternation < concatenation < repetition < atom
(spec §4.1 regex grammar). -/
def rprec : Regex → Nat
  | .alt _ => 0
  | .concat _ => 1
  | .star _ => 2
  | .plus _ => 2
  | _ => 3

mutual

/-- Modelled from the spec: minimal-parenthesization pretty-printer
(§4.5): a subterm is parenthesized exactly when its precedence is below
the context's. -/
def printR : Regex → Str
  | .empty => ['ε']
  | .zero => ['∅']
  | .lit c => [c]
  | .concat l => printLC l
  | .alt l => printLA l
  | .star r => (if rprec r < 2 then '(' :: printR r ++ [')'] else printR r) ++ ['*']
  | .plus r => (if rprec r < 2 then '(' :: printR r ++ [')'] else printR r) ++ ['+']

def printLC : RegexList → Str
  | .one r => if rprec r < 2 then '(' :: printR r ++ [')'] else printR r
  | .cons a l => (if rprec a < 2 then '(' :: printR a ++ [')'] else printR a) ++ printLC l

def printLA : RegexList → Str
  | .one r => if rprec r < 1 then '(' :: printR r ++ [')'] else printR r
  | .cons a l => (if rprec a < 1 then '(' :: printR a ++ [')'] else printR a) ++ '|' :: printLA l

end

/-- Print a subterm in a context of precedence `c`. -/
def printP (c : Nat) (r : Regex) : Str :=
  if rprec r < c then '(' :: printR r ++ [')'] else printR r

/-- The top-level display of a regex. -/
def printRegex (r : Regex) : Str := printR r

/-- Rebuild a nonempty list from its first two elements and the rest. -/
def ofList : Regex → Regex → List Regex → RegexList
  | a, b, [] => .cons a (.one b)
  | a, b, c :: rs => .cons a (ofList b c rs)

/-- Assemble a concatenation: zero parts mean ε (empty alternative,
spec §4.1), one part is itself, two or more become `Concat`. -/
def mkConcat : List Regex → Regex
  | [] => .empty
  | [r] => r
  | a :: b :: rs => .concat (ofList a b rs)

/-- Assemble an alternation: one part is itself, two or more become `Alt`. -/
def mkAlt : List Regex → Regex
  | [] => .empty
  | [r] => r
  | a :: b :: rs => .alt (ofList a b rs)

mutual

/-- The canonical form of a regex: one-child `Concat`/`Alt` wrappers are
collapsed onto their child (the parser never produces them, since a
single item is returned as itself). -/
def canonR : Regex → Regex
  | .empty => .empty
  | .zero => .zero
  | .lit c => .lit c
  | .concat l => mkConcat (canonL l)
  | .alt l => mkAlt (canonL l)
  | .star r => .star (canonR r)
  | .plus r => .plus (canonR r)

/-- The canonical forms of the children, in order. -/
def canonL : RegexList → List Regex
  | .one r => [canonR r]
  | .cons a l => canonR a :: canonL l

end

theorem canonL_shape : ∀ l : RegexList, ∃ b rs, canonL l = b :: rs
  | .one r => ⟨canonR r, [], by rw [canonL]⟩
  | .cons a l => ⟨canonR a, canonL l, by rw [canonL]⟩

theorem canonR_empty : canonR .empty = .empty := by rw [canonR]

theorem canonR_zero : canonR .zero = .zero := by rw [canonR]

theorem canonR_lit (c : Char) : canonR (.lit c) = .lit c := by rw [canonR]

theorem canonR_star (r : Regex) : canonR (.star r) = .star (canonR r) := by rw [canonR]

theorem canonR_plus (r : Regex) : canonR (.plus r) = .plus (canonR r) := by rw [canonR]

theorem canonR_concat (l : RegexList) : canonR (.concat l) = mkConcat (canonL l) := by
  rw [canonR]

theorem canonR_alt (l : RegexList) : canonR (.alt l) = mkAlt (canonL l) := by rw [canonR]

theorem canonL_one (r : Regex) : canonL (.one r) = [canonR r] := by rw [canonL]

theorem canonL_cons (a : Regex) (l : RegexList) :
    canonL (.cons a l) = canonR a :: canonL l := by rw [canonL]

theorem mkConcat_single (r : Regex) : mkConcat [r] = r := rfl

theorem mkAlt_single (r : Regex) : mkAlt [r] = r := rfl

theorem mkConcat_cons2 (a b : Regex) (rs : List Regex) :
    mkConcat (a :: b :: rs) = .concat (ofList a b rs) := rfl

theorem mkAlt_cons2 (a b : Regex) (rs : List Regex) :
    mkAlt (a :: b :: rs) = .alt (ofList a b rs) := rfl

/-- Consume a chain of repetition operators after an atom. -/
def postLoop : Regex → Str → Regex × Str
  | r, [] => (r, [])
  | r, c :: rest =>
    if c = '*' then postLoop (.star r) rest
    else if c = '+' then postLoop (.plus r) rest
    else (r, c :: rest)

/-- Modelled from the spec: an atom — `ε`, `∅`, a grouped expression, or
a single non-reserved character (§4.1).  `g` parses a grouped body. -/
def atomE (g : Str → Option (Regex × Str)) : Str → Option (Regex × Str)
  | [] => none
  | c :: rest =>
    if c = 'ε' then some (.empty, rest)
    else if c = '∅' then some (.zero, rest)
    else if c = '(' then
      match g rest with
      | some (r, rest2) =>
        match rest2 with
        | c2 :: rest3 => if c2 = ')' then some (r, rest3) else none
        | [] => none
      | none => none
    else if rexReserved.contains c then none
    else some (.lit c, rest)

/-- An atom followed by its repetition operators. -/
def repE (g : Str → Option (Regex × Str)) (s : Str) : Option (Regex × Str) :=
  match atomE g s with
  | some (r, rest) => some (postLoop r rest)
  | none => none

/-- Greedily parse a sequence of repetition-level items (fuelled). -/
def manyE (g : Str → Option (Regex × Str)) : Nat → Str → List Regex × Str
  | 0, s => ([], s)
  | k + 1, s =>
    match repE g s with
    | some (r, rest) =>
      let p := manyE g k rest
      (r :: p.1, p.2)
    | none => ([], s)

/-- A concatenation-level expression (possibly empty, meaning ε). -/
def concatE (g : Str → Option (Regex × Str)) (s : Str) : Option (Regex × Str) :=
  let p := manyE g (s.length + 1) s
  some (mkConcat p.1, p.2)

/-- The `|`-separated alternatives (fuelled). -/
def altsE (g : Str → Option (Regex × Str)) : Nat → Str → List Regex × Str
  | 0, s => ([], s)
  | k + 1, s =>
    match concatE g s with
    | some (r, rest) =>
      match rest with
      | c :: rest2 =>
        if c = '|' then
          let p := altsE g k rest2
          (r :: p.1, p.2)
        else ([r], c :: rest2)
      | [] => ([r], [])
    | none => ([], s)

/-- An alternation-level expression. -/
def altE (g : Str → Option (Regex × Str)) (s : Str) : Option (Regex × Str) :=
  let p := altsE g (s.length + 1) s
  some (mkAlt p.1, p.2)

/-- The full expression parser, by grouping depth. -/
def rexpr : Nat → Str → Option (Regex × Str)
  | 0 => fun _ => none
  | n + 1 => altE (rexpr n)

/-- Modelled from the spec: parse a whole regex (§4.1): the input must be
consumed entirely. -/
def parseRegex (s : Str) : Option Regex :=
  match rexpr (s.length + 1) s with
  | some (r, []) => some r
  | _ => none

/-! ## Thompson construction (spec §4.5)

The construction works on a small intermediate structure — a list of
states with ε-edges and character edges, the initial state always at
index 0 — which the combinators splice by offsetting indices, finalized
into an `Nfa` by keying transitions on the literal alphabet. -/

/-- An intermediate Thompson state. -/
structure TState where
  accepting : Bool
  eps : List Nat
  trans : List (Char × Nat)
deriving DecidableEq, Repr

/-- Shift every state reference by `n`. -/
def tshift (n : Nat) (s : TState) : TState :=
  { accepting := s.accepting
    eps := s.eps.map (· + n)
    trans := s.trans.map (fun p => (p.1, p.2 + n)) }

/-- `ε`: one state, initial and accepting (spec §4.5). -/
def tempty : List TState := [⟨true, [], []⟩]

/-- `∅`: two states, none accepting (spec §4.5). -/
def tzero : List TState := [⟨false, [], []⟩, ⟨false, [], []⟩]

/-- A literal: two states with one transition on the character (spec §4.5). -/
def tlit (c : Char) : List TState := [⟨false, [], [(c, 1)]⟩, ⟨true, [], []⟩]

/-- `a·b`: ε-link `a`'s accepting states to `b`'s initial, clear `a`'s
accepting flags, keep `b`'s (spec §4.5). -/
def tcat (A B : List TState) : List TState :=
  A.map (fun s =>
    { accepting := false
      eps := s.eps ++ (if s.accepting then [A.length] else [])
      trans := s.trans }) ++
  B.map (tshift A.length)

/-- `a|b`: a fresh initial state with ε-transitions to both initials;
both accepting sets retained (spec §4.5). -/
def talt (A B : List TState) : List TState :=
  ⟨false, [1, 1 + A.length], []⟩ ::
    (A.map (tshift 1) ++ B.map (tshift (1 + A.length)))

/-- `a*`: a fresh initial-and-accepting state with an ε-transition to
`a`'s initial and ε-transitions from `a`'s accepting states back to it
(spec §4.5). -/
def tstar (A : List TState) : List TState :=
  ⟨true, [1], []⟩ ::
    A.map (fun s =>
      { accepting := s.accepting
        eps := s.eps.map (· + 1) ++ (if s.accepting then [0] else [])
        trans := s.trans.map (fun p => (p.1, p.2 + 1)) })

mutual

/-- Modelled from the spec: the Thompson construction (§4.5);
`a+` is `a · a*`. -/
def thompson : Regex → List TState
  | .empty => tempty
  | .zero => tzero
  | .lit c => tlit c
  | .concat l => thompsonCat l
  | .alt l => thompsonAlt l
  | .star r => tstar (thompson r)
  | .plus r => tcat (thompson r) (tstar (thompson r))

def thompsonCat : RegexList → List TState
  | .one r => thompson r
  | .cons a l => tcat (thompson a) (thompsonCat l)

def thompsonAlt : RegexList → List TState
  | .one r => thompson r
  | .cons a l => talt (thompson a) (thompsonAlt l)

end

mutual

/-- The literals of a regex, in first-encountered order (with repeats). -/
def litsR : Regex → List Char
  | .empty => []
  | .zero => []
  | .lit c => [c]
  | .concat l => litsL l
  | .alt l => litsL l
  | .star r => litsR r
  | .plus r => litsR r

def litsL : RegexList → List Char
  | .one r => litsR r
  | .cons a l => litsR a ++ litsL l

end

/-- Keep the first occurrence of each element. -/
def dedupFirst : List Char → List Char
  | [] => []
  | c :: rest => c :: dedupFirst (rest.filter (fun d => decide (d ≠ c)))
termination_by l => l.length
decreasing_by
  exact Nat.lt_succ_of_le (List.length_filter_le _ _)

/-- Modelled from the spec: `to_nfa` (§4.5): finalize the Thompson states
into an NFA whose alphabet is the literal set in first-encountered
order.  Transitions on each symbol list the targets in edge order. -/
def Regex.toNfa (r : Regex) : Nfa :=
  let cs := dedupFirst (litsR r)
  let ts := thompson r
  { alphabet := cs.map (fun c => [c])
    states := ts.map (fun s =>
      { name := []
        accepting := s.accepting
        epsilonTransitions := s.eps
        transitions := cs.map (fun c =>
          (s.trans.filter (fun p => decide (p.1 = c))).map (fun p => p.2)) })
    initialState := 0 }

/-! ## Printer/parser round-trip lemmas -/

theorem rprec_empty : rprec .empty = 3 := rfl

theorem rprec_zero : rprec .zero = 3 := rfl

theorem rprec_lit (c : Char) : rprec (.lit c) = 3 := rfl

theorem rprec_concat (l : RegexList) : rprec (.concat l) = 1 := rfl

theorem rprec_alt (l : RegexList) : rprec (.alt l) = 0 := rfl

theorem rprec_star (r : Regex) : rprec (.star r) = 2 := rfl

theorem rprec_plus (r : Regex) : rprec (.plus r) = 2 := rfl

theorem printR_concat (l : RegexList) : printR (.concat l) = printLC l := by
  rw [printR]

theorem printR_alt (l : RegexList) : printR (.alt l) = printLA l := by
  rw [printR]

theorem printR_star (r : Regex) : printR (.star r) = printP 2 r ++ ['*'] := by
  rw [printR, printP]

theorem printR_plus (r : Regex) : printR (.plus r) = printP 2 r ++ ['+'] := by
  rw [printR, printP]

theorem printLC_one (r : Regex) : printLC (.one r) = printP 2 r := by
  rw [printLC, printP]

theorem printLC_cons (a : Regex) (l : RegexList) :
    printLC (.cons a l) = printP 2 a ++ printLC l := by
  rw [printLC, printP]

theorem printLA_one (r : Regex) : printLA (.one r) = printP 1 r := by
  rw [printLA, printP]

theorem printLA_cons (a : Regex) (l : RegexList) :
    printLA (.cons a l) = printP 1 a ++ '|' :: printLA l := by
  rw [printLA, printP]

mutual

theorem printR_pos : ∀ r : Regex, 0 < (printR r).length
  | .empty => by rw [printR]; decide
  | .zero => by rw [printR]; decide
  | .lit c => by rw [printR]; simp
  | .concat l => by rw [printR_concat]; exact printLC_pos l
  | .alt l => by rw [printR_alt]; exact printLA_pos l
  | .star r => by rw [printR_star]; simp
  | .plus r => by rw [printR_plus]; simp

theorem printLC_pos : ∀ l : RegexList, 0 < (printLC l).length
  | .one r => by
    rw [printLC_one, printP]
    split
    · simp
    · exact printR_pos r
  | .cons a l => by
    rw [printLC_cons, List.length_append, printP]
    split
    · simp
    · have := printR_pos a
      omega

theorem printLA_pos : ∀ l : RegexList, 0 < (printLA l).length
  | .one r => by
    rw [printLA_one, printP]
    split
    · simp
    · exact printR_pos r
  | .cons a l => by
    rw [printLA_cons, List.length_append]
    simp

end

theorem printP_pos (c : Nat) (r : Regex) : 0 < (printP c r).length := by
  rw [printP]
  split
  · simp
  · exact printR_pos r

/-- The first character printed for a repetition-level subterm is never a
repetition operator, an alternation bar, or a closing parenthesis. -/
theorem printP2_head : ∀ (r : Regex), goodRe r = true → ∀ c cs, printP 2 r = c :: cs →
    c ≠ '*' ∧ c ≠ '+' ∧ c ≠ '|' ∧ c ≠ ')'
  | .empty, _, c, cs, heq => by
    rw [printP, if_neg (by rw [rprec_empty]; omega), printR] at heq
    cases heq
    refine ⟨by decide, by decide, by decide, by decide⟩
  | .zero, _, c, cs, heq => by
    rw [printP, if_neg (by rw [rprec_zero]; omega), printR] at heq
    cases heq
    refine ⟨by decide, by decide, by decide, by decide⟩
  | .lit a, hg, c, cs, heq => by
    rw [printP, if_neg (by rw [rprec_lit]; omega), printR] at heq
    cases heq
    rw [goodRe, Bool.not_eq_eq_eq_not, Bool.not_true, ← Bool.not_eq_true] at hg
    have hmem : a ∉ rexReserved := fun hm => hg (List.elem_eq_true_of_mem hm)
    refine ⟨?_, ?_, ?_, ?_⟩ <;> intro h <;> exact hmem (h ▸ (by decide))
  | .concat l, _, c, cs, heq => by
    rw [printP, if_pos (by rw [rprec_concat]; omega)] at heq
    cases heq
    refine ⟨by decide, by decide, by decide, by decide⟩
  | .alt l, _, c, cs, heq => by
    rw [printP, if_pos (by rw [rprec_alt]; omega)] at heq
    cases heq
    refine ⟨by decide, by decide, by decide, by decide⟩
  | .star r, hg, c, cs, heq => by
    rw [printP, if_neg (by rw [rprec_star]; omega), printR_star] at heq
    have hg2 : goodRe r = true := by rw [goodRe] at hg; exact hg
    cases hp : printP 2 r with
    | nil => exact absurd hp (by have := printP_pos 2 r; intro h; rw [h] at this; cases this)
    | cons c0 cs0 =>
      rw [hp] at heq
      rw [List.cons_append] at heq
      injection heq with h1 h2
      subst h1
      exact printP2_head r hg2 _ _ hp
  | .plus r, hg, c, cs, heq => by
    rw [printP, if_neg (by rw [rprec_plus]; omega), printR_plus] at heq
    have hg2 : goodRe r = true := by rw [goodRe] at hg; exact hg
    cases hp : printP 2 r with
    | nil => exact absurd hp (by have := printP_pos 2 r; intro h; rw [h] at this; cases this)
    | cons c0 cs0 =>
      rw [hp] at heq
      rw [List.cons_append] at heq
      injection heq with h1 h2
      subst h1
      exact printP2_head r hg2 _ _ hp

theorem postLoop_stop (r : Regex) {s : Str}
    (h : s = [] ∨ ∃ c cs, s = c :: cs ∧ c ≠ '*' ∧ c ≠ '+') : postLoop r s = (r, s) := by
  rcases h with rfl | ⟨c, cs, rfl, hc1, hc2⟩
  · rw [postLoop]
  · rw [postLoop, if_neg hc1, if_neg hc2]

/-- Strings on which a repetition-level item cannot start: the end of
input, a closing parenthesis, or an alternation bar. -/
def StopTok (s : Str) : Prop :=
  s = [] ∨ (∃ cs, s = ')' :: cs) ∨ (∃ cs, s = '|' :: cs)

theorem repE_stop (g : Str → Option (Regex × Str)) {s : Str} (h : StopTok s) :
    repE g s = none := by
  rcases h with rfl | ⟨cs, rfl⟩ | ⟨cs, rfl⟩
  · rw [repE, atomE]
  · rw [repE, atomE, if_neg (by decide), if_neg (by decide), if_neg (by decide),
      if_pos (by decide)]
  · rw [repE, atomE, if_neg (by decide), if_neg (by decide), if_neg (by decide),
      if_pos (by decide)]

theorem postLoop_of_stopTok (r : Regex) {s : Str} (h : StopTok s) :
    postLoop r s = (r, s) := by
  apply postLoop_stop
  rcases h with rfl | ⟨cs, rfl⟩ | ⟨cs, rfl⟩
  · exact Or.inl rfl
  · exact Or.inr ⟨_, _, rfl, by decide, by decide⟩
  · exact Or.inr ⟨_, _, rfl, by decide, by decide⟩

mutual

/-- Structural size of a regex (for the round-trip induction). -/
def rsize : Regex → Nat
  | .empty => 1
  | .zero => 1
  | .lit _ => 1
  | .concat l => rsizeL l + 1
  | .alt l => rsizeL l + 1
  | .star r => rsize r + 1
  | .plus r => rsize r + 1

def rsizeL : RegexList → Nat
  | .one r => rsize r + 1
  | .cons a l => rsize a + rsizeL l

end

theorem rsize_pos : ∀ r : Regex, 0 < rsize r := by
  intro r
  cases r <;> rw [rsize] <;> omega

theorem rsizeL_pos : ∀ l : RegexList, 0 < rsizeL l := by
  intro l
  cases l with
  | one r =>
    rw [rsizeL]
    omega
  | cons a l =>
    rw [rsizeL]
    have := rsize_pos a
    omega

/-- Strings on which an alternation cannot continue: the end of input or
a closing parenthesis. -/
def StopTok1 (s : Str) : Prop :=
  s = [] ∨ ∃ cs, s = ')' :: cs

theorem StopTok1.toStopTok {s : Str} (h : StopTok1 s) : StopTok s := by
  rcases h with rfl | ⟨cs, rfl⟩
  · exact Or.inl rfl
  · exact Or.inr (Or.inl ⟨cs, rfl⟩)

theorem printP1_alt (l : RegexList) :
    printP 1 (.alt l) = '(' :: printR (.alt l) ++ [')'] := by
  rw [printP, if_pos (by rw [rprec_alt]; omega)]

theorem printP2_alt (l : RegexList) :
    printP 2 (.alt l) = '(' :: printR (.alt l) ++ [')'] := by
  rw [printP, if_pos (by rw [rprec_alt]; omega)]

theorem printP2_concat (l : RegexList) :
    printP 2 (.concat l) = '(' :: printR (.concat l) ++ [')'] := by
  rw [printP, if_pos (by rw [rprec_concat]; omega)]

theorem printP1_concat (l : RegexList) : printP 1 (.concat l) = printLC l := by
  rw [printP, if_neg (by rw [rprec_concat]; omega), printR_concat]

theorem printP1_eq_printP2 {r : Regex} (h : 2 ≤ rprec r) : printP 1 r = printP 2 r := by
  rw [printP, printP, if_neg (by omega), if_neg (by omega)]

theorem printP1_eq_printR {r : Regex} (h : 1 ≤ rprec r) : printP 1 r = printR r := by
  rw [printP, if_neg (by omega)]

theorem printP2_eq_printR {r : Regex} (h : 2 ≤ rprec r) : printP 2 r = printR r := by
  rw [printP, if_neg (by omega)]

theorem manyE_stop (g : Str → Option (Regex × Str)) :
    ∀ (k : Nat) {s : Str}, StopTok s → manyE g k s = ([], s)
  | 0, s, _ => by rw [manyE]
  | k + 1, s, h => by rw [manyE, repE_stop g h]

/-- A single repetition-level item, followed by a stop token, is a whole
concatenation-level expression. -/
theorem concatE_of_single (g : Str → Option (Regex × Str)) (r : Regex) (s0 : Str)
    (hrep : ∀ rest, repE g (s0 ++ rest) = some (postLoop r rest))
    (rest : Str) (hstop : StopTok rest) (hpl : postLoop r rest = (r, rest)) :
    concatE g (s0 ++ rest) = some (r, rest) := by
  have hmany : manyE g ((s0 ++ rest).length + 1) (s0 ++ rest) = ([r], rest) := by
    rw [manyE, hrep rest, hpl]
    dsimp only
    rw [manyE_stop g _ hstop]
  rw [concatE, hmany]
  rfl

/-- Round-trip statement at the repetition level: parsing the printed
form yields the canonical form of the term. -/
def PpostS (r : Regex) : Prop :=
  ∀ m, (printP 2 r).length ≤ m →
    ∀ rest, repE (rexpr m) (printP 2 r ++ rest) = some (postLoop (canonR r) rest)

/-- Round-trip statement at the concatenation level. -/
def PconS (r : Regex) : Prop :=
  ∀ m, (printP 1 r).length ≤ m →
    ∀ rest, StopTok rest → concatE (rexpr m) (printP 1 r ++ rest) = some (canonR r, rest)

/-- Round-trip statement at the alternation level. -/
def PaltS (r : Regex) : Prop :=
  ∀ m, (printR r).length ≤ m →
    ∀ rest, StopTok1 rest → altE (rexpr m) (printR r ++ rest) = some (canonR r, rest)

/-- Round-trip statement for a concatenation's child list. -/
def PmanyS (l : RegexList) : Prop :=
  ∀ m, (printLC l).length ≤ m → ∀ k, (printLC l).length ≤ k →
    ∀ rest, StopTok rest → manyE (rexpr m) k (printLC l ++ rest) = (canonL l, rest)

/-- Round-trip statement for an alternation's child list. -/
def PaltsS (l : RegexList) : Prop :=
  ∀ m, (printLA l).length ≤ m → ∀ k, (printLA l).length ≤ k →
    ∀ rest, StopTok1 rest → altsE (rexpr m) k (printLA l ++ rest) = (canonL l, rest)

theorem ppost_group (r : Regex) (hpar : printP 2 r = '(' :: printR r ++ [')'])
    (hPalt : PaltS r) : PpostS r := by
  intro m hm rest
  rw [hpar] at hm ⊢
  rw [List.append_assoc, List.singleton_append, List.cons_append]
  simp only [List.length_cons, List.length_append, List.length_singleton] at hm
  obtain ⟨m', rfl⟩ : ∃ m', m = m' + 1 := ⟨m - 1, by omega⟩
  rw [repE, atomE, if_neg (by decide), if_neg (by decide), if_pos rfl]
  rw [rexpr]
  rw [hPalt m' (by omega) (')' :: rest) (Or.inr ⟨rest, rfl⟩)]
  dsimp only
  rw [if_pos rfl]

theorem ppost_star (r : Regex) (hPpost : PpostS r) : PpostS (.star r) := by
  intro m hm rest
  rw [printP2_eq_printR (by rw [rprec_star]), printR_star] at hm ⊢
  rw [List.append_assoc, List.singleton_append]
  simp only [List.length_append, List.length_singleton] at hm
  rw [hPpost m (by omega) ('*' :: rest)]
  rw [show postLoop (canonR r) ('*' :: rest) = postLoop (.star (canonR r)) rest from by
    rw [postLoop, if_pos rfl]]
  rw [canonR_star]

theorem ppost_plus (r : Regex) (hPpost : PpostS r) : PpostS (.plus r) := by
  intro m hm rest
  rw [printP2_eq_printR (by rw [rprec_plus]), printR_plus] at hm ⊢
  rw [List.append_assoc, List.singleton_append]
  simp only [List.length_append, List.length_singleton] at hm
  rw [hPpost m (by omega) ('+' :: rest)]
  rw [show postLoop (canonR r) ('+' :: rest) = postLoop (.plus (canonR r)) rest from by
    rw [postLoop, if_neg (by decide), if_pos rfl]]
  rw [canonR_plus]

theorem ppost_empty : PpostS .empty := by
  intro m hm rest
  rw [canonR_empty]
  rw [printP2_eq_printR (by rw [rprec_empty]; omega), printR, List.singleton_append]
  rw [repE, atomE, if_pos rfl]

theorem ppost_zero : PpostS .zero := by
  intro m hm rest
  rw [canonR_zero]
  rw [printP2_eq_printR (by rw [rprec_zero]; omega), printR, List.singleton_append]
  rw [repE, atomE, if_neg (by decide), if_pos rfl]

theorem ppost_lit (c : Char) (hg : goodRe (.lit c) = true) : PpostS (.lit c) := by
  intro m hm rest
  have hnc : ¬rexReserved.contains c = true := by
    rw [goodRe, Bool.not_eq_eq_eq_not, Bool.not_true, ← Bool.not_eq_true] at hg
    exact hg
  rw [canonR_lit]
  rw [printP2_eq_printR (by rw [rprec_lit]; omega), printR, List.singleton_append]
  rw [repE, atomE,
    if_neg (fun (h : c = 'ε') => hnc (by rw [h]; decide)),
    if_neg (fun (h : c = '∅') => hnc (by rw [h]; decide)),
    if_neg (fun (h : c = '(') => hnc (by rw [h]; decide)),
    if_neg hnc]

theorem pcon_of_eq (r : Regex) (hne2 : printP 1 r = printP 2 r)
    (hPpost : PpostS r) : PconS r := by
  intro m hm rest hstop
  rw [hne2] at hm ⊢
  exact concatE_of_single (rexpr m) (canonR r) (printP 2 r) (hPpost m hm) rest hstop
    (postLoop_of_stopTok (canonR r) hstop)

theorem pcon_concat (l : RegexList) (hPmany : PmanyS l) : PconS (.concat l) := by
  intro m hm rest hstop
  rw [printP1_concat] at hm ⊢
  rw [concatE]
  rw [hPmany m hm ((printLC l ++ rest).length + 1)
    (by simp only [List.length_append]; omega) rest hstop]
  dsimp only
  rw [canonR_concat]

theorem palt_of_eq (r : Regex) (h1 : printP 1 r = printR r) (hPcon : PconS r) :
    PaltS r := by
  intro m hm rest hstop1
  rw [altE]
  have hcon := hPcon m (by rw [h1]; exact hm) rest hstop1.toStopTok
  rw [h1] at hcon
  have halts : altsE (rexpr m) ((printR r ++ rest).length + 1) (printR r ++ rest) =
      ([canonR r], rest) := by
    rw [altsE, hcon]
    rcases hstop1 with rfl | ⟨cs, rfl⟩
    · rfl
    · dsimp only
      rw [if_neg (by decide)]
  rw [halts]
  rfl

theorem palt_alt (l : RegexList) (hPalts : PaltsS l) : PaltS (.alt l) := by
  intro m hm rest hstop1
  rw [printR_alt] at hm ⊢
  rw [altE]
  rw [hPalts m hm ((printLA l ++ rest).length + 1)
    (by simp only [List.length_append]; omega) rest hstop1]
  dsimp only
  rw [canonR_alt]

theorem printLC_head (l : RegexList) (hg : goodRL l = true) :
    ∀ c cs, printLC l = c :: cs → c ≠ '*' ∧ c ≠ '+' ∧ c ≠ '|' ∧ c ≠ ')' := by
  cases l with
  | one r =>
    intro c cs heq
    rw [goodRL] at hg
    rw [printLC_one] at heq
    exact printP2_head r hg _ _ heq
  | cons a l' =>
    intro c cs heq
    rw [goodRL, Bool.and_eq_true] at hg
    rw [printLC_cons] at heq
    cases hp : printP 2 a with
    | nil => exact absurd hp (by have := printP_pos 2 a; intro h; rw [h] at this; cases this)
    | cons c0 cs0 =>
      rw [hp, List.cons_append] at heq
      injection heq with h1 h2
      subst h1
      exact printP2_head a hg.1 _ _ hp

theorem postLoop_before_chunk (r : Regex) (s : Str)
    (hhead : ∀ c cs, s = c :: cs → c ≠ '*' ∧ c ≠ '+' ∧ c ≠ '|' ∧ c ≠ ')')
    (hpos : 0 < s.length) (rest : Str) :
    postLoop r (s ++ rest) = (r, s ++ rest) := by
  cases hs : s with
  | nil => rw [hs] at hpos; cases hpos
  | cons c0 cs0 =>
    have hh := hhead c0 cs0 hs
    rw [List.cons_append]
    exact postLoop_stop r (Or.inr ⟨c0, _, rfl, hh.1, hh.2.1⟩)

theorem pmany_one (r : Regex) (hPr : PpostS r) : PmanyS (.one r) := by
  intro m hm k hk rest hstop
  rw [printLC_one] at hm hk ⊢
  have hpr := printP_pos 2 r
  obtain ⟨k1, rfl⟩ : ∃ k1, k = k1 + 1 := ⟨k - 1, by omega⟩
  rw [manyE, hPr m hm rest, postLoop_of_stopTok (canonR r) hstop]
  dsimp only
  rw [manyE_stop _ _ hstop]
  rw [canonL_one]

theorem pmany_cons (a : Regex) (l : RegexList) (hgl : goodRL l = true)
    (hPa : PpostS a) (hPml : PmanyS l) : PmanyS (.cons a l) := by
  intro m hm k hk rest hstop
  rw [printLC_cons] at hm hk ⊢
  simp only [List.length_append] at hm hk
  have hpa := printP_pos 2 a
  have hpl := printLC_pos l
  obtain ⟨k1, rfl⟩ : ∃ k1, k = k1 + 1 := ⟨k - 1, by omega⟩
  rw [List.append_assoc]
  rw [manyE]
  rw [hPa m (by omega) (printLC l ++ rest)]
  rw [postLoop_before_chunk (canonR a) (printLC l) (printLC_head l hgl) hpl rest]
  dsimp only
  rw [hPml m (by omega) k1 (by omega) rest hstop]
  rw [canonL_cons]

theorem palts_one (r : Regex) (hPc : PconS r) : PaltsS (.one r) := by
  intro m hm k hk rest hstop1
  rw [printLA_one] at hm hk ⊢
  have hpr := printP_pos 1 r
  obtain ⟨k1, rfl⟩ : ∃ k1, k = k1 + 1 := ⟨k - 1, by omega⟩
  rw [altsE]
  rw [hPc m hm rest hstop1.toStopTok]
  rcases hstop1 with rfl | ⟨cs, rfl⟩
  · rw [canonL_one]
  · dsimp only
    rw [if_neg (by decide)]
    rw [canonL_one]

theorem palts_cons (a : Regex) (l : RegexList) (hPca : PconS a)
    (hPal : PaltsS l) : PaltsS (.cons a l) := by
  intro m hm k hk rest hstop1
  rw [printLA_cons] at hm hk ⊢
  simp only [List.length_append, List.length_cons] at hm hk
  have hpa := printP_pos 1 a
  have hpl := printLA_pos l
  obtain ⟨k1, rfl⟩ : ∃ k1, k = k1 + 1 := ⟨k - 1, by omega⟩
  rw [List.append_assoc, List.cons_append]
  rw [altsE]
  rw [hPca m (by omega) ('|' :: (printLA l ++ rest)) (Or.inr (Or.inr ⟨_, rfl⟩))]
  dsimp only
  rw [if_pos rfl]
  rw [hPal m (by omega) k1 (by omega) rest hstop1]
  rw [canonL_cons]

/-- The printer/parser round-trip, by induction on size: at every level
of the grammar, parsing the printed form recovers the term exactly. -/
theorem roundtrip_main : ∀ n : Nat,
    (∀ r : Regex, rsize r ≤ n → goodRe r = true → PpostS r ∧ PconS r ∧ PaltS r) ∧
    (∀ l : RegexList, rsizeL l ≤ n → goodRL l = true → PmanyS l ∧ PaltsS l) := by
  intro n
  induction n with
  | zero =>
    constructor
    · intro r hr
      exact absurd hr (by have := rsize_pos r; omega)
    · intro l hl
      exact absurd hl (by have := rsizeL_pos l; omega)
  | succ n ih =>
    obtain ⟨ihR, ihL⟩ := ih
    constructor
    · intro r hr hg
      cases r with
      | empty =>
        have h1 := ppost_empty
        have h2 := pcon_of_eq _ (printP1_eq_printP2 (by rw [rprec_empty]; omega)) h1
        exact ⟨h1, h2, palt_of_eq _ (printP1_eq_printR (by rw [rprec_empty]; omega)) h2⟩
      | zero =>
        have h1 := ppost_zero
        have h2 := pcon_of_eq _ (printP1_eq_printP2 (by rw [rprec_zero]; omega)) h1
        exact ⟨h1, h2, palt_of_eq _ (printP1_eq_printR (by rw [rprec_zero]; omega)) h2⟩
      | lit c =>
        have h1 := ppost_lit c hg
        have h2 := pcon_of_eq _ (printP1_eq_printP2 (by rw [rprec_lit]; omega)) h1
        exact ⟨h1, h2, palt_of_eq _ (printP1_eq_printR (by rw [rprec_lit]; omega)) h2⟩
      | star r2 =>
        have hg2 : goodRe r2 = true := by rw [goodRe] at hg; exact hg
        have hr2 : rsize r2 ≤ n := by rw [rsize] at hr; omega
        have h1 := ppost_star r2 (ihR r2 hr2 hg2).1
        have h2 := pcon_of_eq _ (printP1_eq_printP2 (by rw [rprec_star])) h1
        exact ⟨h1, h2, palt_of_eq _ (printP1_eq_printR (by rw [rprec_star]; omega)) h2⟩
      | plus r2 =>
        have hg2 : goodRe r2 = true := by rw [goodRe] at hg; exact hg
        have hr2 : rsize r2 ≤ n := by rw [rsize] at hr; omega
        have h1 := ppost_plus r2 (ihR r2 hr2 hg2).1
        have h2 := pcon_of_eq _ (printP1_eq_printP2 (by rw [rprec_plus])) h1
        exact ⟨h1, h2, palt_of_eq _ (printP1_eq_printR (by rw [rprec_plus]; omega)) h2⟩
      | concat l =>
        have hgl : goodRL l = true := by rw [goodRe] at hg; exact hg
        have hll : rsizeL l ≤ n := by rw [rsize] at hr; omega
        have h2 := pcon_concat l (ihL l hll hgl).1
        have h3 := palt_of_eq _ (printP1_eq_printR (by rw [rprec_concat])) h2
        have h1 := ppost_group _ (printP2_concat l) h3
        exact ⟨h1, h2, h3⟩
      | alt l =>
        have hgl : goodRL l = true := by rw [goodRe] at hg; exact hg
        have hll : rsizeL l ≤ n := by rw [rsize] at hr; omega
        have h3 := palt_alt l (ihL l hll hgl).2
        have h1 := ppost_group _ (printP2_alt l) h3
        have h2 := pcon_of_eq _
          (show printP 1 (.alt l) = printP 2 (.alt l) from by
            rw [printP1_alt, printP2_alt]) h1
        exact ⟨h1, h2, h3⟩
    · intro l hl hgl
      cases l with
      | one r =>
        rw [goodRL] at hgl
        have hr : rsize r ≤ n := by
          rw [rsizeL] at hl
          omega
        have hP := ihR r hr hgl
        exact ⟨pmany_one r hP.1, palts_one r hP.2.1⟩
      | cons a l2 =>
        rw [goodRL, Bool.and_eq_true] at hgl
        have ha : rsize a ≤ n := by
          rw [rsizeL] at hl
          have := rsizeL_pos l2
          omega
        have hl2 : rsizeL l2 ≤ n := by
          rw [rsizeL] at hl
          have := rsize_pos a
          omega
        have hPa := ihR a ha hgl.1
        have hPl := ihL l2 hl2 hgl.2
        exact ⟨pmany_cons a l2 hgl.2 hPa.1 hPl.1, palts_cons a l2 hPa.2.1 hPl.2⟩

/-- Parsing the display of a well-formed regex recovers its canonical
form (one-child Concat/Alt wrappers collapsed onto their child). -/
theorem parse_printRegex (r : Regex) (hg : goodRe r = true) :
    parseRegex (printRegex r) = some (canonR r) := by
  have hPalt := ((roundtrip_main (rsize r)).1 r (le_refl _) hg).2.2
  rw [parseRegex, printRegex]
  have hx := hPalt ((printR r).length) (le_refl _) [] (Or.inl rfl)
  rw [List.append_nil] at hx
  rw [show rexpr ((printR r).length + 1) = altE (rexpr ((printR r).length)) from by
    rw [rexpr]]
  rw [hx]

theorem thompsonCat_ofList : ∀ (rs : List Regex) (a b : Regex),
    thompsonCat (ofList a b rs) = tcat (thompson a) (thompson (mkConcat (b :: rs)))
  | [], a, b => by
    rw [ofList, thompsonCat, thompsonCat, mkConcat_single]
  | c :: rs, a, b => by
    rw [ofList, thompsonCat, thompsonCat_ofList rs b c, mkConcat_cons2, thompson,
      thompsonCat_ofList rs b c]

theorem thompsonAlt_ofList : ∀ (rs : List Regex) (a b : Regex),
    thompsonAlt (ofList a b rs) = talt (thompson a) (thompson (mkAlt (b :: rs)))
  | [], a, b => by
    rw [ofList, thompsonAlt, thompsonAlt, mkAlt_single]
  | c :: rs, a, b => by
    rw [ofList, thompsonAlt, thompsonAlt_ofList rs b c, mkAlt_cons2, thompson,
      thompsonAlt_ofList rs b c]

mutual

theorem thompson_canonR : ∀ r : Regex, thompson (canonR r) = thompson r
  | .empty => by rw [canonR_empty]
  | .zero => by rw [canonR_zero]
  | .lit c => by rw [canonR_lit]
  | .star r => by rw [canonR_star, thompson, thompson, thompson_canonR r]
  | .plus r => by rw [canonR_plus, thompson, thompson, thompson_canonR r]
  | .concat l => by rw [canonR_concat, thompson_canonLC l, thompson]
  | .alt l => by rw [canonR_alt, thompson_canonLA l, thompson]

theorem thompson_canonLC : ∀ l : RegexList, thompson (mkConcat (canonL l)) = thompsonCat l
  | .one r => by rw [canonL_one, mkConcat_single, thompson_canonR r, thompsonCat]
  | .cons a l => by
    obtain ⟨b, rs, hbl⟩ := canonL_shape l
    rw [canonL_cons, hbl, mkConcat_cons2, thompson, thompsonCat_ofList,
      thompson_canonR a, ← hbl, thompson_canonLC l]
    rw [thompsonCat]

theorem thompson_canonLA : ∀ l : RegexList, thompson (mkAlt (canonL l)) = thompsonAlt l
  | .one r => by rw [canonL_one, mkAlt_single, thompson_canonR r, thompsonAlt]
  | .cons a l => by
    obtain ⟨b, rs, hbl⟩ := canonL_shape l
    rw [canonL_cons, hbl, mkAlt_cons2, thompson, thompsonAlt_ofList,
      thompson_canonR a, ← hbl, thompson_canonLA l]
    rw [thompsonAlt]

end

theorem litsL_ofList : ∀ (rs : List Regex) (a b : Regex),
    litsL (ofList a b rs) = litsR a ++ litsR (mkConcat (b :: rs))
  | [], a, b => by
    rw [ofList, litsL, litsL, mkConcat_single]
  | c :: rs, a, b => by
    rw [ofList, litsL, litsL_ofList rs b c, mkConcat_cons2, litsR,
      litsL_ofList rs b c]

mutual

theorem lits_canonR : ∀ r : Regex, litsR (canonR r) = litsR r
  | .empty => by rw [canonR_empty]
  | .zero => by rw [canonR_zero]
  | .lit c => by rw [canonR_lit]
  | .star r => by rw [canonR_star, litsR, litsR, lits_canonR r]
  | .plus r => by rw [canonR_plus, litsR, litsR, lits_canonR r]
  | .concat l => by rw [canonR_concat, lits_canonLC l, litsR]
  | .alt l => by rw [canonR_alt, lits_canonLA l, litsR]

theorem lits_canonLC : ∀ l : RegexList, litsR (mkConcat (canonL l)) = litsL l
  | .one r => by rw [canonL_one, mkConcat_single, lits_canonR r, litsL]
  | .cons a l => by
    obtain ⟨b, rs, hbl⟩ := canonL_shape l
    rw [canonL_cons, hbl, mkConcat_cons2, litsR, litsL_ofList, lits_canonR a,
      ← hbl, lits_canonLC l, litsL]

theorem lits_canonLA : ∀ l : RegexList, litsR (mkAlt (canonL l)) = litsL l
  | .one r => by rw [canonL_one, mkAlt_single, lits_canonR r, litsL]
  | .cons a l => by
    obtain ⟨b, rs, hbl⟩ := canonL_shape l
    rw [canonL_cons, hbl, mkAlt_cons2, litsR, litsL_ofList, lits_canonR a,
      ← hbl, lits_canonLC l, litsL]

end

/-- Canonicalization does not change the compiled NFA at all. -/
theorem toNfa_canon (r : Regex) : Regex.toNfa (canonR r) = Regex.toNfa r := by
  rw [Regex.toNfa, Regex.toNfa, lits_canonR r, thompson_canonR r]

/-- C8: For every regex AST `r` — `Concat`/`Alt` children kept as
nonempty lists, so one-child nodes are included, and literals not equal
to a reserved operator — pretty-printing then re-parsing succeeds,
returning the canonical form of `r` (one-child `Concat`/`Alt` wrappers,
which print identically to their child, collapsed onto it), and the
Thompson NFA of the re-parsed regex accepts exactly the words the
original regex's NFA does. -/
theorem claim_C8_regex_roundtrip (r : Regex) (hg : goodRe r = true) :
    parseRegex (printRegex r) = some (canonR r) ∧
    ∀ r2, parseRegex (printRegex r) = some r2 →
      ∀ w : List Str, r2.toNfa.accepts w = r.toNfa.accepts w := by
  have hp := parse_printRegex r hg
  refine ⟨hp, ?_⟩
  intro r2 h2 w
  rw [hp] at h2
  injection h2 with h3
  rw [← h3, toNfa_canon r]

/-- Sample regex `(a*|bc)`: a one-child Concat wrapping an Alt. -/
def sampleR : Regex :=
  .concat (.one (.alt (.cons (.star (.lit 'a'))
    (.one (.concat (.cons (.lit 'b') (.one (.lit 'c'))))))))

/-- Witness for C8 at the concrete regex `(a*|bc)`. -/
theorem claim_C8_regex_roundtrip_witness :
    goodRe sampleR = true ∧
      (parseRegex (printRegex sampleR) = some (canonR sampleR) ∧
        ∀ r2, parseRegex (printRegex sampleR) = some r2 →
          ∀ w : List Str, r2.toNfa.accepts w = sampleR.toNfa.accepts w) :=
  ⟨by decide, claim_C8_regex_roundtrip sampleR (by decide)⟩

end Dandy
